import Mathlib

/-!
Verification of the replaceDOMText engine (src/replaceDOMText.ts).

The embedding models the DOM as an immutable tree of nodes carrying numeric
identities (`DNode`), strings as lists of characters (`Str`), and the external
pattern engine as a function from a string to its list of raw matches
(`Pattern`).  All functions are translated from the TypeScript source:
`getAggregateText`, `search`, `prepMatch`, `prepareReplacementString`,
`getPortionReplacementNode`, `replaceMatch`, `processMatches` (as a fuelled
loop), and `revert`.
-/

namespace RDT

/-- Characters of a JavaScript string. -/
abbrev Str := List Char

/-- JavaScript `String.prototype.substring(a, b)`: both arguments are clamped
into `[0, length]` and swapped when out of order. -/
def jsSubstring (s : Str) (a b : Int) : Str :=
  let n : Int := (s.length : Int)
  let a' := min (max a 0) n
  let b' := min (max b 0) n
  let lo := min a' b'
  let hi := max a' b'
  (s.take hi.toNat).drop lo.toNat

/-- JavaScript `String.prototype.substring(a)` (one-argument form). -/
def jsSubstringFrom (s : Str) (a : Int) : Str :=
  jsSubstring s a (s.length : Int)

/-- A DOM node: a text node with a string payload or an element with a tag
name, a class attribute and an ordered list of children.  The `id` field
models JavaScript object identity of live DOM nodes. -/
inductive DNode where
  | text (id : Nat) (data : Str)
  | elem (id : Nat) (name : Str) (cls : Str) (children : List DNode)

mutual
/-- Boolean equality of nodes. -/
def DNode.beq : DNode → DNode → Bool
  | .text i d, .text j e => i == j && d == e
  | .elem i nm c cs, .elem j mm b ds => i == j && nm == mm && c == b && DNode.beqL cs ds
  | _, _ => false
/-- Boolean equality of forests. -/
def DNode.beqL : List DNode → List DNode → Bool
  | [], [] => true
  | x :: xs, y :: ys => DNode.beq x y && DNode.beqL xs ys
  | _, _ => false
end

mutual
/-- `DNode.beq` decides equality. -/
def DNode.beq_iff : ∀ a b : DNode, DNode.beq a b = true ↔ a = b
  | .text i d, .text j e => by simp [DNode.beq]
  | .text _ _, .elem _ _ _ _ => by simp [DNode.beq]
  | .elem _ _ _ _, .text _ _ => by simp [DNode.beq]
  | .elem i nm c cs, .elem j mm b ds => by
      simp [DNode.beq, DNode.beqL_iff cs ds, and_assoc]
/-- `DNode.beqL` decides equality. -/
def DNode.beqL_iff : ∀ a b : List DNode, DNode.beqL a b = true ↔ a = b
  | [], [] => by simp [DNode.beqL]
  | [], _ :: _ => by simp [DNode.beqL]
  | _ :: _, [] => by simp [DNode.beqL]
  | x :: xs, y :: ys => by
      simp [DNode.beqL, DNode.beq_iff x y, DNode.beqL_iff xs ys]
end

instance : DecidableEq DNode := fun a b => decidable_of_iff _ (DNode.beq_iff a b)

/-- The identity of a node. -/
def DNode.idOf : DNode → Nat
  | .text i _ => i
  | .elem i _ _ _ => i

/-- Whether a node is a text node (`nodeType === Node.TEXT_NODE`,
`instanceof Text`). -/
def DNode.isText : DNode → Bool
  | .text _ _ => true
  | .elem _ _ _ _ => false

mutual
/-- All node identities occurring in a subtree. -/
def nodeIds : DNode → List Nat
  | .text i _ => [i]
  | .elem i _ _ cs => i :: nodeIdsL cs
/-- All node identities occurring in a forest. -/
def nodeIdsL : List DNode → List Nat
  | [] => []
  | n :: ns => nodeIds n ++ nodeIdsL ns
end

mutual
/-- Look up the subtree rooted at the node with the given identity. -/
def getById (t : DNode) (target : Nat) : Option DNode :=
  if t.idOf = target then some t else
    match t with
    | .text _ _ => none
    | .elem _ _ _ cs => getByIdL cs target
/-- Look up a node by identity in a forest. -/
def getByIdL (l : List DNode) (target : Nat) : Option DNode :=
  match l with
  | [] => none
  | n :: ns =>
    match getById n target with
    | some r => some r
    | none => getByIdL ns target
end

mutual
/-- The identity of the parent of the node with identity `target`
(`node.parentNode`); `none` for the root or an absent node. -/
def parentIdOf (t : DNode) (target : Nat) : Option Nat :=
  match t with
  | .text _ _ => none
  | .elem i _ _ cs =>
    if (cs.map DNode.idOf).contains target then some i
    else parentIdOfL cs target
/-- Parent lookup in a forest. -/
def parentIdOfL (l : List DNode) (target : Nat) : Option Nat :=
  match l with
  | [] => none
  | n :: ns =>
    match parentIdOf n target with
    | some r => some r
    | none => parentIdOfL ns target
end

/-- The next sibling within one children list. -/
def nextSibAux (target : Nat) : List DNode → Option Nat
  | [] => none
  | n :: ns =>
    if n.idOf = target then (ns.head?).map DNode.idOf
    else nextSibAux target ns

mutual
/-- The identity of the following sibling of the node with identity `target`
(`node.nextSibling`). -/
def nextSiblingOf (t : DNode) (target : Nat) : Option Nat :=
  match t with
  | .text _ _ => none
  | .elem _ _ _ cs =>
    if (cs.map DNode.idOf).contains target then nextSibAux target cs
    else nextSiblingOfL cs target
/-- Next-sibling lookup in a forest. -/
def nextSiblingOfL (l : List DNode) (target : Nat) : Option Nat :=
  match l with
  | [] => none
  | n :: ns =>
    match nextSiblingOf n target with
    | some r => some r
    | none => nextSiblingOfL ns target
end

/-- The identity of the first child of the node with identity `target`
(`node.firstChild`). -/
def firstChildOf (t : DNode) (target : Nat) : Option Nat :=
  match getById t target with
  | some (.elem _ _ _ (c :: _)) => some c.idOf
  | _ => none

mutual
/-- `parent.insertBefore(nw, ref)`: insert `nw` directly before the child
with identity `ref`.  A no-op when `ref` does not occur as a child. -/
def insertBeforeId (t : DNode) (ref : Nat) (nw : DNode) : DNode :=
  match t with
  | .text i d => .text i d
  | .elem i nm c cs => .elem i nm c (insertBeforeIdL cs ref nw)
/-- Insertion in a forest. -/
def insertBeforeIdL (l : List DNode) (ref : Nat) (nw : DNode) : List DNode :=
  match l with
  | [] => []
  | n :: ns =>
    if n.idOf = ref then nw :: n :: ns
    else insertBeforeId n ref nw :: insertBeforeIdL ns ref nw
end

mutual
/-- `parent.removeChild(node)`: remove the child with identity `target`.
A no-op when `target` does not occur as a child. -/
def removeId (t : DNode) (target : Nat) : DNode :=
  match t with
  | .text i d => .text i d
  | .elem i nm c cs => .elem i nm c (removeIdL cs target)
/-- Removal in a forest. -/
def removeIdL (l : List DNode) (target : Nat) : List DNode :=
  match l with
  | [] => []
  | n :: ns =>
    if n.idOf = target then ns
    else removeId n target :: removeIdL ns target
end

mutual
/-- `parent.replaceChild(nw, old)`: replace the child with identity `target`
by `nw`.  A no-op when `target` does not occur as a child. -/
def replaceId (t : DNode) (target : Nat) (nw : DNode) : DNode :=
  match t with
  | .text i d => .text i d
  | .elem i nm c cs => .elem i nm c (replaceIdL cs target nw)
/-- Replacement in a forest. -/
def replaceIdL (l : List DNode) (target : Nat) (nw : DNode) : List DNode :=
  match l with
  | [] => []
  | n :: ns =>
    if n.idOf = target then nw :: ns
    else replaceId n target nw :: replaceIdL ns target nw
end

/-- A raw match as reported by the external pattern engine for one input
string: `index` is the start offset within that string, `matched` is
`match[0]`, `groups` are the captured groups (`match[1..]`, `none` for a
non-participating group), and `input` is the string searched. -/
structure RMatch where
  index : Nat
  matched : Str
  groups : List (Option Str)
  input : Str
deriving DecidableEq

/-- The external pattern engine (a compiled `RegExp`): its global flag and,
for every input string, the ordered list of matches successive `exec` calls
would report. -/
structure Pattern where
  global : Bool
  exec : Str → List RMatch

/-- Literal substring search: the matches of `new RegExp(escapeRegExp(pat), "g")`
on an input.  Finds non-overlapping occurrences left to right (`skip` counts
characters still covered by the previous match); for the empty pattern it
reports the single zero-length match `exec` would return first. -/
def stringOccs (pat : Str) (input : Str) : Str → Nat → Nat → List RMatch
  | [], pos, skip =>
    if pat = [] ∧ skip = 0 then [⟨pos, [], [], input⟩] else []
  | c :: cs, pos, skip =>
    match skip with
    | k + 1 => stringOccs pat input cs (pos + 1) k
    | 0 =>
      if pat = [] then [⟨pos, [], [], input⟩]
      else if (c :: cs).take pat.length = pat then
        ⟨pos, pat, [], input⟩ :: stringOccs pat input cs (pos + 1) (pat.length - 1)
      else stringOccs pat input cs (pos + 1) 0

/-- The `RegExp` built for a literal string find specification
(`new RegExp(escapeRegExp(rawFind), "g")`). -/
def stringPattern (pat : Str) : Pattern :=
  { global := true, exec := fun s => stringOccs pat s s 0 0 }

/-- The find specification: a literal string or a pattern object. -/
inductive FindSpec where
  | str (s : Str)
  | regex (p : Pattern)

/-- The `RegExp` the search runs
(`typeof rawFind === "string" ? new RegExp(escapeRegExp(rawFind), "g") : rawFind`). -/
def regexOf : FindSpec → Pattern
  | .str s => stringPattern s
  | .regex p => p

/-- A match with meta information attached by `Finder.prepMatch`:
`startIndex`/`endIndex` are offsets in the global character stream, `index`
is the sequential match index, `input` the leaf string the engine ran on. -/
structure MatchWithMeta where
  matched : Str
  groups : List (Option Str)
  startIndex : Nat
  endIndex : Nat
  index : Nat
  input : Str
deriving DecidableEq

/-- A portion: one text node's contribution to one match. -/
structure Portion where
  node : DNode
  index : Nat
  text : Str
  indexInMatch : Nat
  indexInNode : Int
  endIndexInNode : Int
  isEnd : Bool := false
deriving DecidableEq

/-- `PortionMode`. -/
inductive PortionMode where
  | retain
  | first
deriving DecidableEq

/-- The value a functional `replace` option returns
(`string | number | HTMLElement | Text`). -/
inductive FnRet where
  | node (n : DNode)
  | str (s : Str)
  | num (k : Int)

/-- The `replace` option: a template string or a function. -/
inductive ReplaceSpec where
  | str (s : Str)
  | fn (f : Portion → MatchWithMeta → FnRet)

/-- The `wrap` option: an element name to create, or a stencil element
(name and class attribute) cloned shallowly for each portion. -/
inductive WrapSpec where
  | name (nm : Str)
  | stencil (nm : Str) (cls : Str)

/-- The `forceContext` option: a boolean or a predicate on elements. -/
inductive ForceCtx where
  | bool (b : Bool)
  | fn (f : DNode → Bool)

/-- The `preset` option. -/
inductive PresetKind where
  | prose

/-- The options record passed to `findAndReplaceDOMText`. -/
structure Options where
  find : FindSpec
  replace : Option ReplaceSpec := none
  wrap : Option WrapSpec := none
  wrapClass : Option Str := none
  portionMode : Option PortionMode := none
  filterElements : Option (DNode → Bool) := none
  forceContext : Option ForceCtx := none
  preset : Option PresetKind := none

/-- Truthiness of the `forceContext` option applied to an element
(`forceContext && (forceContext === true || (typeof forceContext === "function" && forceContext(child)))`). -/
def fcHolds (fc : Option ForceCtx) (el : DNode) : Bool :=
  match fc with
  | none => false
  | some (.bool b) => b
  | some (.fn f) => f el

/-- Names of `NON_PROSE_ELEMENTS`. -/
def NON_PROSE_ELEMENTS : List Str :=
  ["br", "hr", "script", "style", "img", "video", "audio", "canvas", "svg",
   "map", "object", "input", "textarea", "select", "option", "optgroup",
   "button"].map String.toList

/-- Names of `NON_CONTIGUOUS_PROSE_ELEMENTS`. -/
def NON_CONTIGUOUS_PROSE_ELEMENTS : List Str :=
  ["address", "article", "aside", "blockquote", "dd", "div", "dl", "fieldset",
   "figcaption", "figure", "footer", "form", "h1", "h2", "h3", "h4", "h5",
   "h6", "header", "hgroup", "hr", "main", "nav", "noscript", "ol", "output",
   "p", "pre", "section", "ul", "br", "li", "summary", "dt", "details", "rp",
   "rt", "rtc", "script", "style", "img", "video", "audio", "canvas", "svg",
   "map", "object", "input", "textarea", "select", "option", "optgroup",
   "button", "table", "tbody", "thead", "th", "tr", "td", "caption", "col",
   "tfoot", "colgroup"].map String.toList

/-- The tag name of an element, lower-cased (`el.nodeName.toLocaleLowerCase()`). -/
def lowerName : DNode → Str
  | .text _ _ => []
  | .elem _ nm _ _ => nm.map Char.toLower

/-- `NON_INLINE_PROSE`. -/
def NON_INLINE_PROSE (el : DNode) : Bool :=
  NON_CONTIGUOUS_PROSE_ELEMENTS.contains (lowerName el)

/-- The `filterElements` predicate of the `prose` preset. -/
def proseFilterElements (el : DNode) : Bool :=
  !(NON_PROSE_ELEMENTS.contains (lowerName el))

/-- The constructor's option preparation: default the portion mode to
`retain`, then apply the preset via `options = { ...options, ...preset }`
(the preset's own keys — `forceContext` and `filterElements` — land last in
the spread and therefore overwrite the caller's values). -/
def buildOptions (o : Options) : Options :=
  let o := { o with portionMode := some ((o.portionMode).getD .retain) }
  match o.preset with
  | some .prose =>
    { o with forceContext := some (.fn NON_INLINE_PROSE),
             filterElements := some proseFilterElements }
  | none => o

/-- One entry of the aggregation (`TextAgg = Array<string | TextAgg>`). -/
inductive AggItem where
  | s (x : Str)
  | nested (l : List AggItem)

mutual
/-- `getText` inside `Finder.getAggregateText`: aggregate the visible text of
a node, excluding filtered subtrees and isolating force-context elements. -/
def getText (fe : Option (DNode → Bool)) (fc : Option ForceCtx) : DNode → List AggItem
  | .text _ d => [.s d]
  | .elem i nm c cs =>
    match fe with
    | some f => if f (.elem i nm c cs) then getTextChildren fe fc cs [] [] else []
    | none => getTextChildren fe fc cs [] []
/-- The child loop of `getText`: `done` holds the closed entries of `txt`,
`cur` the string being accumulated at the current index `i`. -/
def getTextChildren (fe : Option (DNode → Bool)) (fc : Option ForceCtx) :
    List DNode → List AggItem → Str → List AggItem
  | [], done, cur => done ++ [.s cur]
  | .text _j d :: rest, done, cur => getTextChildren fe fc rest done (cur ++ d)
  | .elem j nm c cs :: rest, done, cur =>
    let child : DNode := .elem j nm c cs
    let innerText := getText fe fc child
    if fcHolds fc child then
      getTextChildren fe fc rest (done ++ [.s cur, .nested innerText]) []
    else
      match innerText with
      | .s h :: t =>
        if t.isEmpty then getTextChildren fe fc rest done (cur ++ h)
        else getTextChildren fe fc rest (done ++ [.s (cur ++ h), .nested t]) []
      | inner =>
        if inner.isEmpty then getTextChildren fe fc rest done cur
        else getTextChildren fe fc rest (done ++ [.s cur, .nested inner]) []
end

/-- `Finder.getAggregateText`. -/
def getAggregateText (o : Options) (root : DNode) : List AggItem :=
  getText o.filterElements o.forceContext root

/-- The error raised by `Finder.prepMatch` for zero-length matches. -/
def zeroLenMsg : Str :=
  "findAndReplaceDOMText cannot handle zero-length matches".toList

/-- `Finder.prepMatch`: attach meta information; a zero-length `match[0]` is
a fatal error. -/
def prepMatch (m : RMatch) (matchIndex : Nat) (characterOffset : Nat) :
    Except Str MatchWithMeta :=
  if m.matched = [] then .error zeroLenMsg
  else .ok { matched := m.matched, groups := m.groups,
             startIndex := characterOffset + m.index,
             endIndex := characterOffset + m.index + m.matched.length,
             index := matchIndex, input := m.input }

/-- The global-mode `exec` loop of `matchAggregation` over one leaf string:
push each engine match (with increasing match index) until the engine is
exhausted or a zero-length match raises. -/
def execLoop (ms : List RMatch) (matchIndex offset : Nat)
    (acc : List MatchWithMeta) : Except Str (List MatchWithMeta × Nat) :=
  match ms with
  | [] => .ok (acc, matchIndex)
  | m :: rest => do
    let p ← prepMatch m matchIndex offset
    execLoop rest (matchIndex + 1) offset (acc ++ [p])

mutual
/-- `matchAggregation` inside `Finder.search`: walk the aggregation items in
order, matching each leaf string and accumulating the character offset. -/
def matchAgg (p : Pattern) : List AggItem → Nat → Nat → List MatchWithMeta →
    Except Str (List MatchWithMeta × Nat × Nat)
  | [], matchIndex, offset, acc => .ok (acc, matchIndex, offset)
  | item :: rest, matchIndex, offset, acc => do
    let (acc2, matchIndex2, offset2) ← matchAggItem p item matchIndex offset acc
    matchAgg p rest matchIndex2 offset2 acc2
/-- The body of `matchAggregation` for one aggregation item: recurse into a
nested aggregation, or run the engine over a leaf string — every match in
global mode, only the first match otherwise — and advance the offset. -/
def matchAggItem (p : Pattern) : AggItem → Nat → Nat → List MatchWithMeta →
    Except Str (List MatchWithMeta × Nat × Nat)
  | .nested l, matchIndex, offset, acc => matchAgg p l matchIndex offset acc
  | .s item, matchIndex, offset, acc =>
    if p.global then do
      let (acc2, matchIndex2) ← execLoop (p.exec item) matchIndex offset acc
      .ok (acc2, matchIndex2, offset + item.length)
    else
      match (p.exec item).head? with
      | some m => do
        let pm ← prepMatch m 0 offset
        .ok (acc ++ [pm], matchIndex, offset + item.length)
      | none => .ok (acc, matchIndex, offset + item.length)
end

/-- `Finder.search`. -/
def searchE (o : Options) (root : DNode) : Except Str (List MatchWithMeta) := do
  let regex := regexOf o.find
  let textAggregation := getAggregateText o root
  let (ms, _, _) ← matchAgg regex textAggregation 0 0 []
  pure ms

/-- The character code of the backtick token. -/
def backtickChar : Char := Char.ofNat 96

/-- The character code of the single-quote token. -/
def quoteChar : Char := Char.ofNat 39

/-- `match[+t] || ""` for a numeric token `t`: index 0 is the whole match,
index `k + 1` the `k`-th capture group, with `undefined` and empty groups
both yielding the empty string. -/
def groupVal (m : MatchWithMeta) (t : Nat) : Str :=
  match t with
  | 0 => m.matched
  | k + 1 =>
    match m.groups.get? k with
    | some (some g) => g
    | _ => []

/-- Digits to a number (`+t` on a digit string). -/
def digitsToNat (ds : Str) : Nat :=
  ds.foldl (fun a c => a * 10 + (c.toNat - 48)) 0

/-- The scanning pass of the token substitution
`str.replace(/\$(\d+|[&\x60\x27])/g, ...)`, fuelled by the input length
(every step consumes at least one character, so the fuel never runs out when
it starts at the string length). -/
def interpGo (m : MatchWithMeta) : Nat → Str → Str
  | 0, s => s
  | _ + 1, [] => []
  | fuel + 1, c :: rest =>
    if c = '$' then
      match rest with
      | d :: rest2 =>
        if d = '&' then m.matched ++ interpGo m fuel rest2
        else if d = backtickChar then
          jsSubstring m.input 0 (m.startIndex : Int) ++ interpGo m fuel rest2
        else if d = quoteChar then
          jsSubstringFrom m.input (m.endIndex : Int) ++ interpGo m fuel rest2
        else if d.isDigit then
          let ds := (d :: rest2).takeWhile Char.isDigit
          groupVal m (digitsToNat ds) ++ interpGo m fuel ((d :: rest2).drop ds.length)
        else c :: interpGo m fuel (d :: rest2)
      | [] => [c]
    else c :: interpGo m fuel rest

/-- The token substitution pass of `Finder.prepareReplacementString`. -/
def interpolate (m : MatchWithMeta) (s : Str) : Str :=
  interpGo m s.length s

/-- `Finder.prepareReplacementString`. -/
def prepareReplacementString (o : Options) (s : Str) (portion : Portion)
    (m : MatchWithMeta) : Str :=
  if o.portionMode = some .first && portion.indexInMatch > 0 then []
  else
    let str := interpolate m s
    if o.portionMode = some .first then str
    else if portion.isEnd then jsSubstringFrom str (portion.indexInMatch : Int)
    else jsSubstring str (portion.indexInMatch : Int)
           ((portion.indexInMatch : Int) + (portion.text.length : Int))

/-- `String(result)` for a numeric return value of a replace function. -/
def jsNumToStr (k : Int) : Str :=
  (toString k).toList

/-- Set the `className` of an element (`el.className = wrapClass`). -/
def setClassName (n : DNode) (wc : Str) : DNode :=
  match n with
  | .text i d => .text i d
  | .elem i nm _ cs => .elem i nm wc cs

/-- Append a child to an element (`el.appendChild(textNode)`). -/
def appendChildN (n : DNode) (child : DNode) : DNode :=
  match n with
  | .text i d => .text i d
  | .elem i nm c cs => .elem i nm c (cs ++ [child])

/-- The default replacement template (`const { replace = "$&" } = this.options`). -/
def defaultReplace : ReplaceSpec := .str ['$', '&']

/-- `Finder.getPortionReplacementNode`: build the node replacing one portion.
Fresh node identities are drawn from the allocator `nid`; the second
component is the advanced allocator. -/
def getPortionReplacementNode (o : Options) (portion : Portion)
    (m : MatchWithMeta) (nid : Nat) : DNode × Nat :=
  match (o.replace).getD defaultReplace with
  | .fn f =>
    match f portion m with
    | .node n => (n, nid)
    | .str s => (.text nid s, nid + 1)
    | .num k => (.text nid (jsNumToStr k), nid + 1)
  | .str rs =>
    let replacementText := prepareReplacementString o rs portion m
    let textNode : DNode := .text nid replacementText
    let nid := nid + 1
    match o.wrap with
    | none => (textNode, nid)
    | some w =>
      if replacementText.length = 0 then (.text nid [], nid + 1)
      else
        let (el, nid) : DNode × Nat :=
          match w with
          | .name nm => (.elem nid nm [] [], nid + 1)
          | .stencil nm cls => (.elem nid nm cls [], nid + 1)
        let el := match o.wrapClass with
          | some wc => if wc = [] then el else setClassName el wc
          | none => el
        (appendChildN el textNode, nid)


/-- A recorded inverse operation, mirroring the three closure shapes pushed
onto `this.reverts` by `Finder.replaceMatch`. -/
inductive RevertOp where
  | single (pre fol : Option Nat) (parent : Option Nat) (newId : Nat) (orig : DNode)
  | inner (newId : Nat) (orig : DNode)
  | outer (sPre : Option Nat) (firstId : Nat) (sOrig : DNode) (sFol : Option Nat)
          (ePre : Option Nat) (lastId : Nat) (eOrig : DNode) (eFol : Option Nat)
deriving DecidableEq

/-- `x?.parentNode?.removeChild(x)`. -/
def removeIfParented (t : DNode) (x : Option Nat) : DNode :=
  match x with
  | some i => if (parentIdOf t i).isSome then removeId t i else t
  | none => t

/-- `n.parentNode?.replaceChild(orig, n)` for the node with identity `newId`. -/
def replaceIfParented (t : DNode) (newId : Nat) (orig : DNode) : DNode :=
  if (parentIdOf t newId).isSome then replaceId t newId orig else t

/-- Execute one recorded inverse operation (the body of the pushed closure). -/
def runRevert (op : RevertOp) (t : DNode) : DNode :=
  match op with
  | .single pre fol parent newId orig =>
    let t := match pre with
      | some i => if parentIdOf t i = parent then removeId t i else t
      | none => t
    let t := match fol with
      | some i => if parentIdOf t i = parent then removeId t i else t
      | none => t
    replaceIfParented t newId orig
  | .inner newId orig => replaceIfParented t newId orig
  | .outer sPre firstId sOrig sFol ePre lastId eOrig eFol =>
    let t := removeIfParented t sPre
    let t := replaceIfParented t firstId sOrig
    let t := removeIfParented t sFol
    let t := removeIfParented t ePre
    let t := replaceIfParented t lastId eOrig
    removeIfParented t eFol

/-- A resolved match together with its portions, recorded when
`processMatches` hands a fully resolved match to `replaceMatch`
(observational log used to state portion invariants). -/
structure Resolved where
  m : MatchWithMeta
  startP : Portion
  inners : List Portion
  endP : Portion
deriving DecidableEq

/-- The mutable state of a `Finder`: the subject tree, the recorded inverse
operations, the identity set of nodes created during replacement
(`createdNodes`), and the fresh-identity allocator. -/
structure FState where
  tree : DNode
  reverts : List RevertOp
  created : List Nat
  nextId : Nat
  log : List Resolved
deriving DecidableEq

/-- The largest identity occurring in a tree. -/
def maxId (t : DNode) : Nat := (nodeIds t).foldr max 0

/-- The state of a fresh `Finder` on a given subject tree. -/
def initState (root : DNode) : FState :=
  { tree := root, reverts := [], created := [], nextId := maxId root + 1, log := [] }

/-- Replay the recorded inverse operations in reverse order of creation
(`for (let i = this.reverts.length; i--;) this.reverts[i]()`). -/
def revertAll (revs : List RevertOp) (t : DNode) : DNode :=
  revs.reverse.foldl (fun acc op => runRevert op acc) t

/-- `Finder.revert`: replay all inverse operations backwards, then clear the
list. -/
def revertF (st : FState) : FState :=
  { st with tree := revertAll st.reverts st.tree, reverts := [] }

/-- The inner-portion loop of the multi-node path of `Finder.replaceMatch`:
replace every inner portion node wholesale and record an inverse per node. -/
def innerLoop (o : Options) (m : MatchWithMeta) :
    List Portion → DNode → List RevertOp → List Nat → Nat →
    DNode × List RevertOp × List Nat × Nat
  | [], tree, revs, created, nid => (tree, revs, created, nid)
  | p :: ps, tree, revs, created, nid =>
    let (innerNode, nid2) := getPortionReplacementNode o p m nid
    let tree2 := replaceId tree p.node.idOf innerNode
    innerLoop o m ps tree2 (revs ++ [.inner innerNode.idOf p.node])
      (innerNode.idOf :: created) nid2

/-- `Finder.replaceMatch`: splice the replacement content for one resolved
match into the tree, record the inverse operations, and return the node the
traversal should resume from (`null` when a start or end node is not a text
node). -/
def replaceMatchF (o : Options) (st : FState) (m : MatchWithMeta)
    (startPortion : Portion) (innerPortions : List Portion)
    (endPortion : Portion) : Option Nat × FState :=
  match startPortion.node, endPortion.node with
  | .text msnId msnData, .text menId menData =>
    if msnId = menId then
      let parent := parentIdOf st.tree msnId
      let (pre, nid, tree) :=
        if startPortion.indexInNode > 0 then
          let p : DNode := .text st.nextId (jsSubstring msnData 0 startPortion.indexInNode)
          (some st.nextId, st.nextId + 1, insertBeforeId st.tree msnId p)
        else (none, st.nextId, st.tree)
      let (newNode, nid) := getPortionReplacementNode o endPortion m nid
      let tree := insertBeforeId tree msnId newNode
      let created := newNode.idOf :: st.created
      let (fol, nid, tree) :=
        if endPortion.endIndexInNode < (msnData.length : Int) then
          let f : DNode := .text nid (jsSubstringFrom msnData endPortion.endIndexInNode)
          (some nid, nid + 1, insertBeforeId tree msnId f)
        else (none, nid, tree)
      let tree := removeId tree msnId
      let op : RevertOp := .single pre fol parent newNode.idOf (.text msnId msnData)
      (some (fol.getD newNode.idOf),
       { st with tree := tree, reverts := st.reverts ++ [op],
                 created := created, nextId := nid })
    else
      let nid := st.nextId
      let sPreN : Option DNode :=
        if startPortion.indexInNode > 0 then
          some (.text nid (jsSubstring msnData 0 startPortion.indexInNode))
        else none
      let nid := if startPortion.indexInNode > 0 then nid + 1 else nid
      let sFolN : Option DNode :=
        if startPortion.endIndexInNode < (msnData.length : Int) then
          some (.text nid (jsSubstringFrom msnData startPortion.endIndexInNode))
        else none
      let nid := if startPortion.endIndexInNode < (msnData.length : Int) then nid + 1 else nid
      let (firstNode, nid) := getPortionReplacementNode o startPortion m nid
      let created := firstNode.idOf :: st.created
      let tree := match sPreN with
        | some p => insertBeforeId st.tree msnId p
        | none => st.tree
      let tree := insertBeforeId tree msnId firstNode
      let tree := match sFolN with
        | some f => insertBeforeId tree msnId f
        | none => tree
      let tree := removeId tree msnId
      let (tree, innerRevs, created, nid) := innerLoop o m innerPortions tree [] created nid
      let (lastNode, nid) := getPortionReplacementNode o endPortion m nid
      let created := lastNode.idOf :: created
      let ePreN : Option DNode :=
        if endPortion.indexInNode > 0 then
          some (.text nid (jsSubstring menData 0 endPortion.indexInNode))
        else none
      let nid := if endPortion.indexInNode > 0 then nid + 1 else nid
      let eFolN : Option DNode :=
        if endPortion.endIndexInNode < (menData.length : Int) then
          some (.text nid (jsSubstringFrom menData endPortion.endIndexInNode))
        else none
      let nid := if endPortion.endIndexInNode < (menData.length : Int) then nid + 1 else nid
      let tree := match ePreN with
        | some p => insertBeforeId tree menId p
        | none => tree
      let tree := insertBeforeId tree menId lastNode
      let tree := match eFolN with
        | some f => insertBeforeId tree menId f
        | none => tree
      let tree := removeId tree menId
      let op : RevertOp := .outer (sPreN.map DNode.idOf) firstNode.idOf
        (.text msnId msnData) (sFolN.map DNode.idOf) (ePreN.map DNode.idOf)
        lastNode.idOf (.text menId menData) (eFolN.map DNode.idOf)
      (some ((eFolN.map DNode.idOf).getD lastNode.idOf),
       { st with tree := tree, reverts := st.reverts ++ innerRevs ++ [op],
                 created := created, nextId := nid })
  | _, _ => (none, st)

/-- The traversal state of `Finder.processMatches`: pending portions, the
current node and ancestor stack, the current and remaining matches, and the
running counters. -/
structure Trav where
  startP : Option Portion := none
  endP : Option Portion := none
  inners : List Portion := []
  cur : Option Nat
  rest : List MatchWithMeta
  cm : Option MatchWithMeta
  atIndex : Nat := 0
  portionIndex : Nat := 0
  consumed : Nat := 0
  stack : List Nat
  done : Bool := false
deriving DecidableEq

/-- The pop-back-up loop of `processMatches`: pop ancestors until one has a
next sibling, or terminate at the subject root. -/
def popUp (t : DNode) (rootId : Nat) (cur0 : Option Nat) :
    List Nat → Option Nat × List Nat × Bool
  | [] => (cur0, [], false)
  | p :: ps =>
    match nextSiblingOf t p with
    | some sib => (some sib, ps, false)
    | none => if p = rootId then (none, ps, true) else popUp t rootId cur0 ps

/-- The text-node step of `processMatches` (portion recording and character
accounting for the node under the cursor). -/
def textStep (cur : DNode) (tv : Trav) : Trav :=
  match cur, tv.cm with
  | .text cid d, some m =>
    let len := d.length
    let tv :=
      if tv.endP = none ∧ tv.atIndex + len ≥ m.endIndex then
        let p : Portion :=
          { node := DNode.text cid d, index := tv.portionIndex,
            text := jsSubstring d ((m.startIndex : Int) - (tv.atIndex : Int))
              ((m.endIndex : Int) - (tv.atIndex : Int)),
            indexInMatch := tv.consumed,
            indexInNode := (m.startIndex : Int) - (tv.atIndex : Int),
            endIndexInNode := (m.endIndex : Int) - (tv.atIndex : Int),
            isEnd := true }
        { tv with endP := some p, portionIndex := tv.portionIndex + 1 }
      else if tv.startP.isSome then
        let p : Portion :=
          { node := DNode.text cid d, index := tv.portionIndex,
            text := d, indexInMatch := tv.consumed, indexInNode := 0,
            endIndexInNode := (len : Int), isEnd := false }
        { tv with
          inners := tv.inners ++ [p]
          portionIndex := tv.portionIndex + 1
          consumed := tv.consumed + len }
      else tv
    let tv :=
      if tv.startP = none ∧ tv.atIndex + len > m.startIndex then
        let ptext := jsSubstring d ((m.startIndex : Int) - (tv.atIndex : Int))
          ((m.endIndex : Int) - (tv.atIndex : Int))
        let p : Portion :=
          { node := DNode.text cid d, index := tv.portionIndex,
            text := ptext, indexInMatch := 0,
            indexInNode := (m.startIndex : Int) - (tv.atIndex : Int),
            endIndexInNode := (m.endIndex : Int) - (tv.atIndex : Int),
            isEnd := false }
        { tv with
          startP := some p
          portionIndex := tv.portionIndex + 1
          consumed := ptext.length }
      else tv
    { tv with atIndex := tv.atIndex + len }
  | _, _ => tv

/-- The traversal loop of `Finder.processMatches`, fuelled; `none` means the
fuel ran out before the loop finished. -/
def processLoop (o : Options) (rootId : Nat) :
    Nat → FState → Trav → Option FState
  | 0, _, _ => none
  | fuel + 1, st, tv =>
    match tv.cur, tv.done with
    | none, _ => some st
    | some _, true => some st
    | some c, false =>
      if st.created.contains c then
        match nextSiblingOf st.tree c with
        | some sib => processLoop o rootId fuel st { tv with cur := some sib }
        | none =>
          let (cur2, stk2, done2) := popUp st.tree rootId tv.cur tv.stack
          processLoop o rootId fuel st
            { tv with cur := cur2, stack := stk2, done := done2 }
      else
        let curNode := getById st.tree c
        let tv :=
          match curNode with
          | some n => textStep n tv
          | none => tv
        let doAvoidNode :=
          match curNode, o.filterElements with
          | some (.elem i nm cl cs), some f => !f (.elem i nm cl cs)
          | _, _ => false
        match tv.startP, tv.endP, tv.cm with
        | some sp, some ep, some m =>
          let (nextNode, st2) := replaceMatchF o st m sp tv.inners ep
          let r : Resolved := { m := m, startP := sp, inners := tv.inners, endP := ep }
          let st2 := { st2 with log := st2.log ++ [r] }
          let cm2 := tv.rest.head?
          processLoop o rootId fuel st2
            { tv with
              startP := none
              endP := none
              inners := []
              atIndex := m.endIndex
              cm := cm2
              rest := tv.rest.tail
              portionIndex := 0
              consumed := 0
              cur := nextNode
              done := if cm2 = none then true else tv.done }
        | _, _, _ =>
          if !doAvoidNode && (firstChildOf st.tree c).isSome then
            processLoop o rootId fuel st
              { tv with stack := c :: tv.stack, cur := firstChildOf st.tree c }
          else
            match nextSiblingOf st.tree c with
            | some sib => processLoop o rootId fuel st { tv with cur := some sib }
            | none =>
              let (cur2, stk2, done2) := popUp st.tree rootId tv.cur tv.stack
              processLoop o rootId fuel st
                { tv with cur := cur2, stack := stk2, done := done2 }

/-- `Finder.processMatches` on a fresh state. -/
def processMatchesF (o : Options) (root : DNode) (ms : List MatchWithMeta)
    (fuel : Nat) : Option FState :=
  processLoop o root.idOf fuel (initState root)
    { cur := some root.idOf, rest := ms.tail, cm := ms.head?, stack := [root.idOf] }

/-- The `Finder` constructor (`findAndReplaceDOMText`): prepare the options,
search, and — when there are matches — process them.  `Except.error` is the
raised zero-length-match error; `some` state is the finished instance,
`none` means the traversal fuel ran out. -/
def runFinder (o : Options) (root : DNode) (fuel : Nat) :
    Except Str (Option FState) := do
  let o2 := buildOptions o
  let ms ← searchE o2 root
  if ms.isEmpty then pure (some (initState root))
  else pure (processMatchesF o2 root ms fuel)


mutual
/-- The leaf strings of an aggregation, in traversal order. -/
def leavesOf : List AggItem → List Str
  | [] => []
  | i :: rest => leavesOfItem i ++ leavesOf rest
/-- The leaf strings below one aggregation item. -/
def leavesOfItem : AggItem → List Str
  | .s x => [x]
  | .nested l => leavesOf l
end

/-- The full matched character stream: the concatenation of all leaf
strings of the aggregation. -/
def fullStream (items : List AggItem) : Str := (leavesOf items).flatten

/-- The matches of one leaf string that the search consumes: the engine's
whole match list in global mode, only the first match in single-shot mode. -/
def relevantMatches (p : Pattern) (s : Str) : List RMatch :=
  if p.global then p.exec s else (p.exec s).head?.toList

/-- The contract assumed of the external pattern engine: every reported
match carries the searched string as `input`, lies within bounds, and its
`match[0]` is the slice of the input at the reported index. -/
def PatternSound (p : Pattern) : Prop :=
  ∀ s, ∀ m ∈ p.exec s, m.input = s ∧ m.index + m.matched.length ≤ s.length ∧
    m.matched = (s.drop m.index).take m.matched.length

/-- A falsy `forceContext` option (absent or literally `false`). -/
def fcFalsy (fc : Option ForceCtx) : Prop := fc = none ∨ fc = some (.bool false)

/-- Example portion for witnesses. -/
def exPortion : Portion :=
  { node := .text 1 "ab".toList, index := 0, text := "ab".toList,
    indexInMatch := 0, indexInNode := 0, endIndexInNode := 2 }

/-- Example match for witnesses. -/
def exMatch : MatchWithMeta :=
  { matched := "ab".toList, groups := [], startIndex := 0, endIndex := 2,
    index := 0, input := "ab".toList }

/-- Example replace function for the C10 witness. -/
def exC10f : Portion → MatchWithMeta → FnRet := fun p _ => .str p.text

/-- Example options for the C10 witness: a functional `replace` together
with `wrap` and `wrapClass`. -/
def exC10o : Options :=
  { find := .str "a".toList, replace := some (.fn exC10f),
    wrap := some (.name "x".toList), wrapClass := some "c".toList }

/-- Example options for the C8 witness: string template, wrapping enabled,
first-portion mode. -/
def exC8o : Options :=
  { find := .str "a".toList, replace := some (.str "$&".toList),
    wrap := some (.name "x".toList), portionMode := some .first }

/-- Example non-first portion for the C8 witness. -/
def exC8p : Portion :=
  { node := .text 1 "cd".toList, index := 1, text := "cd".toList,
    indexInMatch := 2, indexInNode := 0, endIndexInNode := 2 }


/-- Example tree for C7: an empty `b` element followed by a text node a
later match would target. -/
def exC7tree : DNode :=
  .elem 0 "div".toList [] [.elem 1 "b".toList [] [], .text 2 "at".toList]

/-- Example current match for C7 whose resolved start node is an element. -/
def exC7m1 : MatchWithMeta :=
  { matched := "x".toList, groups := [], startIndex := 0, endIndex := 1,
    index := 0, input := "x".toList }

/-- Example pending later match for C7 (it targets text node 2). -/
def exC7m2 : MatchWithMeta :=
  { matched := "at".toList, groups := [], startIndex := 0, endIndex := 2,
    index := 1, input := "at".toList }

/-- Example start portion for C7 whose node is an element, not a text
node. -/
def exC7sp : Portion :=
  { node := .elem 5 "em".toList [] [], index := 0, text := "x".toList,
    indexInMatch := 0, indexInNode := 0, endIndexInNode := 1 }

/-- Example end portion for C7. -/
def exC7ep : Portion :=
  { node := .text 2 "at".toList, index := 1, text := "x".toList,
    indexInMatch := 0, indexInNode := 0, endIndexInNode := 1, isEnd := true }

/-- Example options for C7: replacing with the literal `X`. -/
def exC7o : Options :=
  { find := .str "at".toList, replace := some (.str "X".toList) }

/-- Example finder state for C7. -/
def exC7st : FState := initState exC7tree

/-- Example traversal state for C7: the cursor sits on the element node, a
match with a non-text start portion is fully resolved, and one further
match is still pending. -/
def exC7tv : Trav :=
  { cur := some 1, rest := [exC7m2], cm := some exC7m1, stack := [0],
    startP := some exC7sp, endP := some exC7ep }


/-- Example tree for C5: two force-context paragraphs `ab` and `cd`. -/
def exC5tree : DNode :=
  .elem 0 "div".toList []
    [.elem 1 "p".toList [] [.text 2 "ab".toList],
     .elem 3 "p".toList [] [.text 4 "cd".toList]]

/-- Example options for C5: find `cd`, replace with the left-context token,
paragraphs forced as their own contexts. -/
def exC5o : Options :=
  { find := .str "cd".toList, replace := some (.str ['$', backtickChar]),
    forceContext := some (.fn (fun el => decide (lowerName el = "p".toList))) }

/-- Example sound pattern for the C5 witness: matches `bc` at offset 1 of
the single input `abcd`. -/
def exC5pat : Pattern :=
  { global := true
    exec := fun s => if s = "abcd".toList then [⟨1, "bc".toList, [], s⟩] else [] }

/-- Example single-text tree for the C5 witness. -/
def exC5tree2 : DNode := .elem 0 "div".toList [] [.text 1 "abcd".toList]

/-- Example options for the C5 witness: no forced contexts. -/
def exC5o2 : Options := { find := .regex exC5pat }


/-- Top-level list insertion before the entry with identity `x`. -/
def insL (x : Nat) (nw : DNode) : List DNode → List DNode
  | [] => []
  | n :: ns => if n.idOf = x then nw :: n :: ns else n :: insL x nw ns

/-- Top-level list removal of the entry with identity `x`. -/
def remL (x : Nat) : List DNode → List DNode
  | [] => []
  | n :: ns => if n.idOf = x then ns else n :: remL x ns

/-- Top-level list replacement of the entry with identity `x`. -/
def repL (x : Nat) (nw : DNode) : List DNode → List DNode
  | [] => []
  | n :: ns => if n.idOf = x then nw :: ns else n :: repL x nw ns

mutual
/-- Rewrite the children of the element with identity `pid` by `f` (used to
localize the by-identity tree surgeries to one children list). -/
def childUpdate (pid : Nat) (f : List DNode → List DNode) : DNode → DNode
  | .text i d => .text i d
  | .elem i nm c cs =>
    if i = pid then .elem i nm c (f cs)
    else .elem i nm c (childUpdateL pid f cs)
/-- `childUpdate` over a forest. -/
def childUpdateL (pid : Nat) (f : List DNode → List DNode) : List DNode → List DNode
  | [] => []
  | n :: ns => childUpdate pid f n :: childUpdateL pid f ns
end


/-- Generic top-level surgery on a children list: apply `act` to the entry
with identity `x` and the entries after it. -/
def surgL (x : Nat) (act : DNode → List DNode → List DNode) :
    List DNode → List DNode
  | [] => []
  | n :: ns => if n.idOf = x then act n ns else n :: surgL x act ns

mutual
/-- Generic by-identity surgery on a tree: apply `act` at the unique place
where the node with identity `x` occurs as a child. -/
def surgT (x : Nat) (act : DNode → List DNode → List DNode) : DNode → DNode
  | .text i d => .text i d
  | .elem i nm c cs => .elem i nm c (surgDeep x act cs)
/-- Generic by-identity surgery on a forest. -/
def surgDeep (x : Nat) (act : DNode → List DNode → List DNode) :
    List DNode → List DNode
  | [] => []
  | n :: ns => if n.idOf = x then act n ns else surgT x act n :: surgDeep x act ns
end


/-- The subject node is an element. -/
def IsElemT (t : DNode) : Prop :=
  ∃ j nm c cs, t = DNode.elem j nm c cs

/-- Look up the replacement segment recorded for a child identity. -/
def lookupSeg (σ : List (Nat × List DNode)) (z : Nat) : Option (List DNode) :=
  match σ with
  | [] => none
  | e :: es => if e.1 = z then some e.2 else lookupSeg es z

/-- Rewrite the segment recorded for a child identity. -/
def segUpd (σ : List (Nat × List DNode)) (z : Nat)
    (f : List DNode → List DNode) : List (Nat × List DNode) :=
  match σ with
  | [] => []
  | e :: es => if e.1 = z then (e.1, f e.2) :: es else e :: segUpd es z f

mutual
/-- Replace every child whose identity carries a recorded segment by that
segment: the algebra of child-list splices performed by `replaceMatch`. -/
def subst (σ : List (Nat × List DNode)) : DNode → DNode
  | .text i d => .text i d
  | .elem i nm c cs => .elem i nm c (substL σ cs)
/-- `subst` over a children list. -/
def substL (σ : List (Nat × List DNode)) : List DNode → List DNode
  | [] => []
  | c :: cs =>
    (match lookupSeg σ c.idOf with
     | some l => l
     | none => [subst σ c]) ++ substL σ cs
end

/-- Surgery actions that prepend new content: the shape shared by
`insertBefore`, `removeChild` and `replaceChild`. -/
def prependAct (g : DNode → List DNode) : DNode → List DNode → List DNode :=
  fun n ns => g n ++ ns

/-- Well-formedness of a segment table over a subject tree: keys are
distinct current text children, segments are internally duplicate-free,
hold only allocator identities of the window `[n00, nid)` or their own key,
and are pairwise disjoint. -/
def SegOK (t : DNode) (n00 : Nat) (σ : List (Nat × List DNode)) (nid : Nat) : Prop :=
  (σ.map Prod.fst).Nodup ∧
  (∀ e ∈ σ, ∃ d, getById t e.1 = some (DNode.text e.1 d)) ∧
  (∀ e ∈ σ, (nodeIdsL e.2).Nodup) ∧
  (∀ e ∈ σ, ∀ i, i ∈ nodeIdsL e.2 → (n00 ≤ i ∧ i < nid) ∨ i = e.1) ∧
  List.Pairwise (fun a b => ∀ i, i ∈ nodeIdsL a.2 → i ∉ nodeIdsL b.2) σ

/-- One record of the inner-portion loop: the portion, the replacement node
built for it, and whether the replacement actually fired (the portion node
was still in the tree). -/
structure IRec where
  p : Portion
  innerN : DNode
  fired : Bool

/-- Soundness of a run of inner records against the subject tree: portions
are current text children, replacement nodes live in chained allocator
windows, and a record fired exactly when its key was not yet recorded. -/
def RecsOK (t : DNode) : List Nat → List IRec → Nat → Nat → Prop
  | _, [], lo, hi => lo ≤ hi
  | ks, r :: rs, lo, hi =>
    ∃ mid, lo ≤ mid ∧ (∀ i ∈ nodeIds r.innerN, lo ≤ i ∧ i < mid) ∧
      (nodeIds r.innerN).Nodup ∧
      (∃ d, r.p.node = DNode.text r.p.node.idOf d) ∧
      getById t r.p.node.idOf = some r.p.node ∧
      (r.fired = true ↔ r.p.node.idOf ∉ ks) ∧
      RecsOK t (if r.fired then ks ++ [r.p.node.idOf] else ks) rs mid hi

/-- A stream of text chunks: each chunk pairs a node identity with the node's
character data, in traversal order. -/
def chunksText : List (Nat × Str) → Str
  | [] => []
  | c :: cs => c.2 ++ chunksText cs

/-- Iterate the text-node step of `processMatches` over a chunk stream. -/
def feedT : List (Nat × Str) → Trav → Trav
  | [], tv => tv
  | c :: cs, tv => feedT cs (textStep (DNode.text c.1 c.2) tv)

/-- The portions of a resolved match in sequence order, as `replaceMatch`
consumes them: one portion when the match starts and ends in the same node,
otherwise the start portion, then the inner portions, then the end portion. -/
def portionsOf (r : Resolved) : List Portion :=
  if r.startP.node.idOf = r.endP.node.idOf then [r.endP]
  else r.startP :: (r.inners ++ [r.endP])

/-- The `text` fields of a portion list, concatenated in sequence order. -/
def portionText : List Portion → Str
  | [] => []
  | p :: ps => p.text ++ portionText ps

/-- Every portion's `indexInMatch` equals `acc` plus the total length of the
portion texts preceding it in the list. -/
def indexOK : Nat → List Portion → Prop
  | _, [] => True
  | acc, p :: ps => p.indexInMatch = acc ∧ indexOK (acc + p.text.length) ps

/-- C3 witness match: "bcde" at stream offsets 1..5 of "abcdef". -/
def exC3m : MatchWithMeta :=
  { matched := "bcde".toList, groups := [], startIndex := 1, endIndex := 5,
    index := 0, input := "abcdef".toList }

/-- C3 witness chunk stream head. -/
def exC3cs : List (Nat × Str) := [(1, "abc".toList)]

/-- C3 witness final chunk. -/
def exC3lc : Nat × Str := (2, "def".toList)

/-- C3 witness initial traversal state. -/
def exC3tv : Trav := { cur := none, rest := [], cm := some exC3m, stack := [] }

/-- DOM `Node.insertBefore` with adoption semantics: a node that is already
in the document is first removed from its current parent (the DOM moves an
adopted node rather than duplicating it), then inserted before the child with
identity `ref`; for a node whose identity is absent from the tree this agrees
with `insertBeforeId`. -/
def insertBeforeIdMove (t : DNode) (ref : Nat) (nw : DNode) : DNode :=
  insertBeforeId (removeIfParented t (some nw.idOf)) ref nw

/-- DOM `Node.replaceChild` with adoption semantics: the incoming node is
first removed from its current parent, then swapped for the child with
identity `target`; for a node absent from the tree this agrees with
`replaceId`. -/
def replaceIdMove (t : DNode) (target : Nat) (nw : DNode) : DNode :=
  replaceId (removeIfParented t (some nw.idOf)) target nw

def innerLoopMove (o : Options) (m : MatchWithMeta) :
    List Portion → DNode → List RevertOp → List Nat → Nat →
    DNode × List RevertOp × List Nat × Nat
  | [], tree, revs, created, nid => (tree, revs, created, nid)
  | p :: ps, tree, revs, created, nid =>
    let (innerNode, nid2) := getPortionReplacementNode o p m nid
    let tree2 := replaceIdMove tree p.node.idOf innerNode
    innerLoopMove o m ps tree2 (revs ++ [.inner innerNode.idOf p.node])
      (innerNode.idOf :: created) nid2

/-- `Finder.replaceMatch`: splice the replacement content for one resolved
match into the tree, record the inverse operations, and return the node the
traversal should resume from (`null` when a start or end node is not a text
node). -/

def replaceMatchFMove (o : Options) (st : FState) (m : MatchWithMeta)
    (startPortion : Portion) (innerPortions : List Portion)
    (endPortion : Portion) : Option Nat × FState :=
  match startPortion.node, endPortion.node with
  | .text msnId msnData, .text menId menData =>
    if msnId = menId then
      let parent := parentIdOf st.tree msnId
      let (pre, nid, tree) :=
        if startPortion.indexInNode > 0 then
          let p : DNode := .text st.nextId (jsSubstring msnData 0 startPortion.indexInNode)
          (some st.nextId, st.nextId + 1, insertBeforeIdMove st.tree msnId p)
        else (none, st.nextId, st.tree)
      let (newNode, nid) := getPortionReplacementNode o endPortion m nid
      let tree := insertBeforeIdMove tree msnId newNode
      let created := newNode.idOf :: st.created
      let (fol, nid, tree) :=
        if endPortion.endIndexInNode < (msnData.length : Int) then
          let f : DNode := .text nid (jsSubstringFrom msnData endPortion.endIndexInNode)
          (some nid, nid + 1, insertBeforeIdMove tree msnId f)
        else (none, nid, tree)
      let tree := removeId tree msnId
      let op : RevertOp := .single pre fol parent newNode.idOf (.text msnId msnData)
      (some (fol.getD newNode.idOf),
       { st with tree := tree, reverts := st.reverts ++ [op],
                 created := created, nextId := nid })
    else
      let nid := st.nextId
      let sPreN : Option DNode :=
        if startPortion.indexInNode > 0 then
          some (.text nid (jsSubstring msnData 0 startPortion.indexInNode))
        else none
      let nid := if startPortion.indexInNode > 0 then nid + 1 else nid
      let sFolN : Option DNode :=
        if startPortion.endIndexInNode < (msnData.length : Int) then
          some (.text nid (jsSubstringFrom msnData startPortion.endIndexInNode))
        else none
      let nid := if startPortion.endIndexInNode < (msnData.length : Int) then nid + 1 else nid
      let (firstNode, nid) := getPortionReplacementNode o startPortion m nid
      let created := firstNode.idOf :: st.created
      let tree := match sPreN with
        | some p => insertBeforeIdMove st.tree msnId p
        | none => st.tree
      let tree := insertBeforeIdMove tree msnId firstNode
      let tree := match sFolN with
        | some f => insertBeforeIdMove tree msnId f
        | none => tree
      let tree := removeId tree msnId
      let (tree, innerRevs, created, nid) := innerLoopMove o m innerPortions tree [] created nid
      let (lastNode, nid) := getPortionReplacementNode o endPortion m nid
      let created := lastNode.idOf :: created
      let ePreN : Option DNode :=
        if endPortion.indexInNode > 0 then
          some (.text nid (jsSubstring menData 0 endPortion.indexInNode))
        else none
      let nid := if endPortion.indexInNode > 0 then nid + 1 else nid
      let eFolN : Option DNode :=
        if endPortion.endIndexInNode < (menData.length : Int) then
          some (.text nid (jsSubstringFrom menData endPortion.endIndexInNode))
        else none
      let nid := if endPortion.endIndexInNode < (menData.length : Int) then nid + 1 else nid
      let tree := match ePreN with
        | some p => insertBeforeIdMove tree menId p
        | none => tree
      let tree := insertBeforeIdMove tree menId lastNode
      let tree := match eFolN with
        | some f => insertBeforeIdMove tree menId f
        | none => tree
      let tree := removeId tree menId
      let op : RevertOp := .outer (sPreN.map DNode.idOf) firstNode.idOf
        (.text msnId msnData) (sFolN.map DNode.idOf) (ePreN.map DNode.idOf)
        lastNode.idOf (.text menId menData) (eFolN.map DNode.idOf)
      (some ((eFolN.map DNode.idOf).getD lastNode.idOf),
       { st with tree := tree, reverts := st.reverts ++ innerRevs ++ [op],
                 created := created, nextId := nid })
  | _, _ => (none, st)

def processLoopMove (o : Options) (rootId : Nat) :
    Nat → FState → Trav → Option FState
  | 0, _, _ => none
  | fuel + 1, st, tv =>
    match tv.cur, tv.done with
    | none, _ => some st
    | some _, true => some st
    | some c, false =>
      if st.created.contains c then
        match nextSiblingOf st.tree c with
        | some sib => processLoopMove o rootId fuel st { tv with cur := some sib }
        | none =>
          let (cur2, stk2, done2) := popUp st.tree rootId tv.cur tv.stack
          processLoopMove o rootId fuel st
            { tv with cur := cur2, stack := stk2, done := done2 }
      else
        let curNode := getById st.tree c
        let tv :=
          match curNode with
          | some n => textStep n tv
          | none => tv
        let doAvoidNode :=
          match curNode, o.filterElements with
          | some (.elem i nm cl cs), some f => !f (.elem i nm cl cs)
          | _, _ => false
        match tv.startP, tv.endP, tv.cm with
        | some sp, some ep, some m =>
          let (nextNode, st2) := replaceMatchFMove o st m sp tv.inners ep
          let r : Resolved := { m := m, startP := sp, inners := tv.inners, endP := ep }
          let st2 := { st2 with log := st2.log ++ [r] }
          let cm2 := tv.rest.head?
          processLoopMove o rootId fuel st2
            { tv with
              startP := none
              endP := none
              inners := []
              atIndex := m.endIndex
              cm := cm2
              rest := tv.rest.tail
              portionIndex := 0
              consumed := 0
              cur := nextNode
              done := if cm2 = none then true else tv.done }
        | _, _, _ =>
          if !doAvoidNode && (firstChildOf st.tree c).isSome then
            processLoopMove o rootId fuel st
              { tv with stack := c :: tv.stack, cur := firstChildOf st.tree c }
          else
            match nextSiblingOf st.tree c with
            | some sib => processLoopMove o rootId fuel st { tv with cur := some sib }
            | none =>
              let (cur2, stk2, done2) := popUp st.tree rootId tv.cur tv.stack
              processLoopMove o rootId fuel st
                { tv with cur := cur2, stack := stk2, done := done2 }

def processMatchesFMove (o : Options) (root : DNode) (ms : List MatchWithMeta)
    (fuel : Nat) : Option FState :=
  processLoopMove o root.idOf fuel (initState root)
    { cur := some root.idOf, rest := ms.tail, cm := ms.head?, stack := [root.idOf] }

def runFinderMove (o : Options) (root : DNode) (fuel : Nat) :
    Except Str (Option FState) := do
  let o2 := buildOptions o
  let ms ← searchE o2 root
  if ms.isEmpty then pure (some (initState root))
  else pure (processMatchesFMove o2 root ms fuel)

/-- C1 counterexample subject: a text node followed by an `em` element. -/
def exC1broot : DNode :=
  .elem 0 "div".toList [] [.text 1 "ab".toList, .elem 2 "em".toList [] []]

/-- Options returning a fresh node (identity 99, absent from the document)
from the `replace` function, as the repository tests do. -/
def exC1fo : Options :=
  { find := .str "ab".toList,
    replace := some (.fn (fun _ _ => .node (.elem 99 "em".toList [] []))) }

/-- The state produced by the fresh-node-callback run. -/
def exC1fst : FState :=
  match runFinderMove exC1fo exC1broot 12 with
  | .ok (some st) => st
  | _ => initState exC1broot

/-- C9: for every handle, `revert()` empties the inverse-operation list, and
a second `revert()` performs no mutation: the state after the second call
equals the state after the first. -/
theorem claim_C9_revert_idempotent (st : FState) :
    (revertF st).reverts = [] ∧ revertF (revertF st) = revertF st :=
  ⟨rfl, rfl⟩

/-- C10: when the `replace` option is a function, the `wrap` and `wrapClass`
options are ignored entirely, and the produced node is the function's return
value as-is (or a text node coerced from a non-node return value). -/
theorem claim_C10_fn_replace_ignores_wrap (o : Options)
    (f : Portion → MatchWithMeta → FnRet) (p : Portion) (m : MatchWithMeta)
    (nid : Nat) (h : o.replace = some (.fn f)) :
    getPortionReplacementNode o p m nid
      = getPortionReplacementNode { o with wrap := none, wrapClass := none } p m nid ∧
    (getPortionReplacementNode o p m nid).1
      = (match f p m with
         | .node n => n
         | .str s => DNode.text nid s
         | .num k => DNode.text nid (jsNumToStr k)) := by
  constructor
  · unfold getPortionReplacementNode
    rw [h]
    simp only [Option.getD_some]
  · unfold getPortionReplacementNode
    rw [h]
    simp only [Option.getD_some]
    cases f p m <;> rfl

/-- Witness for C10 at a concrete input: the function's string return value
becomes a text node and the configured wrapper is not applied. -/
theorem claim_C10_witness :
    getPortionReplacementNode exC10o exPortion exMatch 5
      = getPortionReplacementNode { exC10o with wrap := none, wrapClass := none }
          exPortion exMatch 5 ∧
    (getPortionReplacementNode exC10o exPortion exMatch 5).1
      = DNode.text 5 "ab".toList := by
  have h := claim_C10_fn_replace_ignores_wrap exC10o exC10f exPortion exMatch 5 rfl
  exact ⟨h.1, h.2.trans (by rfl)⟩

/-- C8: a portion whose computed replacement text is empty never produces a
wrapper element, only an empty text node, even when `wrap` is given; under
`portionMode: first` every portion after the first computes the empty
replacement, and the first portion receives the entire interpolated
replacement. -/
theorem claim_C8_empty_replacement_no_wrapper (o : Options) (rs : Str)
    (p : Portion) (m : MatchWithMeta) (nid : Nat)
    (h : o.replace = some (.str rs)) :
    (prepareReplacementString o rs p m = [] →
      ∃ i, (getPortionReplacementNode o p m nid).1 = DNode.text i []) ∧
    (o.portionMode = some .first → 0 < p.indexInMatch →
      prepareReplacementString o rs p m = []) ∧
    (o.portionMode = some .first → p.indexInMatch = 0 →
      prepareReplacementString o rs p m = interpolate m rs) := by
  refine ⟨?_, ?_, ?_⟩
  · intro he
    unfold getPortionReplacementNode
    rw [h]
    simp only [Option.getD_some]
    cases hw : o.wrap
    · exact ⟨nid, by simp [hw, he]⟩
    · exact ⟨nid + 1, by simp [hw, he]⟩
  · intro h1 h2
    unfold prepareReplacementString
    simp [h1, h2]
  · intro h1 h2
    unfold prepareReplacementString
    simp [h1, h2]

/-- Witness for C8 at a concrete input: a non-first portion in first-portion
mode computes the empty replacement and yields a bare empty text node
despite `wrap` being set. -/
theorem claim_C8_witness :
    prepareReplacementString exC8o "$&".toList exC8p exMatch = [] ∧
    ∃ i, (getPortionReplacementNode exC8o exC8p exMatch 5).1 = DNode.text i [] := by
  have h := claim_C8_empty_replacement_no_wrapper exC8o "$&".toList exC8p exMatch 5 rfl
  have he : prepareReplacementString exC8o "$&".toList exC8p exMatch = [] :=
    h.2.1 rfl (by decide)
  exact ⟨he, h.1 he⟩


/-- Example non-global pattern for C6: literal `at`, single-shot. -/
def exC6pat : Pattern := { global := false, exec := fun s => stringOccs "at".toList s s 0 0 }

/-- Example tree for C6: two force-context paragraphs, each containing
`at`. -/
def exC6tree : DNode :=
  .elem 0 "div".toList []
    [.elem 1 "p".toList [] [.text 2 "at".toList],
     .elem 3 "p".toList [] [.text 4 "at".toList]]

/-- Example options for C6: the non-global pattern with paragraphs forced
as their own contexts. -/
def exC6o : Options :=
  { find := .regex exC6pat,
    forceContext := some (.fn (fun el => decide (lowerName el = "p".toList))) }


/-- Example element for C4: a `div`, which the prose preset forces as its
own context. -/
def exDivEl : DNode := .elem 7 "div".toList [] []

/-- Example element for C4: a `script`, which the prose preset filters out. -/
def exScriptEl : DNode := .elem 8 "script".toList [] []

/-- Example options for C4: the prose preset together with explicitly
supplied `forceContext := false` and an accept-all `filterElements`. -/
def exC4o : Options :=
  { find := .str "a".toList, preset := some .prose,
    forceContext := some (.bool false),
    filterElements := some (fun _ => true) }

/-- C4 counterexample: with the prose preset selected and `forceContext`
explicitly set to `false` (and an accept-all `filterElements`), the
effective configuration uses the preset's values, not the caller's: the
spread `{ ...options, ...preset }` puts the preset last.  The effective
`forceContext` answers `true` on a `div` although the caller said `false`,
and the effective `filterElements` rejects a `script` although the caller's
accepts everything. -/
theorem claim_C4_counterexample :
    fcHolds (buildOptions exC4o).forceContext exDivEl = true ∧
    fcHolds exC4o.forceContext exDivEl = false ∧
    ((buildOptions exC4o).filterElements.getD (fun _ => true)) exScriptEl = false ∧
    (exC4o.filterElements.getD (fun _ => false)) exScriptEl = true := by
  refine ⟨?_, rfl, ?_, rfl⟩
  · rfl
  · rfl

/-- C4 (amended): selecting the `prose` preset replaces the `forceContext`
and `filterElements` options with the preset's values regardless of whether
the caller supplied them explicitly; all other options keep the caller's
values. -/
theorem claim_C4_preset_overrides (o : Options) (h : o.preset = some .prose) :
    (buildOptions o).forceContext = some (.fn NON_INLINE_PROSE) ∧
    (buildOptions o).filterElements = some proseFilterElements ∧
    (buildOptions o).portionMode = some ((o.portionMode).getD .retain) ∧
    (buildOptions o).find = o.find ∧
    (buildOptions o).replace = o.replace ∧
    (buildOptions o).wrap = o.wrap ∧
    (buildOptions o).wrapClass = o.wrapClass := by
  unfold buildOptions
  rw [h]
  exact ⟨rfl, rfl, rfl, rfl, rfl, rfl, rfl⟩

/-- Witness for the amended C4 at a concrete input. -/
theorem claim_C4_witness :
    (buildOptions exC4o).forceContext = some (.fn NON_INLINE_PROSE) ∧
    (buildOptions exC4o).filterElements = some proseFilterElements :=
  ⟨(claim_C4_preset_overrides exC4o rfl).1, (claim_C4_preset_overrides exC4o rfl).2.1⟩


/-- C6 counterexample: a single-shot (non-global) find specification over an
aggregation with two force-context leaves that both contain the pattern
produces two matches, not at most one — the search takes the first match of
every leaf, not only of the first matching leaf. -/
theorem claim_C6_counterexample :
    (regexOf (buildOptions exC6o).find).global = false ∧
    (searchE (buildOptions exC6o) exC6tree).map List.length = .ok 2 := by
  constructor
  · rfl
  · rfl

/-- `Except.ok` feeds its value to the continuation. -/
theorem except_bind_ok {α β : Type} (a : α) (f : α → Except Str β) :
    (Except.ok a >>= f : Except Str β) = f a := rfl

/-- `Except.error` short-circuits a bind. -/
theorem except_bind_error {α β : Type} (e : Str) (f : α → Except Str β) :
    ((Except.error e : Except Str α) >>= f) = Except.error e := rfl

mutual
/-- In single-shot mode, one aggregation item contributes at most one match
per leaf below it that contains a match (mutual helper for C6). -/
theorem c6_boundItem (p : Pattern) (hg : p.global = false) :
    ∀ item : AggItem, ∀ mi off acc res mi2 off2,
      matchAggItem p item mi off acc = .ok (res, mi2, off2) →
      res.length ≤ acc.length +
        (leavesOfItem item).countP (fun s => ((p.exec s).head?).isSome)
  | .nested l => by
    intro mi off acc res mi2 off2 h
    exact c6_boundList p hg l mi off acc res mi2 off2 h
  | .s item => by
    intro mi off acc res mi2 off2 h
    simp only [matchAggItem, hg, Bool.false_eq_true, if_false] at h
    split at h
    next m hh =>
      cases hp : prepMatch m 0 off with
      | error e =>
        rw [hp, except_bind_error] at h
        exact absurd h (by simp)
      | ok pm =>
        rw [hp, except_bind_ok] at h
        simp only [Except.ok.injEq, Prod.mk.injEq] at h
        simp [leavesOfItem, hh, h.1.symm]
    next hh =>
      simp only [Except.ok.injEq, Prod.mk.injEq] at h
      simp [leavesOfItem, hh, h.1.symm]
/-- In single-shot mode, a list of aggregation items contributes at most one
match per leaf that contains a match (mutual helper for C6). -/
theorem c6_boundList (p : Pattern) (hg : p.global = false) :
    ∀ items : List AggItem, ∀ mi off acc res mi2 off2,
      matchAgg p items mi off acc = .ok (res, mi2, off2) →
      res.length ≤ acc.length +
        (leavesOf items).countP (fun s => ((p.exec s).head?).isSome)
  | [] => by
    intro mi off acc res mi2 off2 h
    simp only [matchAgg, Except.ok.injEq, Prod.mk.injEq] at h
    simp [leavesOf, h.1.symm]
  | i :: rest => by
    intro mi off acc res mi2 off2 h
    simp only [matchAgg] at h
    cases hi : matchAggItem p i mi off acc with
    | error e =>
      rw [hi, except_bind_error] at h
      exact absurd h (by simp)
    | ok v =>
      rw [hi, except_bind_ok] at h
      obtain ⟨acc2, mi3, off3⟩ := v
      have h1 := c6_boundItem p hg i mi off acc acc2 mi3 off3 hi
      have h2 := c6_boundList p hg rest mi3 off3 acc2 res mi2 off2 h
      simp only [leavesOf, List.countP_append]
      omega
end

/-- C6 (amended): in single-shot mode the search takes at most the first
match of each leaf string of the aggregation; a leaf without a match
contributes nothing, so the number of matches is bounded by the number of
leaves that contain a match (rather than by one overall). -/
theorem claim_C6_single_shot_per_leaf (p : Pattern) (hg : p.global = false)
    (items : List AggItem) (mi off : Nat) (acc res : List MatchWithMeta)
    (mi2 off2 : Nat) (h : matchAgg p items mi off acc = .ok (res, mi2, off2)) :
    res.length ≤ acc.length +
      (leavesOf items).countP (fun s => ((p.exec s).head?).isSome) :=
  c6_boundList p hg items mi off acc res mi2 off2 h

/-- Witness for the amended C6 at a concrete input: two leaves, two matches,
bounded by the number of matching leaves. -/
theorem claim_C6_witness :
    ∃ res mi2 off2,
      matchAgg exC6pat (getAggregateText (buildOptions exC6o) exC6tree) 0 0 []
        = .ok (res, mi2, off2) ∧
      res.length ≤
        (leavesOf (getAggregateText (buildOptions exC6o) exC6tree)).countP
          (fun s => ((exC6pat.exec s).head?).isSome) := by
  refine ⟨_, _, _, rfl, ?_⟩
  have := claim_C6_single_shot_per_leaf exC6pat rfl
    (getAggregateText (buildOptions exC6o) exC6tree) 0 0 [] _ _ _ rfl
  simpa using this


/-- `prepMatch` only raises the zero-length error. -/
theorem prepMatch_error_shape (m : RMatch) (mi off : Nat) (e : Str)
    (h : prepMatch m mi off = .error e) : e = zeroLenMsg := by
  unfold prepMatch at h
  split at h
  · exact (Except.error.injEq _ _).mp h.symm
  · exact absurd h (by simp)

/-- `prepMatch` raises exactly on a zero-length `match[0]`. -/
theorem prepMatch_zero (m : RMatch) (mi off : Nat) (h : m.matched = []) :
    prepMatch m mi off = .error zeroLenMsg := by
  unfold prepMatch
  simp [h]

/-- The `exec` loop only raises the zero-length error. -/
theorem execLoop_error_shape :
    ∀ ms mi off acc e, execLoop ms mi off acc = .error e → e = zeroLenMsg
  | [], mi, off, acc, e => by intro h; simp [execLoop] at h
  | m :: rest, mi, off, acc, e => by
    intro h
    simp only [execLoop] at h
    cases hp : prepMatch m mi off with
    | error e2 =>
      rw [hp, except_bind_error] at h
      cases h
      exact prepMatch_error_shape m mi off _ hp
    | ok pm =>
      rw [hp, except_bind_ok] at h
      exact execLoop_error_shape rest (mi + 1) off (acc ++ [pm]) e h

/-- A zero-length match anywhere in the engine's output makes the `exec`
loop raise the zero-length error. -/
theorem execLoop_zero :
    ∀ ms mi off acc, (∃ m ∈ ms, m.matched = []) →
      execLoop ms mi off acc = .error zeroLenMsg
  | [], mi, off, acc => by rintro ⟨m, hm, _⟩; cases hm
  | m :: rest, mi, off, acc => by
    rintro ⟨m2, hm2, hz⟩
    simp only [execLoop]
    rcases List.mem_cons.mp hm2 with h | h
    · subst h
      rw [prepMatch_zero m2 mi off hz, except_bind_error]
    · cases hp : prepMatch m mi off with
      | error e =>
        rw [except_bind_error, prepMatch_error_shape m mi off e hp]
      | ok pm =>
        rw [except_bind_ok]
        exact execLoop_zero rest (mi + 1) off (acc ++ [pm]) ⟨m2, h, hz⟩

mutual
/-- `matchAggItem` only raises the zero-length error (mutual helper). -/
theorem matchAggItem_error_shape (p : Pattern) :
    ∀ item : AggItem, ∀ mi off acc e,
      matchAggItem p item mi off acc = .error e → e = zeroLenMsg
  | .nested l => by
    intro mi off acc e h
    exact matchAgg_error_shape p l mi off acc e h
  | .s item => by
    intro mi off acc e h
    simp only [matchAggItem] at h
    split at h
    · cases hx : execLoop (p.exec item) mi off acc with
      | error e2 =>
        rw [hx, except_bind_error] at h
        cases h
        exact execLoop_error_shape _ _ _ _ _ hx
      | ok v => rw [hx, except_bind_ok] at h; exact absurd h (by simp)
    · split at h
      next m hh =>
        cases hp : prepMatch m 0 off with
        | error e2 =>
          rw [hp, except_bind_error] at h
          cases h
          exact prepMatch_error_shape _ _ _ _ hp
        | ok pm => rw [hp, except_bind_ok] at h; exact absurd h (by simp)
      next hh => exact absurd h (by simp)
/-- `matchAgg` only raises the zero-length error (mutual helper). -/
theorem matchAgg_error_shape (p : Pattern) :
    ∀ items : List AggItem, ∀ mi off acc e,
      matchAgg p items mi off acc = .error e → e = zeroLenMsg
  | [] => by intro mi off acc e h; simp [matchAgg] at h
  | i :: rest => by
    intro mi off acc e h
    simp only [matchAgg] at h
    cases hi : matchAggItem p i mi off acc with
    | error e2 =>
      rw [hi, except_bind_error] at h
      cases h
      exact matchAggItem_error_shape p i _ _ _ _ hi
    | ok v =>
      rw [hi, except_bind_ok] at h
      obtain ⟨acc2, mi3, off3⟩ := v
      exact matchAgg_error_shape p rest mi3 off3 acc2 e h
end

mutual
/-- A zero-length consumed match below one aggregation item makes that
item's processing raise the zero-length error (mutual helper for C2). -/
theorem c2_zeroItem (p : Pattern) :
    ∀ item : AggItem,
      (∃ s ∈ leavesOfItem item, ∃ m ∈ relevantMatches p s, m.matched = []) →
      ∀ mi off acc, matchAggItem p item mi off acc = .error zeroLenMsg
  | .nested l => by
    intro hz mi off acc
    exact c2_zeroList p l (by simpa [leavesOfItem] using hz) mi off acc
  | .s leafs => by
    rintro ⟨s, hs, m, hm, hz⟩ mi off acc
    simp only [leavesOfItem, List.mem_singleton] at hs
    subst hs
    simp only [matchAggItem]
    by_cases hg : p.global
    · simp only [hg, if_true]
      rw [execLoop_zero (p.exec s) mi off acc
        ⟨m, by simpa [relevantMatches, hg] using hm, hz⟩, except_bind_error]
    · simp only [hg, Bool.false_eq_true, if_false]
      simp only [relevantMatches, hg, Bool.false_eq_true, if_false] at hm
      cases hh : (p.exec s).head? with
      | none => rw [hh] at hm; cases hm
      | some m2 =>
        rw [hh] at hm
        simp only [Option.toList_some, List.mem_singleton] at hm
        subst hm
        simp only [prepMatch_zero m 0 off hz, except_bind_error]
/-- A zero-length consumed match below a list of aggregation items makes the
list's processing raise the zero-length error (mutual helper for C2). -/
theorem c2_zeroList (p : Pattern) :
    ∀ items : List AggItem,
      (∃ s ∈ leavesOf items, ∃ m ∈ relevantMatches p s, m.matched = []) →
      ∀ mi off acc, matchAgg p items mi off acc = .error zeroLenMsg
  | [] => by rintro ⟨s, hs, _⟩; simp [leavesOf] at hs
  | i :: rest => by
    rintro ⟨s, hs, m, hm, hz⟩ mi off acc
    simp only [leavesOf, List.mem_append] at hs
    simp only [matchAgg]
    rcases hs with hs | hs
    · rw [c2_zeroItem p i ⟨s, hs, m, hm, hz⟩ mi off acc, except_bind_error]
    · cases hi : matchAggItem p i mi off acc with
      | error e =>
        rw [except_bind_error, matchAggItem_error_shape p i _ _ _ _ hi]
      | ok v =>
        rw [except_bind_ok]
        obtain ⟨acc2, mi3, off3⟩ := v
        exact c2_zeroList p rest ⟨s, hs, m, hm, hz⟩ mi3 off3 acc2
end

/-- C2: when the pattern produces a consumed match of zero length on some
leaf of the aggregation, the whole operation raises the zero-length error
synchronously during the search phase: `runFinder` returns the error and no
finder state, so no tree mutation has occurred (the search runs entirely
before `processMatches`). -/
theorem claim_C2_zero_length_aborts (o : Options) (root : DNode) (fuel : Nat)
    (h : ∃ s ∈ leavesOf (getAggregateText (buildOptions o) root),
         ∃ m ∈ relevantMatches (regexOf (buildOptions o).find) s, m.matched = []) :
    runFinder o root fuel = .error zeroLenMsg := by
  have hz := c2_zeroList (regexOf (buildOptions o).find)
    (getAggregateText (buildOptions o) root) h 0 0 []
  simp only [runFinder, searchE, hz, except_bind_error]

/-- Witness for C2 at a concrete input: an empty find string produces a
zero-length match and aborts the whole operation with the error. -/
theorem claim_C2_witness :
    runFinder { find := .str [] } (.elem 0 "div".toList [] [.text 1 "abc".toList]) 9
      = .error zeroLenMsg := by
  apply claim_C2_zero_length_aborts
  refine ⟨"abc".toList, ?_, ⟨0, [], [], "abc".toList⟩, ?_, rfl⟩
  · decide
  · decide


/-- `textStep` leaves the traversal state unchanged on a non-text node. -/
theorem textStep_nonText (n : DNode) (tv : Trav) (h : n.isText = false) :
    textStep n tv = tv := by
  cases n with
  | text i d => simp [DNode.isText] at h
  | elem i nm c cs => rfl

/-- C7 (amended): a match whose resolved start or end node is not a text
node is silently skipped — `replaceMatch` performs no mutation, records no
inverse operation and raises no error — but the traversal then terminates
rather than continuing: the loop's cursor becomes `null` and the loop
exits, so later matches of the same pass are not processed. -/
theorem claim_C7_nontext_skip_stops (o : Options) :
    (∀ st m sp inners ep, sp.node.isText = false ∨ ep.node.isText = false →
      replaceMatchF o st m sp inners ep = (none, st)) ∧
    (∀ rootId fuel st tv c sp ep m,
      tv.cur = some c → tv.done = false →
      st.created.contains c = false →
      (∀ n, getById st.tree c = some n → n.isText = false) →
      tv.startP = some sp → tv.endP = some ep → tv.cm = some m →
      sp.node.isText = false →
      processLoop o rootId (fuel + 2) st tv
        = some { st with
            log := st.log ++ [{ m := m, startP := sp, inners := tv.inners, endP := ep }] }) := by
  have part1 : ∀ st m sp inners ep,
      sp.node.isText = false ∨ ep.node.isText = false →
      replaceMatchF o st m sp inners ep = (none, st) := by
    intro st m sp inners ep h
    unfold replaceMatchF
    cases hsp : sp.node with
    | text i d =>
      cases hep : ep.node with
      | text j e =>
        rcases h with h | h
        · rw [hsp] at h; simp [DNode.isText] at h
        · rw [hep] at h; simp [DNode.isText] at h
      | elem j nm c cs => rfl
    | elem i nm c cs => cases hep : ep.node with
      | text j e => rfl
      | elem j2 nm2 c2 cs2 => rfl
  refine ⟨part1, ?_⟩
  intro rootId fuel st tv c sp ep m hcur hdone hmade hnode hsp hep hcm hst
  have htv : (match getById st.tree c with
      | some n => textStep n tv
      | none => tv) = tv := by
    cases hn : getById st.tree c with
    | none => rfl
    | some n => exact textStep_nonText n tv (hnode n hn)
  rw [show fuel + 2 = (fuel + 1) + 1 from rfl]
  rw [processLoop]
  rw [hcur, hdone]
  simp only [hmade, Bool.false_eq_true, if_false]
  rw [htv, hsp, hep, hcm]
  dsimp only
  rw [part1 st m sp tv.inners ep (Or.inl hst)]
  dsimp only
  rw [processLoop]

/-- Witness for the amended C7 at a concrete input. -/
theorem claim_C7_witness :
    processLoop exC7o 0 8 exC7st exC7tv
      = some { exC7st with
          log := exC7st.log ++
            [{ m := exC7m1, startP := exC7sp, inners := exC7tv.inners, endP := exC7ep }] } ∧
    replaceMatchF exC7o exC7st exC7m1 exC7sp [] exC7ep = (none, exC7st) := by
  have h := claim_C7_nontext_skip_stops (o := exC7o)
  constructor
  · refine h.2 0 6 exC7st exC7tv 1 exC7sp exC7ep exC7m1 rfl rfl rfl ?_ rfl rfl rfl rfl
    intro n hn
    rw [show getById exC7st.tree 1 = some (.elem 1 "b".toList [] []) from rfl] at hn
    cases hn
    rfl
  · exact h.1 exC7st exC7m1 exC7sp [] exC7ep (Or.inl rfl)

/-- C7 counterexample: in this run the current match resolves with an
element start node and a further match (`exC7m2`, lying inside text node 2,
which the options would replace by `X`) is still pending; the loop result
shows the pass ends with the tree unchanged and no inverse operation
recorded — the later match was not processed, contradicting the claim that
traversal continues and later matches are still replaced. -/
theorem claim_C7_counterexample :
    processLoop exC7o 0 10 exC7st exC7tv
      = some { exC7st with
          log := [{ m := exC7m1, startP := exC7sp, inners := [], endP := exC7ep }] } ∧
    (processLoop exC7o 0 10 exC7st exC7tv).map FState.tree = some exC7tree ∧
    (processLoop exC7o 0 10 exC7st exC7tv).map FState.reverts = some [] ∧
    exC7tv.rest = [exC7m2] := by
  refine ⟨rfl, rfl, rfl, rfl⟩


/-- A falsy `forceContext` never forces a context. -/
theorem fcHolds_falsy (fc : Option ForceCtx) (h : fcFalsy fc) (el : DNode) :
    fcHolds fc el = false := by
  rcases h with h | h <;> subst h <;> rfl

mutual
/-- With a falsy `forceContext` the aggregation of a node is empty or one
single leaf string (mutual helper for C5). -/
theorem getText_falsy (fe : Option (DNode → Bool)) (fc : Option ForceCtx)
    (hfc : fcFalsy fc) :
    ∀ n : DNode, getText fe fc n = [] ∨ ∃ s, getText fe fc n = [.s s]
  | .text i d => by
    right
    exact ⟨d, rfl⟩
  | .elem i nm c cs => by
    have hch := getTextChildren_falsy fe fc hfc cs [] []
    simp only [getText]
    cases fe with
    | none =>
      right
      simpa using hch
    | some f =>
      by_cases hf : f (.elem i nm c cs)
      · right
        simp only [hf, if_true]
        simpa using hch
      · left
        simp [hf]
/-- With a falsy `forceContext` the child loop closes exactly one trailing
leaf string (mutual helper for C5). -/
theorem getTextChildren_falsy (fe : Option (DNode → Bool)) (fc : Option ForceCtx)
    (hfc : fcFalsy fc) :
    ∀ cs : List DNode, ∀ done cur,
      ∃ s, getTextChildren fe fc cs done cur = done ++ [.s s]
  | [] => by
    intro done cur
    exact ⟨cur, rfl⟩
  | .text j d :: rest => by
    intro done cur
    exact getTextChildren_falsy fe fc hfc rest done (cur ++ d)
  | .elem j nm c cs :: rest => by
    intro done cur
    simp only [getTextChildren, fcHolds_falsy fc hfc, Bool.false_eq_true, if_false]
    rcases getText_falsy fe fc hfc (.elem j nm c cs) with hin | ⟨s2, hin⟩
    · rw [hin]
      simp only [List.isEmpty_nil, if_true]
      exact getTextChildren_falsy fe fc hfc rest done cur
    · rw [hin]
      simp only [List.isEmpty_nil, if_true]
      exact getTextChildren_falsy fe fc hfc rest done (cur ++ s2)
end

/-- Every match added by the `exec` loop is prepared from an engine match
of the current leaf with the current offset. -/
theorem execLoop_mem :
    ∀ ms mi off acc res mi2, execLoop ms mi off acc = .ok (res, mi2) →
      ∀ x ∈ res, x ∈ acc ∨ ∃ rm ∈ ms, ∃ k, prepMatch rm k off = .ok x
  | [], mi, off, acc, res, mi2 => by
    intro h x hx
    simp only [execLoop, Except.ok.injEq, Prod.mk.injEq] at h
    left
    rw [h.1]
    exact hx
  | m :: rest, mi, off, acc, res, mi2 => by
    intro h x hx
    simp only [execLoop] at h
    cases hp : prepMatch m mi off with
    | error e => rw [hp, except_bind_error] at h; exact absurd h (by simp)
    | ok pm =>
      rw [hp, except_bind_ok] at h
      rcases execLoop_mem rest (mi + 1) off (acc ++ [pm]) res mi2 h x hx with
        hacc | ⟨rm, hrm, k, hk⟩
      · rcases List.mem_append.mp hacc with h2 | h2
        · exact Or.inl h2
        · simp only [List.mem_singleton] at h2
          subst h2
          exact Or.inr ⟨m, List.mem_cons_self m rest, mi, hp⟩
      · exact Or.inr ⟨rm, List.mem_cons_of_mem m hrm, k, hk⟩

/-- Fields attached by a successful `prepMatch`. -/
theorem prepMatch_ok_fields (rm : RMatch) (k off : Nat) (x : MatchWithMeta)
    (h : prepMatch rm k off = .ok x) :
    x.startIndex = off + rm.index ∧
    x.endIndex = off + rm.index + rm.matched.length ∧
    x.input = rm.input ∧ x.matched = rm.matched := by
  unfold prepMatch at h
  split at h
  · exact absurd h (by simp)
  · cases h
    exact ⟨rfl, rfl, rfl, rfl⟩

/-- `substring(0, k)` is `take k` when `k` is within bounds. -/
theorem jsSubstring_take (s : Str) (k : Nat) (hk : k ≤ s.length) :
    jsSubstring s 0 (k : Int) = s.take k := by
  unfold jsSubstring
  dsimp only
  have h0 : min (max (0 : Int) 0) (s.length : Int) = 0 := by omega
  have h1 : min (max (k : Int) 0) (s.length : Int) = (k : Int) := by omega
  rw [h0, h1]
  have h2 : min (0 : Int) (k : Int) = 0 := by omega
  have h3 : max (0 : Int) (k : Int) = (k : Int) := by omega
  rw [h2, h3]
  simp

/-- `substring(k)` is `drop k` when `k` is within bounds. -/
theorem jsSubstringFrom_drop (s : Str) (k : Nat) (hk : k ≤ s.length) :
    jsSubstringFrom s (k : Int) = s.drop k := by
  unfold jsSubstringFrom jsSubstring
  dsimp only
  have h1 : min (max (k : Int) 0) (s.length : Int) = (k : Int) := by omega
  have h2 : min (max (s.length : Int) 0) (s.length : Int) = (s.length : Int) := by
    omega
  rw [h1, h2]
  have h3 : min (k : Int) (s.length : Int) = (k : Int) := by omega
  have h4 : max (k : Int) (s.length : Int) = (s.length : Int) := by omega
  rw [h3, h4]
  simp

/-- Interpolating the bare left-context token. -/
theorem interpolate_backtick (m : MatchWithMeta) :
    interpolate m ['$', backtickChar] = jsSubstring m.input 0 (m.startIndex : Int) := by
  show interpGo m 2 ['$', backtickChar] = _
  simp [interpGo, backtickChar, quoteChar]

/-- Interpolating the bare right-context token. -/
theorem interpolate_quote (m : MatchWithMeta) :
    interpolate m ['$', quoteChar] = jsSubstringFrom m.input (m.endIndex : Int) := by
  show interpGo m 2 ['$', quoteChar] = _
  simp [interpGo, backtickChar, quoteChar]


/-- A successful search returns exactly the matches accumulated by
`matchAggregation`. -/
theorem searchE_ok (o : Options) (root : DNode) (ms : List MatchWithMeta)
    (h : searchE o root = .ok ms) :
    ∃ mi2 off2, matchAgg (regexOf o.find) (getAggregateText o root) 0 0 []
      = .ok (ms, mi2, off2) := by
  unfold searchE at h
  dsimp only at h
  cases hma : matchAgg (regexOf o.find) (getAggregateText o root) 0 0 [] with
  | error e => rw [hma, except_bind_error] at h; exact absurd h (by simp)
  | ok v =>
    obtain ⟨res, mi2, off2⟩ := v
    rw [hma, except_bind_ok] at h
    dsimp only at h
    simp only [pure, Except.pure, Except.ok.injEq] at h
    subst h
    exact ⟨mi2, off2, rfl⟩

/-- Every match a single-leaf aggregation produces is prepared from an
engine match of that leaf at the current offset. -/
theorem matchAgg_single_leaf (p : Pattern) (s : Str) (mi off : Nat)
    (acc res : List MatchWithMeta) (mi2 off2 : Nat)
    (h : matchAgg p [.s s] mi off acc = .ok (res, mi2, off2)) :
    ∀ x ∈ res, x ∈ acc ∨ ∃ rm ∈ p.exec s, ∃ k, prepMatch rm k off = .ok x := by
  intro x hx
  simp only [matchAgg] at h
  cases hI : matchAggItem p (.s s) mi off acc with
  | error e => rw [hI, except_bind_error] at h; exact absurd h (by simp)
  | ok v =>
    rw [hI, except_bind_ok] at h
    obtain ⟨acc2, mi3, off3⟩ := v
    dsimp only at h
    simp only [matchAgg, Except.ok.injEq, Prod.mk.injEq] at h
    rw [← h.1] at hx
    simp only [matchAggItem] at hI
    by_cases hg : p.global
    · simp only [hg, if_true] at hI
      cases hxx : execLoop (p.exec s) mi off acc with
      | error e => rw [hxx, except_bind_error] at hI; exact absurd hI (by simp)
      | ok w =>
        rw [hxx, except_bind_ok] at hI
        obtain ⟨acc3, mi4⟩ := w
        dsimp only at hI
        simp only [Except.ok.injEq, Prod.mk.injEq] at hI
        rw [hI.1] at hxx
        exact execLoop_mem (p.exec s) mi off acc acc2 mi4 hxx x hx
    · simp only [hg, Bool.false_eq_true, if_false] at hI
      cases hh : (p.exec s).head? with
      | none =>
        rw [hh] at hI
        simp only [Except.ok.injEq, Prod.mk.injEq] at hI
        rw [← hI.1] at hx
        exact Or.inl hx
      | some rm =>
        rw [hh] at hI
        dsimp only at hI
        have hrm : rm ∈ p.exec s := by
          cases hl : p.exec s with
          | nil => rw [hl] at hh; cases hh
          | cons a l =>
            rw [hl] at hh
            simp only [List.head?_cons, Option.some.injEq] at hh
            subst hh
            exact List.mem_cons_self a l
        cases hp : prepMatch rm 0 off with
        | error e => rw [hp, except_bind_error] at hI; exact absurd hI (by simp)
        | ok pm =>
          rw [hp, except_bind_ok] at hI
          simp only [Except.ok.injEq, Prod.mk.injEq] at hI
          rw [← hI.1] at hx
          rcases List.mem_append.mp hx with h2 | h2
          · exact Or.inl h2
          · simp only [List.mem_singleton] at h2
            subst h2
            exact Or.inr ⟨rm, hrm, 0, hp⟩

/-- C5 (amended): the context tokens are computed from the match's own leaf
string (`match.input`) with stream-global offsets.  When the aggregation is
a single leaf — in particular whenever `forceContext` is absent or `false`
— the leaf is the whole matched stream, so the left-context token
interpolates to exactly the text preceding the match's start offset and the
right-context token to exactly the text following its end offset. -/
theorem claim_C5_context_tokens (o : Options) (root : DNode)
    (ms : List MatchWithMeta) (m : MatchWithMeta)
    (hfc : fcFalsy o.forceContext) (hps : PatternSound (regexOf o.find))
    (h : searchE o root = .ok ms) (hm : m ∈ ms) :
    m.input = fullStream (getAggregateText o root) ∧
    interpolate m ['$', backtickChar] = m.input.take m.startIndex ∧
    interpolate m ['$', quoteChar] = m.input.drop m.endIndex := by
  obtain ⟨mi2, off2, hma⟩ := searchE_ok o root ms h
  rcases getText_falsy o.filterElements o.forceContext hfc root with hagg | ⟨s, hagg⟩
  · rw [show getAggregateText o root = getText o.filterElements o.forceContext root
      from rfl, hagg] at hma
    simp only [matchAgg, Except.ok.injEq, Prod.mk.injEq] at hma
    rw [← hma.1] at hm
    cases hm
  · rw [show getAggregateText o root = getText o.filterElements o.forceContext root
      from rfl, hagg] at hma ⊢
    rcases matchAgg_single_leaf (regexOf o.find) s 0 0 [] ms mi2 off2 hma m hm with
      hacc | ⟨rm, hrm, k, hk⟩
    · cases hacc
    · obtain ⟨hinp, hbound, hslice⟩ := hps s rm hrm
      obtain ⟨hstart, hend, hinp2, hmatched⟩ := prepMatch_ok_fields rm k 0 m hk
      have hinput : m.input = s := by rw [hinp2, hinp]
      have hlen : m.input.length = s.length := by rw [hinput]
      have hstart2 : m.startIndex ≤ m.input.length := by
        rw [hlen]
        omega
      have hend2 : m.endIndex ≤ m.input.length := by
        rw [hlen]
        omega
      refine ⟨?_, ?_, ?_⟩
      · rw [hinput]
        simp [fullStream, leavesOf, leavesOfItem]
      · rw [interpolate_backtick m]
        exact jsSubstring_take m.input m.startIndex hstart2
      · rw [interpolate_quote m]
        exact jsSubstringFrom_drop m.input m.endIndex hend2

/-- Witness for the amended C5 at a concrete input: the pattern matches
`bc` inside the single leaf `abcd`; the left token yields `a`, the right
token `d`. -/
theorem claim_C5_witness :
    ∃ ms m, searchE exC5o2 exC5tree2 = .ok ms ∧ m ∈ ms ∧
      m.input = fullStream (getAggregateText exC5o2 exC5tree2) ∧
      interpolate m ['$', backtickChar] = "a".toList ∧
      interpolate m ['$', quoteChar] = "d".toList := by
  have hps : PatternSound (regexOf exC5o2.find) := by
    intro s m hm
    have hm2 : m ∈ (if s = "abcd".toList
        then [({ index := 1, matched := "bc".toList, groups := [], input := s } : RMatch)]
        else []) := hm
    by_cases hs : s = "abcd".toList
    · rw [if_pos hs] at hm2
      simp only [List.mem_singleton] at hm2
      subst hm2
      subst hs
      refine ⟨rfl, by decide, by decide⟩
    · rw [if_neg hs] at hm2
      cases hm2
  have hsearch : searchE exC5o2 exC5tree2
      = .ok [{ matched := "bc".toList, groups := [], startIndex := 1,
               endIndex := 3, index := 0, input := "abcd".toList }] := rfl
  have h := claim_C5_context_tokens exC5o2 exC5tree2 _ _ (Or.inl rfl) hps hsearch
    (List.mem_cons_self _ _)
  exact ⟨_, _, hsearch, List.mem_cons_self _ _, h.1, (h.2.1).trans (by decide), (h.2.2).trans (by decide)⟩

/-- C5 counterexample: with two force-context leaves `ab` and `cd` and a
match of `cd` in the second leaf, the match's global start offset is 2 but
its `input` is only the leaf `cd`; interpolating the left-context token
yields `cd` (the leaf clamped at the global offset), not the exact
left context `ab` of the matched stream that the claim requires. -/
theorem claim_C5_counterexample :
    ∃ m, searchE (buildOptions exC5o) exC5tree = .ok [m] ∧
      fullStream (getAggregateText (buildOptions exC5o) exC5tree) = "abcd".toList ∧
      (fullStream (getAggregateText (buildOptions exC5o) exC5tree)).take m.startIndex
        = "ab".toList ∧
      interpolate m ['$', backtickChar] = "cd".toList ∧
      ("cd".toList : Str) ≠ "ab".toList := by
  refine ⟨{ matched := "cd".toList, groups := [], startIndex := 2, endIndex := 4,
            index := 0, input := "cd".toList }, rfl, rfl, rfl, rfl, by decide⟩


/-- A node's own identity is among its identities. -/
theorem idOf_mem_nodeIds (t : DNode) : t.idOf ∈ nodeIds t := by
  cases t <;> simp [nodeIds, DNode.idOf]

mutual
/-- A successful lookup returns a node with the looked-up identity. -/
theorem getById_idOf : ∀ t i n, getById t i = some n → n.idOf = i
  | .text j d => by
    intro i n h
    simp only [getById] at h
    split at h
    · cases h
      assumption
    · cases h
  | .elem j nm c cs => by
    intro i n h
    simp only [getById] at h
    split at h
    · cases h
      assumption
    · exact getById_idOfL cs i n h
/-- A successful forest lookup returns a node with the looked-up identity. -/
theorem getById_idOfL : ∀ l i n, getByIdL l i = some n → n.idOf = i
  | [] => by intro i n h; cases h
  | x :: xs => by
    intro i n h
    simp only [getByIdL] at h
    cases hx : getById x i with
    | some r =>
      simp only [hx] at h
      cases h
      exact getById_idOf x i _ hx
    | none =>
      simp only [hx] at h
      exact getById_idOfL xs i n h
end

mutual
/-- A successful lookup implies membership of the identity. -/
theorem getById_mem : ∀ t i n, getById t i = some n → i ∈ nodeIds t
  | .text j d => by
    intro i n h
    simp only [getById] at h
    split at h
    next hj => simp [nodeIds, DNode.idOf] at hj ⊢; omega
    · cases h
  | .elem j nm c cs => by
    intro i n h
    simp only [getById] at h
    split at h
    next hj =>
      simp only [DNode.idOf] at hj
      simp [nodeIds, hj]
    next =>
      simp only [nodeIds, List.mem_cons]
      exact Or.inr (getById_memL cs i n h)
/-- A successful forest lookup implies membership of the identity. -/
theorem getById_memL : ∀ l i n, getByIdL l i = some n → i ∈ nodeIdsL l
  | [] => by intro i n h; cases h
  | x :: xs => by
    intro i n h
    simp only [getByIdL] at h
    cases hx : getById x i with
    | some r =>
      simp only [hx] at h
      cases h
      simp only [nodeIdsL, List.mem_append]
      exact Or.inl (getById_mem x i _ hx)
    | none =>
      simp only [hx] at h
      simp only [nodeIdsL, List.mem_append]
      exact Or.inr (getById_memL xs i n h)
end

mutual
/-- Membership of an identity implies the lookup succeeds. -/
theorem getById_isSome : ∀ t i, i ∈ nodeIds t → (getById t i).isSome
  | .text j d => by
    intro i h
    simp only [nodeIds, List.mem_singleton] at h
    subst h
    simp [getById, DNode.idOf]
  | .elem j nm c cs => by
    intro i h
    simp only [nodeIds, List.mem_cons] at h
    simp only [getById]
    split
    · simp
    next hj =>
      rcases h with h | h
      · exact absurd (by simp [DNode.idOf, h]) hj
      · exact getById_isSomeL cs i h
/-- Membership of an identity implies the forest lookup succeeds. -/
theorem getById_isSomeL : ∀ l i, i ∈ nodeIdsL l → (getByIdL l i).isSome
  | [] => by intro i h; simp [nodeIdsL] at h
  | x :: xs => by
    intro i h
    simp only [nodeIdsL, List.mem_append] at h
    simp only [getByIdL]
    split
    · simp
    next hn =>
      rcases h with h | h
      · have := getById_isSome x i h
        rw [hn] at this
        simp at this
      · exact getById_isSomeL xs i h
end

/-- An absent identity makes the lookup fail. -/
theorem getById_none (t : DNode) (i : Nat) (h : i ∉ nodeIds t) :
    getById t i = none := by
  cases hg : getById t i with
  | none => rfl
  | some n => exact absurd (getById_mem t i n hg) h

mutual
/-- Inserting before an absent identity is a no-op. -/
theorem insertBeforeId_noop : ∀ t ref nw, ref ∉ nodeIds t →
    insertBeforeId t ref nw = t
  | .text j d => by intro ref nw h; rfl
  | .elem j nm c cs => by
    intro ref nw h
    simp only [nodeIds, List.mem_cons, not_or] at h
    simp only [insertBeforeId]
    rw [insertBeforeId_noopL cs ref nw h.2]
/-- Inserting before an absent identity is a no-op (forests). -/
theorem insertBeforeId_noopL : ∀ l ref nw, ref ∉ nodeIdsL l →
    insertBeforeIdL l ref nw = l
  | [] => by intro ref nw h; rfl
  | x :: xs => by
    intro ref nw h
    simp only [nodeIdsL, List.mem_append, not_or] at h
    simp only [insertBeforeIdL]
    rw [if_neg, insertBeforeId_noop x ref nw h.1, insertBeforeId_noopL xs ref nw h.2]
    intro hx
    exact h.1 (hx ▸ idOf_mem_nodeIds x)
end

mutual
/-- Removing an absent identity is a no-op. -/
theorem removeId_noop : ∀ t x, x ∉ nodeIds t → removeId t x = t
  | .text j d => by intro x h; rfl
  | .elem j nm c cs => by
    intro x h
    simp only [nodeIds, List.mem_cons, not_or] at h
    simp only [removeId]
    rw [removeId_noopL cs x h.2]
/-- Removing an absent identity is a no-op (forests). -/
theorem removeId_noopL : ∀ l x, x ∉ nodeIdsL l → removeIdL l x = l
  | [] => by intro x h; rfl
  | n :: ns => by
    intro x h
    simp only [nodeIdsL, List.mem_append, not_or] at h
    simp only [removeIdL]
    rw [if_neg, removeId_noop n x h.1, removeId_noopL ns x h.2]
    intro hx
    exact h.1 (hx ▸ idOf_mem_nodeIds n)
end

mutual
/-- Replacing an absent identity is a no-op. -/
theorem replaceId_noop : ∀ t x nw, x ∉ nodeIds t → replaceId t x nw = t
  | .text j d => by intro x nw h; rfl
  | .elem j nm c cs => by
    intro x nw h
    simp only [nodeIds, List.mem_cons, not_or] at h
    simp only [replaceId]
    rw [replaceId_noopL cs x nw h.2]
/-- Replacing an absent identity is a no-op (forests). -/
theorem replaceId_noopL : ∀ l x nw, x ∉ nodeIdsL l → replaceIdL l x nw = l
  | [] => by intro x nw h; rfl
  | n :: ns => by
    intro x nw h
    simp only [nodeIdsL, List.mem_append, not_or] at h
    simp only [replaceIdL]
    rw [if_neg, replaceId_noop n x nw h.1, replaceId_noopL ns x nw h.2]
    intro hx
    exact h.1 (hx ▸ idOf_mem_nodeIds n)
end


/-- Identities of a forest concatenation. -/
theorem nodeIdsL_append (l1 l2 : List DNode) :
    nodeIdsL (l1 ++ l2) = nodeIdsL l1 ++ nodeIdsL l2 := by
  induction l1 with
  | nil => rfl
  | cons x xs ih => simp [nodeIdsL, ih]

/-- A top-level identity is among the forest identities. -/
theorem mem_idsL_of_map (l : List DNode) (y : Nat) (h : y ∈ l.map DNode.idOf) :
    y ∈ nodeIdsL l := by
  induction l with
  | nil => simp at h
  | cons x xs ih =>
    simp only [List.map_cons, List.mem_cons] at h
    simp only [nodeIdsL, List.mem_append]
    rcases h with h | h
    · exact Or.inl (h ▸ idOf_mem_nodeIds x)
    · exact Or.inr (ih h)

mutual
/-- Identities of a found subtree are identities of the tree. -/
theorem getById_sub : ∀ t i n, getById t i = some n →
    ∀ y ∈ nodeIds n, y ∈ nodeIds t
  | .text j d => by
    intro i n h y hy
    simp only [getById] at h
    split at h
    · cases h; exact hy
    · cases h
  | .elem j nm c cs => by
    intro i n h y hy
    simp only [getById] at h
    split at h
    · cases h; exact hy
    · simp only [nodeIds, List.mem_cons]
      exact Or.inr (getById_subL cs i n h y hy)
/-- Identities of a found subtree are identities of the forest. -/
theorem getById_subL : ∀ l i n, getByIdL l i = some n →
    ∀ y ∈ nodeIds n, y ∈ nodeIdsL l
  | [] => by intro i n h; cases h
  | x :: xs => by
    intro i n h y hy
    simp only [getByIdL] at h
    cases hx : getById x i with
    | some r =>
      simp only [hx] at h
      cases h
      simp only [nodeIdsL, List.mem_append]
      exact Or.inl (getById_sub x i _ hx y hy)
    | none =>
      simp only [hx] at h
      simp only [nodeIdsL, List.mem_append]
      exact Or.inr (getById_subL xs i n h y hy)
end

/-- Forest lookup splits over concatenation. -/
theorem getByIdL_append (l1 l2 : List DNode) (i : Nat) :
    getByIdL (l1 ++ l2) i
      = match getByIdL l1 i with
        | some r => some r
        | none => getByIdL l2 i := by
  induction l1 with
  | nil => simp [getByIdL]
  | cons x xs ih =>
    simp only [List.cons_append, getByIdL]
    cases hx : getById x i with
    | some r => rfl
    | none => exact ih

mutual
/-- Rewriting the children of an absent element is a no-op. -/
theorem childUpdate_noop : ∀ t pid f, pid ∉ nodeIds t → childUpdate pid f t = t
  | .text j d => by intro pid f h; rfl
  | .elem j nm c cs => by
    intro pid f h
    simp only [nodeIds, List.mem_cons, not_or] at h
    simp only [childUpdate]
    rw [if_neg (by simpa [DNode.idOf] using (Ne.symm h.1)),
      childUpdate_noopL cs pid f h.2]
/-- Rewriting the children of an absent element is a no-op (forests). -/
theorem childUpdate_noopL : ∀ l pid f, pid ∉ nodeIdsL l → childUpdateL pid f l = l
  | [] => by intro pid f h; rfl
  | x :: xs => by
    intro pid f h
    simp only [nodeIdsL, List.mem_append, not_or] at h
    simp only [childUpdateL]
    rw [childUpdate_noop x pid f h.1, childUpdate_noopL xs pid f h.2]
end

mutual
/-- Children rewrites at the same element compose. -/
theorem childUpdate_comp : ∀ t pid f g,
    childUpdate pid g (childUpdate pid f t) = childUpdate pid (fun cs => g (f cs)) t
  | .text j d => by intro pid f g; rfl
  | .elem j nm c cs => by
    intro pid f g
    simp only [childUpdate]
    by_cases hj : j = pid
    · rw [if_pos hj]
      simp only [childUpdate, if_pos hj]
    · rw [if_neg hj]
      simp only [childUpdate, if_neg hj]
      rw [childUpdate_compL cs pid f g]
/-- Children rewrites at the same element compose (forests). -/
theorem childUpdate_compL : ∀ l pid f g,
    childUpdateL pid g (childUpdateL pid f l) = childUpdateL pid (fun cs => g (f cs)) l
  | [] => by intro pid f g; rfl
  | x :: xs => by
    intro pid f g
    simp only [childUpdateL]
    rw [childUpdate_comp x pid f g, childUpdate_compL xs pid f g]
end

mutual
/-- The identity children rewrite is the identity. -/
theorem childUpdate_id : ∀ t pid, childUpdate pid (fun cs => cs) t = t
  | .text j d => by intro pid; rfl
  | .elem j nm c cs => by
    intro pid
    simp only [childUpdate]
    by_cases hj : j = pid
    · rw [if_pos hj]
    · rw [if_neg hj, childUpdate_idL cs pid]
/-- The identity children rewrite is the identity (forests). -/
theorem childUpdate_idL : ∀ l pid, childUpdateL pid (fun cs => cs) l = l
  | [] => by intro pid; rfl
  | x :: xs => by
    intro pid
    simp only [childUpdateL]
    rw [childUpdate_id x pid, childUpdate_idL xs pid]
end


/-- A failed lookup means the identity is absent. -/
theorem not_mem_of_getById_none (t : DNode) (i : Nat) (h : getById t i = none) :
    i ∉ nodeIds t := by
  intro hm
  have := getById_isSome t i hm
  rw [h] at this
  simp at this

/-- A failed forest lookup means the identity is absent. -/
theorem not_mem_of_getByIdL_none (l : List DNode) (i : Nat) (h : getByIdL l i = none) :
    i ∉ nodeIdsL l := by
  intro hm
  have := getById_isSomeL l i hm
  rw [h] at this
  simp at this

mutual
/-- Shape of the identity list around a found element, and of the identity
list after rewriting that element's children. -/
theorem idsShape : ∀ t pid nm cl cs, (nodeIds t).Nodup →
    getById t pid = some (.elem pid nm cl cs) →
    ∃ u v, nodeIds t = u ++ (pid :: nodeIdsL cs) ++ v ∧
      ∀ f, nodeIds (childUpdate pid f t) = u ++ (pid :: nodeIdsL (f cs)) ++ v
  | .text j d => by
    intro pid nm cl cs hnd h
    simp only [getById] at h
    split at h
    · cases h
    · cases h
  | .elem j nm2 c2 cs2 => by
    intro pid nm cl cs hnd h
    simp only [getById] at h
    split at h
    next hj =>
      simp only [DNode.idOf] at hj
      cases h
      refine ⟨[], [], by simp [nodeIds, hj], fun f => ?_⟩
      simp only [childUpdate, if_pos hj]
      simp [nodeIds, hj]
    next hj =>
      simp only [DNode.idOf] at hj
      simp only [nodeIds] at hnd
      obtain ⟨u, v, h1, h2⟩ := idsShapeL cs2 pid nm cl cs hnd.of_cons h
      refine ⟨j :: u, v, by simp [nodeIds, h1], fun f => ?_⟩
      simp only [childUpdate, if_neg hj]
      simp [nodeIds, h2 f]
/-- Shape of the identity list around a found element (forests). -/
theorem idsShapeL : ∀ l pid nm cl cs, (nodeIdsL l).Nodup →
    getByIdL l pid = some (.elem pid nm cl cs) →
    ∃ u v, nodeIdsL l = u ++ (pid :: nodeIdsL cs) ++ v ∧
      ∀ f, nodeIdsL (childUpdateL pid f l) = u ++ (pid :: nodeIdsL (f cs)) ++ v
  | [] => by intro pid nm cl cs hnd h; cases h
  | x :: xs => by
    intro pid nm cl cs hnd h
    simp only [getByIdL] at h
    simp only [nodeIdsL] at hnd
    cases hx : getById x pid with
    | some r =>
      simp only [hx] at h
      cases h
      obtain ⟨u, v, h1, h2⟩ := idsShape x pid nm cl cs (hnd.of_append_left) hx
      have hpid : pid ∈ nodeIds x := getById_mem x pid _ hx
      have hnot : pid ∉ nodeIdsL xs := by
        intro hc
        exact (List.disjoint_of_nodup_append hnd) hpid hc
      refine ⟨u, v ++ nodeIdsL xs, ?_, fun f => ?_⟩
      · simp [nodeIdsL, h1]
      · simp only [childUpdateL, nodeIdsL]
        rw [childUpdate_noopL xs pid f hnot]
        simp [h2 f]
    | none =>
      simp only [hx] at h
      have hnot : pid ∉ nodeIds x := not_mem_of_getById_none x pid hx
      obtain ⟨u, v, h1, h2⟩ := idsShapeL xs pid nm cl cs (hnd.of_append_right) h
      refine ⟨nodeIds x ++ u, v, ?_, fun f => ?_⟩
      · simp [nodeIdsL, h1]
      · simp only [childUpdateL, nodeIdsL]
        rw [childUpdate_noop x pid f hnot]
        simp [h2 f]
end

mutual
/-- Looking up the rewritten element after a children rewrite. -/
theorem getById_childUpdate : ∀ t pid nm cl cs, (nodeIds t).Nodup →
    getById t pid = some (.elem pid nm cl cs) →
    ∀ f, getById (childUpdate pid f t) pid = some (.elem pid nm cl (f cs))
  | .text j d => by
    intro pid nm cl cs hnd h f
    simp only [getById] at h
    split at h
    · cases h
    · cases h
  | .elem j nm2 c2 cs2 => by
    intro pid nm cl cs hnd h f
    simp only [getById] at h
    split at h
    next hj =>
      simp only [DNode.idOf] at hj
      subst hj
      cases h
      simp [childUpdate, getById, DNode.idOf]
    next hj =>
      simp only [DNode.idOf] at hj
      simp only [nodeIds] at hnd
      simp only [childUpdate, if_neg hj, getById, DNode.idOf]
      exact getById_childUpdateL cs2 pid nm cl cs hnd.of_cons h f
/-- Looking up the rewritten element after a children rewrite (forests). -/
theorem getById_childUpdateL : ∀ l pid nm cl cs, (nodeIdsL l).Nodup →
    getByIdL l pid = some (.elem pid nm cl cs) →
    ∀ f, getByIdL (childUpdateL pid f l) pid = some (.elem pid nm cl (f cs))
  | [] => by intro pid nm cl cs hnd h f; cases h
  | x :: xs => by
    intro pid nm cl cs hnd h f
    simp only [getByIdL] at h
    simp only [nodeIdsL] at hnd
    cases hx : getById x pid with
    | some r =>
      simp only [hx] at h
      cases h
      simp only [childUpdateL, getByIdL]
      rw [getById_childUpdate x pid nm cl cs (hnd.of_append_left) hx f]
    | none =>
      simp only [hx] at h
      have hnot : pid ∉ nodeIds x := not_mem_of_getById_none x pid hx
      simp only [childUpdateL, getByIdL]
      rw [childUpdate_noop x pid f hnot, hx]
      exact getById_childUpdateL xs pid nm cl cs (hnd.of_append_right) h f
end


/-- A member of a forest contributes its identities to the forest. -/
theorem ids_of_mem (l : List DNode) (c : DNode) (hc : c ∈ l) (x : Nat)
    (hx : x ∈ nodeIds c) : x ∈ nodeIdsL l := by
  induction l with
  | nil => cases hc
  | cons n ns ih =>
    simp only [nodeIdsL, List.mem_append]
    rcases List.mem_cons.mp hc with h | h
    · exact Or.inl (h ▸ hx)
    · exact Or.inr (ih h)

/-- Under distinct identities, two forest members containing the same
identity are the same member. -/
theorem member_unique (l : List DNode) (hnd : (nodeIdsL l).Nodup)
    (c0 c1 : DNode) (hc0 : c0 ∈ l) (hc1 : c1 ∈ l) (x : Nat)
    (hx0 : x ∈ nodeIds c0) (hx1 : x ∈ nodeIds c1) : c0 = c1 := by
  induction l with
  | nil => cases hc0
  | cons n ns ih =>
    simp only [nodeIdsL] at hnd
    rcases List.mem_cons.mp hc0 with h0 | h0 <;>
      rcases List.mem_cons.mp hc1 with h1 | h1
    · rw [h0, h1]
    · subst h0
      exact absurd (ids_of_mem ns c1 h1 x hx1)
        (fun hc => (List.disjoint_of_nodup_append hnd) hx0 hc)
    · subst h1
      exact absurd (ids_of_mem ns c0 h0 x hx0)
        (fun hc => (List.disjoint_of_nodup_append hnd) hx1 hc)
    · exact ih hnd.of_append_right h0 h1

/-- A member of a forest with distinct identities has distinct identities. -/
theorem nodup_of_mem (l : List DNode) (hnd : (nodeIdsL l).Nodup) (c : DNode)
    (hc : c ∈ l) : (nodeIds c).Nodup := by
  induction l with
  | nil => cases hc
  | cons n ns ih =>
    simp only [nodeIdsL] at hnd
    rcases List.mem_cons.mp hc with h | h
    · exact h ▸ hnd.of_append_left
    · exact ih hnd.of_append_right h

/-- A successful forest lookup happens inside some member. -/
theorem getByIdL_exists_mem (l : List DNode) (i : Nat) (r : DNode)
    (h : getByIdL l i = some r) : ∃ c ∈ l, getById c i = some r := by
  induction l with
  | nil => cases h
  | cons n ns ih =>
    simp only [getByIdL] at h
    cases hx : getById n i with
    | some r2 =>
      simp only [hx] at h
      cases h
      exact ⟨n, List.mem_cons_self n ns, hx⟩
    | none =>
      simp only [hx] at h
      obtain ⟨c, hc, hcc⟩ := ih h
      exact ⟨c, List.mem_cons_of_mem n hc, hcc⟩

mutual
/-- The parent lookup of an absent identity fails. -/
theorem parentIdOf_none : ∀ t y, y ∉ nodeIds t → parentIdOf t y = none
  | .text j d => by intro y h; rfl
  | .elem j nm c cs => by
    intro y h
    simp only [nodeIds, List.mem_cons, not_or] at h
    simp only [parentIdOf]
    rw [if_neg, parentIdOf_noneL cs y h.2]
    intro hc
    exact h.2 (mem_idsL_of_map cs y (List.elem_iff.mp hc))
/-- The parent lookup of an absent identity fails (forests). -/
theorem parentIdOf_noneL : ∀ l y, y ∉ nodeIdsL l → parentIdOfL l y = none
  | [] => by intro y h; rfl
  | n :: ns => by
    intro y h
    simp only [nodeIdsL, List.mem_append, not_or] at h
    simp only [parentIdOfL]
    rw [parentIdOf_none n y h.1, parentIdOf_noneL ns y h.2]
end

mutual
/-- The parent of a direct child of a found element is that element. -/
theorem parentIdOf_of_child : ∀ t pid nm cl cs y, (nodeIds t).Nodup →
    getById t pid = some (.elem pid nm cl cs) → y ∈ cs.map DNode.idOf →
    parentIdOf t y = some pid
  | .text j d => by
    intro pid nm cl cs y hnd h hy
    simp only [getById] at h
    split at h
    · cases h
    · cases h
  | .elem j nm2 c2 cs2 => by
    intro pid nm cl cs y hnd h hy
    simp only [getById] at h
    split at h
    next hj =>
      simp only [DNode.idOf] at hj
      cases h
      simp only [parentIdOf]
      rw [if_pos (List.elem_iff.mpr hy), hj]
    next hj =>
      simp only [DNode.idOf] at hj
      simp only [nodeIds] at hnd
      obtain ⟨c0, hc0, hcc0⟩ := getByIdL_exists_mem cs2 pid _ h
      have hyel : y ∈ nodeIds (DNode.elem pid nm cl cs) := by
        simp only [nodeIds, List.mem_cons]
        exact Or.inr (mem_idsL_of_map cs y hy)
      have hyc0 : y ∈ nodeIds c0 := getById_sub c0 pid _ hcc0 y hyel
      simp only [parentIdOf]
      rw [if_neg, parentIdOf_of_childL cs2 pid nm cl cs y hnd.of_cons h hy]
      intro hcont
      obtain ⟨c1, hc1, hc1y⟩ := List.mem_map.mp (List.elem_iff.mp hcont)
      have hyids : y ∈ nodeIds c1 := hc1y ▸ idOf_mem_nodeIds c1
      have hcc : c1 = c0 :=
        member_unique cs2 hnd.of_cons c1 c0 hc1 hc0 y hyids hyc0
      subst hcc
      have hndc1 : (nodeIds c1).Nodup := nodup_of_mem cs2 hnd.of_cons c1 hc1
      rcases c1 with ⟨i1, d1⟩ | ⟨i1, nm1, cl1, cs1⟩
      · simp only [getById] at hcc0
        split at hcc0
        · cases hcc0
        · cases hcc0
      · simp only [DNode.idOf] at hc1y
        simp only [nodeIds] at hndc1
        simp only [getById, DNode.idOf] at hcc0
        split at hcc0
        next hpc =>
          simp only [Option.some.injEq, DNode.elem.injEq] at hcc0
          have hmem : y ∈ nodeIdsL cs1 :=
            mem_idsL_of_map cs1 y (by rw [hcc0.2.2.2]; exact hy)
          refine (List.nodup_cons.mp hndc1).1 ?_
          rw [hc1y]
          exact hmem
        next hpc =>
          have hsub := getById_subL cs1 pid _ hcc0 y hyel
          refine (List.nodup_cons.mp hndc1).1 ?_
          rw [hc1y]
          exact hsub
/-- Forest version of `parentIdOf_of_child`. -/
theorem parentIdOf_of_childL : ∀ l pid nm cl cs y, (nodeIdsL l).Nodup →
    getByIdL l pid = some (.elem pid nm cl cs) → y ∈ cs.map DNode.idOf →
    parentIdOfL l y = some pid
  | [] => by intro pid nm cl cs y hnd h hy; cases h
  | n :: ns => by
    intro pid nm cl cs y hnd h hy
    simp only [getByIdL] at h
    simp only [nodeIdsL] at hnd
    simp only [parentIdOfL]
    cases hx : getById n pid with
    | some r =>
      simp only [hx] at h
      cases h
      rw [parentIdOf_of_child n pid nm cl cs y hnd.of_append_left hx hy]
    | none =>
      simp only [hx] at h
      have hyel : y ∈ nodeIds (DNode.elem pid nm cl cs) := by
        simp only [nodeIds, List.mem_cons]
        exact Or.inr (mem_idsL_of_map cs y hy)
      have hyns : y ∈ nodeIdsL ns := getById_subL ns pid _ h y hyel
      have hyn : y ∉ nodeIds n := fun hc =>
        (List.disjoint_of_nodup_append hnd) hc hyns
      rw [parentIdOf_none n y hyn]
      exact parentIdOf_of_childL ns pid nm cl cs y hnd.of_append_right h hy
end

mutual
/-- Every non-root node sits among the children of some element of the
tree (focus decomposition). -/
theorem focusOf : ∀ t x node, (nodeIds t).Nodup → getById t x = some node →
    x ≠ t.idOf →
    ∃ pid nm cl a b, getById t pid = some (.elem pid nm cl (a ++ node :: b))
  | .text j d => by
    intro x node hnd h hx
    simp only [getById] at h
    split at h
    next hj => exact absurd hj.symm hx
    next => cases h
  | .elem j nm2 c2 cs2 => by
    intro x node hnd h hx
    simp only [getById] at h
    rw [if_neg (fun hh => hx hh.symm)] at h
    simp only [nodeIds] at hnd
    rcases focusOfL cs2 x node hnd.of_cons h with ⟨a, b, hab⟩ | ⟨pid, nm, cl, a, b, hfind⟩
    · refine ⟨j, nm2, c2, a, b, ?_⟩
      rw [← hab]
      simp [getById, DNode.idOf]
    · have hjp : j ≠ pid := by
        intro hh
        exact (List.nodup_cons.mp hnd).1 (hh ▸ getById_memL cs2 pid _ hfind)
      refine ⟨pid, nm, cl, a, b, ?_⟩
      simp only [getById, DNode.idOf]
      rw [if_neg hjp]
      exact hfind
/-- Focus decomposition in a forest: the node is a top-level member or sits
among the children of some element. -/
theorem focusOfL : ∀ l x node, (nodeIdsL l).Nodup → getByIdL l x = some node →
    (∃ a b, l = a ++ node :: b) ∨
    (∃ pid nm cl a b, getByIdL l pid = some (.elem pid nm cl (a ++ node :: b)))
  | [] => by intro x node hnd h; cases h
  | n :: ns => by
    intro x node hnd h
    simp only [getByIdL] at h
    simp only [nodeIdsL] at hnd
    cases hgx : getById n x with
    | some r =>
      simp only [hgx] at h
      cases h
      by_cases hx0 : x = n.idOf
      · left
        have hnode : node = n := by
          cases n <;> simp only [getById] at hgx <;>
            rw [if_pos hx0.symm] at hgx <;> exact (Option.some.injEq _ _).mp hgx.symm
        exact ⟨[], ns, by rw [hnode]; rfl⟩
      · right
        obtain ⟨pid, nm, cl, a, b, hfind⟩ :=
          focusOf n x node hnd.of_append_left hgx hx0
        refine ⟨pid, nm, cl, a, b, ?_⟩
        simp only [getByIdL, hfind]
    | none =>
      simp only [hgx] at h
      rcases focusOfL ns x node hnd.of_append_right h with
        ⟨a, b, hab⟩ | ⟨pid, nm, cl, a, b, hfind⟩
      · exact Or.inl ⟨n :: a, b, by rw [hab]; rfl⟩
      · right
        have hpidns : pid ∈ nodeIdsL ns := getById_memL ns pid _ hfind
        have hpidn : pid ∉ nodeIds n := fun hc =>
          (List.disjoint_of_nodup_append hnd) hc hpidns
        refine ⟨pid, nm, cl, a, b, ?_⟩
        simp only [getByIdL, getById_none n pid hpidn]
        exact hfind
end


/-- The identity list of a node starts with its own identity. -/
theorem nodeIds_head (t : DNode) : ∃ tl, nodeIds t = t.idOf :: tl := by
  cases t with
  | text i d => exact ⟨[], rfl⟩
  | elem i nm c cs => exact ⟨nodeIdsL cs, rfl⟩

/-- An identity strictly below a found element differs from the root
identity. -/
theorem strict_inside (n : DNode) (pid : Nat) (nm cl : Str) (cs : List DNode)
    (x : Nat) (hnd : (nodeIds n).Nodup)
    (h : getById n pid = some (.elem pid nm cl cs)) (hx : x ∈ nodeIdsL cs) :
    x ≠ n.idOf := by
  obtain ⟨u, v, hu, _⟩ := idsShape n pid nm cl cs hnd h
  obtain ⟨tl, htl⟩ := nodeIds_head n
  cases u with
  | nil =>
    simp only [List.nil_append, List.cons_append] at hu
    rw [hu] at htl hnd
    have hpid : pid = n.idOf := (List.cons.injEq _ _ _ _).mp htl |>.1
    intro hxe
    refine (List.nodup_cons.mp hnd).1 ?_
    rw [hpid, ← hxe]
    simp only [List.mem_append]
    exact Or.inl hx
  | cons w u2 =>
    rw [hu] at htl hnd
    simp only [List.cons_append] at htl hnd
    have hw : w = n.idOf := (List.cons.injEq _ _ _ _).mp htl |>.1
    intro hxe
    refine (List.nodup_cons.mp hnd).1 ?_
    rw [hw, ← hxe]
    simp [List.mem_append, List.mem_cons, hx]

mutual
/-- Generic surgery at an absent identity is a no-op. -/
theorem surgT_noop : ∀ t x act, x ∉ nodeIds t → surgT x act t = t
  | .text j d => by intro x act h; rfl
  | .elem j nm c cs => by
    intro x act h
    simp only [nodeIds, List.mem_cons, not_or] at h
    simp only [surgT]
    rw [surgDeep_noop cs x act h.2]
/-- Generic surgery at an absent identity is a no-op (forests). -/
theorem surgDeep_noop : ∀ l x act, x ∉ nodeIdsL l → surgDeep x act l = l
  | [] => by intro x act h; rfl
  | n :: ns => by
    intro x act h
    simp only [nodeIdsL, List.mem_append, not_or] at h
    simp only [surgDeep]
    rw [if_neg, surgT_noop n x act h.1, surgDeep_noop ns x act h.2]
    intro hc
    exact h.1 (hc ▸ idOf_mem_nodeIds n)
end

/-- When the target is a top-level entry of a forest with distinct
identities, deep surgery coincides with top-level surgery. -/
theorem surgDeep_eq_surgL (l : List DNode) (x : Nat)
    (act : DNode → List DNode → List DNode) (hnd : (nodeIdsL l).Nodup)
    (hx : x ∈ l.map DNode.idOf) : surgDeep x act l = surgL x act l := by
  induction l with
  | nil => rfl
  | cons n ns ih =>
    simp only [nodeIdsL] at hnd
    simp only [List.map_cons, List.mem_cons] at hx
    simp only [surgDeep, surgL]
    by_cases h0 : n.idOf = x
    · rw [if_pos h0, if_pos h0]
    · rw [if_neg h0, if_neg h0]
      have hx2 : x ∈ ns.map DNode.idOf := by
        rcases hx with hx | hx
        · exact absurd hx.symm h0
        · exact hx
      have hxn : x ∉ nodeIds n := fun hc =>
        (List.disjoint_of_nodup_append hnd) hc (mem_idsL_of_map ns x hx2)
      rw [surgT_noop n x act hxn, ih hnd.of_append_right hx2]

mutual
/-- Localization: a by-identity surgery on a tree with distinct identities
acts exactly on the children list of the target's parent. -/
theorem surg_localize : ∀ t pid nm cl cs x act, (nodeIds t).Nodup →
    getById t pid = some (.elem pid nm cl cs) → x ∈ cs.map DNode.idOf →
    surgT x act t = childUpdate pid (surgL x act) t
  | .text j d => by
    intro pid nm cl cs x act hnd h hx
    simp only [getById] at h
    split at h
    · cases h
    · cases h
  | .elem j nm2 c2 cs2 => by
    intro pid nm cl cs x act hnd h hx
    simp only [getById] at h
    simp only [nodeIds] at hnd
    split at h
    next hj =>
      simp only [DNode.idOf] at hj
      cases h
      simp only [surgT, childUpdate, if_pos hj]
      rw [surgDeep_eq_surgL cs2 x act hnd.of_cons hx]
      simp
    next hj =>
      simp only [DNode.idOf] at hj
      simp only [surgT, childUpdate, if_neg hj]
      rw [surg_localizeL cs2 pid nm cl cs x act hnd.of_cons h hx]
/-- Localization of by-identity surgery in a forest. -/
theorem surg_localizeL : ∀ l pid nm cl cs x act, (nodeIdsL l).Nodup →
    getByIdL l pid = some (.elem pid nm cl cs) → x ∈ cs.map DNode.idOf →
    surgDeep x act l = childUpdateL pid (surgL x act) l
  | [] => by intro pid nm cl cs x act hnd h hx; cases h
  | n :: ns => by
    intro pid nm cl cs x act hnd h hx
    simp only [getByIdL] at h
    simp only [nodeIdsL] at hnd
    simp only [surgDeep, childUpdateL]
    cases hgp : getById n pid with
    | some r =>
      simp only [hgp] at h
      cases h
      have hxcs : x ∈ nodeIdsL cs := mem_idsL_of_map cs x hx
      have hxn : x ∈ nodeIds n := getById_sub n pid _ hgp x
        (by simp only [nodeIds, List.mem_cons]; exact Or.inr hxcs)
      have hne : ¬ n.idOf = x := fun hc =>
        (strict_inside n pid nm cl cs x hnd.of_append_left hgp hxcs) hc.symm
      rw [if_neg hne]
      have hpidn : pid ∈ nodeIds n := getById_mem n pid _ hgp
      have hpidns : pid ∉ nodeIdsL ns := fun hc =>
        (List.disjoint_of_nodup_append hnd) hpidn hc
      have hxns : x ∉ nodeIdsL ns := fun hc =>
        (List.disjoint_of_nodup_append hnd) hxn hc
      rw [surg_localize n pid nm cl cs x act hnd.of_append_left hgp hx,
        surgDeep_noop ns x act hxns, childUpdate_noopL ns pid _ hpidns]
    | none =>
      simp only [hgp] at h
      have hpidns : pid ∈ nodeIdsL ns := getById_memL ns pid _ h
      have hpidn : pid ∉ nodeIds n := not_mem_of_getById_none n pid hgp
      have hxns : x ∈ nodeIdsL ns := getById_subL ns pid _ h x
        (by simp only [nodeIds, List.mem_cons]
            exact Or.inr (mem_idsL_of_map cs x hx))
      have hxn : x ∉ nodeIds n := fun hc =>
        (List.disjoint_of_nodup_append hnd) hc hxns
      have hne : ¬ n.idOf = x := fun hc => hxn (hc ▸ idOf_mem_nodeIds n)
      rw [if_neg hne, surgT_noop n x act hxn, childUpdate_noop n pid _ hpidn,
        surg_localizeL ns pid nm cl cs x act hnd.of_append_right h hx]
end


mutual
/-- Two children rewrites agreeing on the found element's children produce
the same tree. -/
theorem childUpdate_congrT : ∀ t pid nm cl cs f g, (nodeIds t).Nodup →
    getById t pid = some (.elem pid nm cl cs) → f cs = g cs →
    childUpdate pid f t = childUpdate pid g t
  | .text j d => by
    intro pid nm cl cs f g hnd h hfg
    simp only [getById] at h
    split at h
    · cases h
    · cases h
  | .elem j nm2 c2 cs2 => by
    intro pid nm cl cs f g hnd h hfg
    simp only [getById] at h
    simp only [nodeIds] at hnd
    split at h
    next hj =>
      simp only [DNode.idOf] at hj
      cases h
      simp only [childUpdate, if_pos hj, hfg]
      simp
    next hj =>
      simp only [DNode.idOf] at hj
      simp only [childUpdate, if_neg hj]
      rw [childUpdate_congrL cs2 pid nm cl cs f g hnd.of_cons h hfg]
/-- Forest version of `childUpdate_congrT`. -/
theorem childUpdate_congrL : ∀ l pid nm cl cs f g, (nodeIdsL l).Nodup →
    getByIdL l pid = some (.elem pid nm cl cs) → f cs = g cs →
    childUpdateL pid f l = childUpdateL pid g l
  | [] => by intro pid nm cl cs f g hnd h hfg; cases h
  | n :: ns => by
    intro pid nm cl cs f g hnd h hfg
    simp only [getByIdL] at h
    simp only [nodeIdsL] at hnd
    simp only [childUpdateL]
    cases hgp : getById n pid with
    | some r =>
      simp only [hgp] at h
      cases h
      have hpidn : pid ∈ nodeIds n := getById_mem n pid _ hgp
      have hpidns : pid ∉ nodeIdsL ns := fun hc =>
        (List.disjoint_of_nodup_append hnd) hpidn hc
      rw [childUpdate_congrT n pid nm cl cs f g hnd.of_append_left hgp hfg,
        childUpdate_noopL ns pid f hpidns, childUpdate_noopL ns pid g hpidns]
    | none =>
      simp only [hgp] at h
      have hpidn : pid ∉ nodeIds n := not_mem_of_getById_none n pid hgp
      rw [childUpdate_noop n pid f hpidn, childUpdate_noop n pid g hpidn,
        childUpdate_congrL ns pid nm cl cs f g hnd.of_append_right h hfg]
end


mutual
/-- `insertBefore` is the generic surgery with a two-entry action. -/
theorem insertBeforeId_surg : ∀ t ref nw,
    insertBeforeId t ref nw = surgT ref (fun n ns => nw :: n :: ns) t
  | .text j d => by intro ref nw; rfl
  | .elem j nm c cs => by
    intro ref nw
    simp only [insertBeforeId, surgT]
    rw [insertBeforeId_surgL cs ref nw]
/-- `insertBefore` is the generic surgery (forests). -/
theorem insertBeforeId_surgL : ∀ l ref nw,
    insertBeforeIdL l ref nw = surgDeep ref (fun n ns => nw :: n :: ns) l
  | [] => by intro ref nw; rfl
  | n :: ns => by
    intro ref nw
    simp only [insertBeforeIdL, surgDeep]
    by_cases h0 : n.idOf = ref
    · rw [if_pos h0, if_pos h0]
    · rw [if_neg h0, if_neg h0, insertBeforeId_surg n ref nw,
        insertBeforeId_surgL ns ref nw]
end

mutual
/-- `removeChild` is the generic surgery with a dropping action. -/
theorem removeId_surg : ∀ t x, removeId t x = surgT x (fun _ ns => ns) t
  | .text j d => by intro x; rfl
  | .elem j nm c cs => by
    intro x
    simp only [removeId, surgT]
    rw [removeId_surgL cs x]
/-- `removeChild` is the generic surgery (forests). -/
theorem removeId_surgL : ∀ l x, removeIdL l x = surgDeep x (fun _ ns => ns) l
  | [] => by intro x; rfl
  | n :: ns => by
    intro x
    simp only [removeIdL, surgDeep]
    by_cases h0 : n.idOf = x
    · rw [if_pos h0, if_pos h0]
    · rw [if_neg h0, if_neg h0, removeId_surg n x, removeId_surgL ns x]
end

mutual
/-- `replaceChild` is the generic surgery with a substituting action. -/
theorem replaceId_surg : ∀ t x nw, replaceId t x nw = surgT x (fun _ ns => nw :: ns) t
  | .text j d => by intro x nw; rfl
  | .elem j nm c cs => by
    intro x nw
    simp only [replaceId, surgT]
    rw [replaceId_surgL cs x nw]
/-- `replaceChild` is the generic surgery (forests). -/
theorem replaceId_surgL : ∀ l x nw, replaceIdL l x nw = surgDeep x (fun _ ns => nw :: ns) l
  | [] => by intro x nw; rfl
  | n :: ns => by
    intro x nw
    simp only [replaceIdL, surgDeep]
    by_cases h0 : n.idOf = x
    · rw [if_pos h0, if_pos h0]
    · rw [if_neg h0, if_neg h0, replaceId_surg n x nw, replaceId_surgL ns x nw]
end

/-- `insL` is the top-level generic surgery with the insertion action. -/
theorem insL_surgL (x : Nat) (nw : DNode) (l : List DNode) :
    surgL x (fun n ns => nw :: n :: ns) l = insL x nw l := by
  induction l with
  | nil => rfl
  | cons n ns ih =>
    simp only [surgL, insL]
    by_cases h0 : n.idOf = x
    · rw [if_pos h0, if_pos h0]
    · rw [if_neg h0, if_neg h0, ih]

/-- `remL` is the top-level generic surgery with the dropping action. -/
theorem remL_surgL (x : Nat) (l : List DNode) :
    surgL x (fun _ ns => ns) l = remL x l := by
  induction l with
  | nil => rfl
  | cons n ns ih =>
    simp only [surgL, remL]
    by_cases h0 : n.idOf = x
    · rw [if_pos h0, if_pos h0]
    · rw [if_neg h0, if_neg h0, ih]

/-- `repL` is the top-level generic surgery with the substituting action. -/
theorem repL_surgL (x : Nat) (nw : DNode) (l : List DNode) :
    surgL x (fun _ ns => nw :: ns) l = repL x nw l := by
  induction l with
  | nil => rfl
  | cons n ns ih =>
    simp only [surgL, repL]
    by_cases h0 : n.idOf = x
    · rw [if_pos h0, if_pos h0]
    · rw [if_neg h0, if_neg h0, ih]

/-- A children-rewrite congruence: two rewrites agreeing on the element's
actual children produce the same tree. -/
theorem childUpdate_congr (t : DNode) (pid : Nat) (nm cl : Str)
    (cs : List DNode) (f g : List DNode → List DNode)
    (hnd : (nodeIds t).Nodup)
    (h : getById t pid = some (.elem pid nm cl cs)) (hfg : f cs = g cs) :
    childUpdate pid f t = childUpdate pid g t :=
  childUpdate_congrT t pid nm cl cs f g hnd h hfg

/-- `insertBefore` rewrites the parent's children list by `insL`. -/
theorem insertBeforeId_localize (t : DNode) (pid : Nat) (nm cl : Str)
    (cs : List DNode) (x : Nat) (nw : DNode) (hnd : (nodeIds t).Nodup)
    (h : getById t pid = some (.elem pid nm cl cs))
    (hx : x ∈ cs.map DNode.idOf) :
    insertBeforeId t x nw = childUpdate pid (insL x nw) t := by
  rw [insertBeforeId_surg, surg_localize t pid nm cl cs x _ hnd h hx]
  exact childUpdate_congr t pid nm cl cs _ _ hnd h (insL_surgL x nw cs)

/-- `removeChild` rewrites the parent's children list by `remL`. -/
theorem removeId_localize (t : DNode) (pid : Nat) (nm cl : Str)
    (cs : List DNode) (x : Nat) (hnd : (nodeIds t).Nodup)
    (h : getById t pid = some (.elem pid nm cl cs))
    (hx : x ∈ cs.map DNode.idOf) :
    removeId t x = childUpdate pid (remL x) t := by
  rw [removeId_surg, surg_localize t pid nm cl cs x _ hnd h hx]
  exact childUpdate_congr t pid nm cl cs _ _ hnd h (remL_surgL x cs)

/-- `replaceChild` rewrites the parent's children list by `repL`. -/
theorem replaceId_localize (t : DNode) (pid : Nat) (nm cl : Str)
    (cs : List DNode) (x : Nat) (nw : DNode) (hnd : (nodeIds t).Nodup)
    (h : getById t pid = some (.elem pid nm cl cs))
    (hx : x ∈ cs.map DNode.idOf) :
    replaceId t x nw = childUpdate pid (repL x nw) t := by
  rw [replaceId_surg, surg_localize t pid nm cl cs x _ hnd h hx]
  exact childUpdate_congr t pid nm cl cs _ _ hnd h (repL_surgL x nw cs)


/-- `insertBefore` as a prepending surgery. -/
theorem insertBeforeId_prep (t : DNode) (x : Nat) (nw : DNode) :
    insertBeforeId t x nw = surgT x (prependAct (fun n => [nw, n])) t :=
  insertBeforeId_surg t x nw

/-- `removeChild` as a prepending surgery. -/
theorem removeId_prep (t : DNode) (x : Nat) :
    removeId t x = surgT x (prependAct (fun _ => [])) t :=
  removeId_surg t x

/-- Updating a recorded key leaves its lookup updated. -/
theorem lookupSeg_upd_self (σ : List (Nat × List DNode)) (z : Nat)
    (f : List DNode → List DNode) (s : List DNode)
    (h : lookupSeg σ z = some s) :
    lookupSeg (segUpd σ z f) z = some (f s) := by
  induction σ with
  | nil => cases h
  | cons e es ih =>
    simp only [lookupSeg, segUpd] at h ⊢
    by_cases h0 : e.1 = z
    · rw [if_pos h0] at h
      cases h
      simp [lookupSeg, h0]
    · rw [if_neg h0] at h
      rw [if_neg h0]
      simp only [lookupSeg, if_neg h0]
      exact ih h

/-- Updating one key leaves other lookups unchanged. -/
theorem lookupSeg_upd_other (σ : List (Nat × List DNode)) (z k : Nat)
    (f : List DNode → List DNode) (hk : k ≠ z) :
    lookupSeg (segUpd σ z f) k = lookupSeg σ k := by
  induction σ with
  | nil => rfl
  | cons e es ih =>
    simp only [lookupSeg, segUpd]
    by_cases h0 : e.1 = z
    · rw [if_pos h0]
      simp only [lookupSeg]
      rw [if_neg (by rw [h0]; exact fun hh => hk hh.symm), if_neg (h0 ▸ fun hh => hk hh.symm)]
    · rw [if_neg h0]
      simp only [lookupSeg]
      by_cases h1 : e.1 = k
      · rw [if_pos h1, if_pos h1]
      · rw [if_neg h1, if_neg h1]
        exact ih

/-- A lookup of an unrecorded key fails. -/
theorem lookupSeg_none (σ : List (Nat × List DNode)) (z : Nat)
    (h : z ∉ σ.map Prod.fst) : lookupSeg σ z = none := by
  induction σ with
  | nil => rfl
  | cons e es ih =>
    simp only [List.map_cons, List.mem_cons, not_or] at h
    simp only [lookupSeg]
    rw [if_neg (fun hh => h.1 hh.symm)]
    exact ih h.2

/-- A successful lookup names a recorded key. -/
theorem lookupSeg_mem (σ : List (Nat × List DNode)) (z : Nat) (s : List DNode)
    (h : lookupSeg σ z = some s) : (z, s) ∈ σ ∧ z ∈ σ.map Prod.fst := by
  induction σ with
  | nil => cases h
  | cons e es ih =>
    simp only [lookupSeg] at h
    by_cases h0 : e.1 = z
    · rw [if_pos h0] at h
      cases h
      refine ⟨?_, ?_⟩
      · cases e with
        | mk k v =>
          simp only at h0
          subst h0
          exact List.mem_cons_self _ _
      · simp [h0.symm]
    · rw [if_neg h0] at h
      obtain ⟨h1, h2⟩ := ih h
      exact ⟨List.mem_cons_of_mem _ h1, by simp [h2]⟩

/-- Lookup over an appended table. -/
theorem lookupSeg_append (a b : List (Nat × List DNode)) (z : Nat) :
    lookupSeg (a ++ b) z =
      match lookupSeg a z with
      | some s => some s
      | none => lookupSeg b z := by
  induction a with
  | nil => rfl
  | cons e es ih =>
    simp only [List.cons_append, lookupSeg]
    by_cases h0 : e.1 = z
    · rw [if_pos h0, if_pos h0]
    · rw [if_neg h0, if_neg h0]
      exact ih

/-- A failing segment lookup characterises an unrecorded key. -/
theorem lookupSeg_none_iff (σ : List (Nat × List DNode)) (z : Nat) :
    lookupSeg σ z = none ↔ z ∉ σ.map Prod.fst := by
  constructor
  · intro h hc
    induction σ with
    | nil => cases hc
    | cons e es ih =>
      simp only [lookupSeg] at h
      simp only [List.map_cons, List.mem_cons] at hc
      by_cases h0 : e.1 = z
      · rw [if_pos h0] at h; cases h
      · rw [if_neg h0] at h
        rcases hc with hc | hc
        · exact h0 hc.symm
        · exact ih h hc
  · exact lookupSeg_none σ z

/-- Segments of distinct entries are disjoint (either order). -/
theorem seg_disj (σ : List (Nat × List DNode)) (e f : Nat × List DNode)
    (hp : List.Pairwise (fun a b => ∀ i, i ∈ nodeIdsL a.2 → i ∉ nodeIdsL b.2) σ)
    (hnd : (σ.map Prod.fst).Nodup)
    (he : e ∈ σ) (hf : f ∈ σ) (hne : e.1 ≠ f.1) (i : Nat)
    (hie : i ∈ nodeIdsL e.2) (hif : i ∈ nodeIdsL f.2) : False := by
  induction σ with
  | nil => cases he
  | cons a as ih =>
    simp only [List.pairwise_cons] at hp
    simp only [List.map_cons, List.nodup_cons] at hnd
    rcases List.mem_cons.mp he with he1 | he1 <;>
      rcases List.mem_cons.mp hf with hf1 | hf1
    · rw [he1] at hne; rw [hf1] at hne; exact hne rfl
    · subst he1
      exact hp.1 f hf1 i hie hif
    · subst hf1
      exact hp.1 e he1 i hif hie
    · exact ih hp.2 hnd.2 he1 hf1

/-- A lookup inside a member of a duplicate-free forest lifts to the
forest. -/
theorem liftLookupL (l : List DNode) (hnd : (nodeIdsL l).Nodup) (c : DNode)
    (hc : c ∈ l) (k : Nat) (n : DNode) (h : getById c k = some n) :
    getByIdL l k = some n := by
  induction l with
  | nil => cases hc
  | cons a as ih =>
    simp only [nodeIdsL] at hnd
    simp only [getByIdL]
    rcases List.mem_cons.mp hc with hc1 | hc1
    · subst hc1
      rw [h]
    · have hk : k ∈ nodeIds c := getById_mem c k n h
      have hkas : k ∈ nodeIdsL as := ids_of_mem as c hc1 k hk
      have hka : k ∉ nodeIds a := fun hc2 =>
        (List.disjoint_of_nodup_append hnd) hc2 hkas
      rw [getById_none a k hka]
      exact ih hnd.of_append_right hc1

/-- A lookup inside a child lifts to the node. -/
theorem liftLookup (j : Nat) (nm cl : Str) (cs : List DNode)
    (hnd : (nodeIds (DNode.elem j nm cl cs)).Nodup) (c : DNode) (hc : c ∈ cs)
    (k : Nat) (n : DNode) (h : getById c k = some n) :
    getById (DNode.elem j nm cl cs) k = some n := by
  simp only [nodeIds] at hnd
  have hk : k ∈ nodeIds c := getById_mem c k n h
  have hkcs : k ∈ nodeIdsL cs := ids_of_mem cs c hc k hk
  have hjk : j ≠ k := by
    intro hh
    exact (List.nodup_cons.mp hnd).1 (hh ▸ hkcs)
  simp only [getById, DNode.idOf]
  rw [if_neg hjk]
  exact liftLookupL cs hnd.of_cons c hc k n h

/-- Looking up a node by its own identity returns the node. -/
theorem getById_self (t : DNode) : getById t t.idOf = some t := by
  cases t <;> simp [getById]

mutual
/-- Identities of a substituted tree come from the tree (avoiding present
keys) or from a present segment. -/
theorem substUp : ∀ t σ i, (nodeIds t).Nodup → (∀ e ∈ σ, e.1 ≠ t.idOf) →
    i ∈ nodeIds (subst σ t) →
    (i ∈ nodeIds t ∧ ∀ e ∈ σ, e.1 ∈ nodeIds t → i ≠ e.1) ∨
    (∃ e, e ∈ σ ∧ e.1 ∈ nodeIds t ∧ i ∈ nodeIdsL e.2)
  | .text j d => by
    intro σ i hnd hroot h
    have h2 : i ∈ nodeIds (DNode.text j d) := h
    refine Or.inl ⟨h2, fun e he h1 => fun _ => ?_⟩
    simp only [nodeIds, List.mem_singleton] at h1
    exact hroot e he h1
  | .elem j nm c cs => by
    intro σ i hnd hroot h
    have h2 : i ∈ nodeIds (DNode.elem j nm c (substL σ cs)) := h
    simp only [nodeIds, List.mem_cons] at h2
    simp only [nodeIds] at hnd
    rcases h2 with h2 | h2
    · refine Or.inl ⟨?_, fun e he h1 => fun hie => ?_⟩
      · simp only [nodeIds, List.mem_cons]
        exact Or.inl h2
      · simp only [nodeIds, List.mem_cons] at h1
        rcases h1 with h1 | h1
        · exact hroot e he h1
        · rw [← hie, h2] at h1
          exact (List.nodup_cons.mp hnd).1 h1
    · rcases substUpL cs σ i hnd.of_cons h2 with ⟨hi, hcond⟩ | ⟨e, he, h1x, h2x⟩
      · refine Or.inl ⟨?_, fun e he h1 => ?_⟩
        · simp only [nodeIds, List.mem_cons]
          exact Or.inr hi
        · simp only [nodeIds, List.mem_cons] at h1
          rcases h1 with h1 | h1
          · exact fun _ => hroot e he h1
          · exact hcond e he h1
      · refine Or.inr ⟨e, he, ?_, h2x⟩
        simp only [nodeIds, List.mem_cons]
        exact Or.inr h1x
/-- Forest version of `substUp`. -/
theorem substUpL : ∀ l σ i, (nodeIdsL l).Nodup →
    i ∈ nodeIdsL (substL σ l) →
    (i ∈ nodeIdsL l ∧ ∀ e ∈ σ, e.1 ∈ nodeIdsL l → i ≠ e.1) ∨
    (∃ e, e ∈ σ ∧ e.1 ∈ nodeIdsL l ∧ i ∈ nodeIdsL e.2)
  | [] => by
    intro σ i hnd h
    have h2 : i ∈ nodeIdsL ([] : List DNode) := h
    cases h2
  | c :: cs => by
    intro σ i hnd h
    simp only [substL] at h
    rw [nodeIdsL_append, List.mem_append] at h
    simp only [nodeIdsL] at hnd
    have hdisj := List.disjoint_of_nodup_append hnd
    cases hlk : lookupSeg σ c.idOf with
    | some l =>
      simp only [hlk] at h
      rcases h with h | h
      · refine Or.inr ⟨(c.idOf, l), (lookupSeg_mem σ c.idOf l hlk).1, ?_, h⟩
        simp only [nodeIdsL, List.mem_append]
        exact Or.inl (idOf_mem_nodeIds c)
      · rcases substUpL cs σ i hnd.of_append_right h with
          ⟨hi, hcond⟩ | ⟨e, he, h1x, h2x⟩
        · refine Or.inl ⟨?_, fun e he h1 => ?_⟩
          · simp only [nodeIdsL, List.mem_append]
            exact Or.inr hi
          · simp only [nodeIdsL, List.mem_append] at h1
            rcases h1 with h1 | h1
            · exact fun hie => hdisj h1 (hie ▸ hi)
            · exact hcond e he h1
        · refine Or.inr ⟨e, he, ?_, h2x⟩
          simp only [nodeIdsL, List.mem_append]
          exact Or.inr h1x
    | none =>
      simp only [hlk, nodeIdsL, List.append_nil] at h
      rcases h with h | h
      · have hrootc : ∀ e ∈ σ, e.1 ≠ c.idOf := by
          intro e he hc
          refine (lookupSeg_none_iff σ c.idOf).mp hlk ?_
          exact hc ▸ List.mem_map.mpr ⟨e, he, rfl⟩
        rcases substUp c σ i hnd.of_append_left hrootc h with
          ⟨hi, hcond⟩ | ⟨e, he, h1x, h2x⟩
        · refine Or.inl ⟨?_, fun e he h1 => ?_⟩
          · simp only [nodeIdsL, List.mem_append]
            exact Or.inl hi
          · simp only [nodeIdsL, List.mem_append] at h1
            rcases h1 with h1 | h1
            · exact hcond e he h1
            · exact fun hie => hdisj (hie ▸ hi) h1
        · refine Or.inr ⟨e, he, ?_, h2x⟩
          simp only [nodeIdsL, List.mem_append]
          exact Or.inl h1x
      · rcases substUpL cs σ i hnd.of_append_right h with
          ⟨hi, hcond⟩ | ⟨e, he, h1x, h2x⟩
        · refine Or.inl ⟨?_, fun e he h1 => ?_⟩
          · simp only [nodeIdsL, List.mem_append]
            exact Or.inr hi
          · simp only [nodeIdsL, List.mem_append] at h1
            rcases h1 with h1 | h1
            · exact fun hie => hdisj h1 (hie ▸ hi)
            · exact hcond e he h1
        · refine Or.inr ⟨e, he, ?_, h2x⟩
          simp only [nodeIdsL, List.mem_append]
          exact Or.inr h1x
end

mutual
/-- An identity avoiding all present keys survives substitution. -/
theorem substDown1 : ∀ t σ i, (nodeIds t).Nodup →
    (∀ e ∈ σ, ∀ n, getById t e.1 = some n → ∃ d, n = DNode.text e.1 d) →
    i ∈ nodeIds t → (∀ e ∈ σ, e.1 ∈ nodeIds t → i ≠ e.1) →
    i ∈ nodeIds (subst σ t)
  | .text j d => by
    intro σ i hnd htxt hi hcond
    exact hi
  | .elem j nm c cs => by
    intro σ i hnd htxt hi hcond
    show i ∈ nodeIds (DNode.elem j nm c (substL σ cs))
    simp only [nodeIds, List.mem_cons] at hi ⊢
    simp only [nodeIds] at hnd
    rcases hi with hi | hi
    · exact Or.inl hi
    · refine Or.inr (substDown1L cs σ i hnd.of_cons ?_ hi ?_)
      · intro e he n hn
        refine htxt e he n ?_
        have hmem : e.1 ∈ nodeIdsL cs := getById_memL cs e.1 n hn
        have hj : j ≠ e.1 := by
          intro hh
          exact (List.nodup_cons.mp hnd).1 (hh ▸ hmem)
        simp only [getById, DNode.idOf]
        rw [if_neg hj]
        exact hn
      · intro e he h1
        refine hcond e he ?_
        simp only [nodeIds, List.mem_cons]
        exact Or.inr h1
/-- Forest version of `substDown1`. -/
theorem substDown1L : ∀ l σ i, (nodeIdsL l).Nodup →
    (∀ e ∈ σ, ∀ n, getByIdL l e.1 = some n → ∃ d, n = DNode.text e.1 d) →
    i ∈ nodeIdsL l → (∀ e ∈ σ, e.1 ∈ nodeIdsL l → i ≠ e.1) →
    i ∈ nodeIdsL (substL σ l)
  | [] => by intro σ i hnd htxt hi hcond; cases hi
  | c :: cs => by
    intro σ i hnd htxt hi hcond
    simp only [substL]
    rw [nodeIdsL_append, List.mem_append]
    simp only [nodeIdsL] at hnd
    have hdisj := List.disjoint_of_nodup_append hnd
    have hmemc : ∀ x, x ∈ nodeIds c → x ∈ nodeIdsL (c :: cs) := fun x hx => by
      simp only [nodeIdsL, List.mem_append]
      exact Or.inl hx
    have hmems : ∀ x, x ∈ nodeIdsL cs → x ∈ nodeIdsL (c :: cs) := fun x hx => by
      simp only [nodeIdsL, List.mem_append]
      exact Or.inr hx
    have hsplit : i ∈ nodeIds c ∨ i ∈ nodeIdsL cs := by
      simp only [nodeIdsL, List.mem_append] at hi
      exact hi
    rcases hsplit with hi2 | hi2
    · cases hlk : lookupSeg σ c.idOf with
      | some l0 =>
        exfalso
        have hent := (lookupSeg_mem σ c.idOf l0 hlk).1
        have hcc : getByIdL (c :: cs) c.idOf = some c := by
          simp only [getByIdL, getById_self c]
        obtain ⟨d, hd⟩ := htxt (c.idOf, l0) hent c hcc
        rw [hd] at hi2
        simp only [nodeIds, List.mem_singleton] at hi2
        refine hcond (c.idOf, l0) hent (hmemc _ (idOf_mem_nodeIds c)) ?_
        rw [hd] at hi2 ⊢
        exact hi2
      | none =>
        refine Or.inl ?_
        simp only [nodeIdsL, List.append_nil]
        refine substDown1 c σ i hnd.of_append_left ?_ hi2 ?_
        · intro e he n hn
          exact htxt e he n (liftLookupL (c :: cs) hnd c (List.mem_cons_self c cs) e.1 n hn)
        · intro e he h1
          exact hcond e he (hmemc _ h1)
    · refine Or.inr (substDown1L cs σ i hnd.of_append_right ?_ hi2 ?_)
      · intro e he n hn
        have hmem : e.1 ∈ nodeIdsL cs := getById_memL cs e.1 n hn
        have hnc : e.1 ∉ nodeIds c := fun hc2 => hdisj hc2 hmem
        refine htxt e he n ?_
        simp only [getByIdL, getById_none c e.1 hnc]
        exact hn
      · intro e he h1
        exact hcond e he (hmems _ h1)
end

mutual
/-- An identity of a present key's segment occurs in the substituted
tree. -/
theorem substDown2 : ∀ t σ z seg i, (nodeIds t).Nodup →
    (∀ e ∈ σ, ∀ n, getById t e.1 = some n → ∃ d, n = DNode.text e.1 d) →
    lookupSeg σ z = some seg → z ∈ nodeIds t → z ≠ t.idOf →
    i ∈ nodeIdsL seg → i ∈ nodeIds (subst σ t)
  | .text j d => by
    intro σ z seg i hnd htxt hlk hz hzr hi
    simp only [nodeIds, List.mem_singleton] at hz
    exact absurd hz hzr
  | .elem j nm c cs => by
    intro σ z seg i hnd htxt hlk hz hzr hi
    show i ∈ nodeIds (DNode.elem j nm c (substL σ cs))
    simp only [nodeIds, List.mem_cons] at hz ⊢
    simp only [nodeIds] at hnd
    rcases hz with hz | hz
    · exact absurd hz hzr
    · refine Or.inr (substDown2L cs σ z seg i hnd.of_cons ?_ hlk hz hi)
      intro e he n hn
      refine htxt e he n ?_
      have hmem : e.1 ∈ nodeIdsL cs := getById_memL cs e.1 n hn
      have hj : j ≠ e.1 := by
        intro hh
        exact (List.nodup_cons.mp hnd).1 (hh ▸ hmem)
      simp only [getById, DNode.idOf]
      rw [if_neg hj]
      exact hn
/-- Forest version of `substDown2`. -/
theorem substDown2L : ∀ l σ z seg i, (nodeIdsL l).Nodup →
    (∀ e ∈ σ, ∀ n, getByIdL l e.1 = some n → ∃ d, n = DNode.text e.1 d) →
    lookupSeg σ z = some seg → z ∈ nodeIdsL l →
    i ∈ nodeIdsL seg → i ∈ nodeIdsL (substL σ l)
  | [] => by intro σ z seg i hnd htxt hlk hz hi; cases hz
  | c :: cs => by
    intro σ z seg i hnd htxt hlk hz hi
    simp only [substL]
    rw [nodeIdsL_append, List.mem_append]
    simp only [nodeIdsL] at hnd
    have hdisj := List.disjoint_of_nodup_append hnd
    have hsplit : z ∈ nodeIds c ∨ z ∈ nodeIdsL cs := by
      simp only [nodeIdsL, List.mem_append] at hz
      exact hz
    rcases hsplit with hz2 | hz2
    · by_cases hcz : c.idOf = z
      · refine Or.inl ?_
        rw [hcz, hlk]
        exact hi
      · cases hlk2 : lookupSeg σ c.idOf with
        | some l0 =>
          exfalso
          have hent := (lookupSeg_mem σ c.idOf l0 hlk2).1
          have hcc : getByIdL (c :: cs) c.idOf = some c := by
            simp only [getByIdL, getById_self c]
          obtain ⟨d, hd⟩ := htxt (c.idOf, l0) hent c hcc
          rw [hd] at hz2
          simp only [nodeIds, List.mem_singleton] at hz2
          exact hcz hz2.symm
        | none =>
          refine Or.inl ?_
          simp only [nodeIdsL, List.append_nil]
          refine substDown2 c σ z seg i hnd.of_append_left ?_ hlk hz2
            (fun hh => hcz hh.symm) hi
          intro e he n hn
          exact htxt e he n (liftLookupL (c :: cs) hnd c (List.mem_cons_self c cs) e.1 n hn)
    · refine Or.inr (substDown2L cs σ z seg i hnd.of_append_right ?_ hlk hz2 hi)
      intro e he n hn
      have hmem : e.1 ∈ nodeIdsL cs := getById_memL cs e.1 n hn
      have hnc : e.1 ∉ nodeIds c := fun hc2 => hdisj hc2 hmem
      refine htxt e he n ?_
      simp only [getByIdL, getById_none c e.1 hnc]
      exact hn
end

mutual
/-- Substitution preserves duplicate-freeness of identities when segments
are clean: internally duplicate-free, pairwise disjoint, and containing only
fresh identities or the substituted key itself. -/
theorem substNodup : ∀ t σ, (nodeIds t).Nodup → (∀ e ∈ σ, e.1 ≠ t.idOf) →
    (∀ e ∈ σ, ∀ n, getById t e.1 = some n → ∃ d, n = DNode.text e.1 d) →
    (σ.map Prod.fst).Nodup →
    (∀ e ∈ σ, (nodeIdsL e.2).Nodup) →
    (∀ e ∈ σ, ∀ i, i ∈ nodeIdsL e.2 → i ∉ nodeIds t ∨ i = e.1) →
    List.Pairwise (fun a b => ∀ i, i ∈ nodeIdsL a.2 → i ∉ nodeIdsL b.2) σ →
    (nodeIds (subst σ t)).Nodup
  | .text j d => by
    intro σ hnd hroot htxt hk hs hf hp
    exact hnd
  | .elem j nm c cs => by
    intro σ hnd hroot htxt hk hs hf hp
    show (nodeIds (DNode.elem j nm c (substL σ cs))).Nodup
    simp only [nodeIds] at hnd ⊢
    rw [List.nodup_cons] at hnd ⊢
    have htxt2 : ∀ e ∈ σ, ∀ n, getByIdL cs e.1 = some n →
        ∃ d, n = DNode.text e.1 d := by
      intro e he n hn
      refine htxt e he n ?_
      have hmem : e.1 ∈ nodeIdsL cs := getById_memL cs e.1 n hn
      have hj : j ≠ e.1 := fun hh => hnd.1 (hh ▸ hmem)
      simp only [getById, DNode.idOf]
      rw [if_neg hj]
      exact hn
    have hf2 : ∀ e ∈ σ, ∀ i, i ∈ nodeIdsL e.2 → i ∉ nodeIdsL cs ∨ i = e.1 := by
      intro e he i hi
      rcases hf e he i hi with h | h
      · refine Or.inl fun hc => h ?_
        simp only [nodeIds, List.mem_cons]
        exact Or.inr hc
      · exact Or.inr h
    refine ⟨?_, substNodupL cs σ hnd.2 htxt2 hk hs hf2 hp⟩
    intro hc
    rcases substUpL cs σ j hnd.2 hc with ⟨hi, _⟩ | ⟨e, he, h1, h2⟩
    · exact hnd.1 hi
    · rcases hf e he j h2 with h | h
      · refine h ?_
        simp [nodeIds]
      · exact hroot e he h.symm
/-- Forest version of `substNodup`. -/
theorem substNodupL : ∀ l σ, (nodeIdsL l).Nodup →
    (∀ e ∈ σ, ∀ n, getByIdL l e.1 = some n → ∃ d, n = DNode.text e.1 d) →
    (σ.map Prod.fst).Nodup →
    (∀ e ∈ σ, (nodeIdsL e.2).Nodup) →
    (∀ e ∈ σ, ∀ i, i ∈ nodeIdsL e.2 → i ∉ nodeIdsL l ∨ i = e.1) →
    List.Pairwise (fun a b => ∀ i, i ∈ nodeIdsL a.2 → i ∉ nodeIdsL b.2) σ →
    (nodeIdsL (substL σ l)).Nodup
  | [] => by intro σ hnd htxt hk hs hf hp; exact hnd
  | c :: cs => by
    intro σ hnd htxt hk hs hf hp
    simp only [substL]
    rw [nodeIdsL_append, List.nodup_append]
    simp only [nodeIdsL] at hnd
    have hdisj := List.disjoint_of_nodup_append hnd
    have hmemc : ∀ x, x ∈ nodeIds c → x ∈ nodeIdsL (c :: cs) := fun x hx => by
      simp only [nodeIdsL, List.mem_append]
      exact Or.inl hx
    have hmems : ∀ x, x ∈ nodeIdsL cs → x ∈ nodeIdsL (c :: cs) := fun x hx => by
      simp only [nodeIdsL, List.mem_append]
      exact Or.inr hx
    have htxt2 : ∀ e ∈ σ, ∀ n, getByIdL cs e.1 = some n →
        ∃ d, n = DNode.text e.1 d := by
      intro e he n hn
      have hmem : e.1 ∈ nodeIdsL cs := getById_memL cs e.1 n hn
      have hnc : e.1 ∉ nodeIds c := fun hc2 => hdisj hc2 hmem
      refine htxt e he n ?_
      simp only [getByIdL, getById_none c e.1 hnc]
      exact hn
    have hf2 : ∀ e ∈ σ, ∀ i, i ∈ nodeIdsL e.2 → i ∉ nodeIdsL cs ∨ i = e.1 := by
      intro e he i hi
      rcases hf e he i hi with h | h
      · exact Or.inl fun hc => h (hmems _ hc)
      · exact Or.inr h
    have hrest := substNodupL cs σ hnd.of_append_right htxt2 hk hs hf2 hp
    cases hlk : lookupSeg σ c.idOf with
    | some l0 =>
      have hent := (lookupSeg_mem σ c.idOf l0 hlk).1
      have hcc : getByIdL (c :: cs) c.idOf = some c := by
        simp only [getByIdL, getById_self c]
      obtain ⟨d, hd⟩ := htxt (c.idOf, l0) hent c hcc
      refine ⟨hs _ hent, hrest, ?_⟩
      intro i hi hi2
      rcases substUpL cs σ i hnd.of_append_right hi2 with ⟨hir, _⟩ | ⟨e, he, h1, h2⟩
      · rcases hf (c.idOf, l0) hent i hi with h | h
        · exact h (hmems _ hir)
        · refine hdisj ?_ hir
          rw [h]
          exact idOf_mem_nodeIds c
      · by_cases hee : (c.idOf, l0).1 = e.1
        · refine hdisj ?_ h1
          rw [← hee]
          exact idOf_mem_nodeIds c
        · exact seg_disj σ (c.idOf, l0) e hp hk hent he hee i hi h2
    | none =>
      have hrootc : ∀ e ∈ σ, e.1 ≠ c.idOf := by
        intro e he hc
        refine (lookupSeg_none_iff σ c.idOf).mp hlk ?_
        exact hc ▸ List.mem_map.mpr ⟨e, he, rfl⟩
      have htxtc : ∀ e ∈ σ, ∀ n, getById c e.1 = some n →
          ∃ d, n = DNode.text e.1 d := by
        intro e he n hn
        exact htxt e he n (liftLookupL (c :: cs) hnd c (List.mem_cons_self c cs) e.1 n hn)
      have hfc : ∀ e ∈ σ, ∀ i, i ∈ nodeIdsL e.2 → i ∉ nodeIds c ∨ i = e.1 := by
        intro e he i hi
        rcases hf e he i hi with h | h
        · exact Or.inl fun hc2 => h (hmemc _ hc2)
        · exact Or.inr h
      have hcnd := substNodup c σ hnd.of_append_left hrootc htxtc hk hs hfc hp
      refine ⟨by simp only [nodeIdsL, List.append_nil]; exact hcnd, hrest, ?_⟩
      intro i hi hi2
      simp only [nodeIdsL, List.append_nil] at hi
      rcases substUp c σ i hnd.of_append_left hrootc hi with
        ⟨hic, _⟩ | ⟨e, he, h1, h2⟩
      · rcases substUpL cs σ i hnd.of_append_right hi2 with ⟨hir, _⟩ | ⟨f, hfm, g1, g2⟩
        · exact hdisj hic hir
        · rcases hf f hfm i g2 with h | h
          · exact h (hmemc _ hic)
          · refine hdisj hic ?_
            rw [h]
            exact g1
      · rcases substUpL cs σ i hnd.of_append_right hi2 with ⟨hir, _⟩ | ⟨f, hfm, g1, g2⟩
        · rcases hf e he i h2 with h | h
          · exact h (hmems _ hir)
          · refine hdisj ?_ hir
            rw [h]
            exact h1
        · by_cases hee : e.1 = f.1
          · refine hdisj h1 ?_
            rw [hee]
            exact g1
          · exact seg_disj σ e f hp hk he hfm hee i h2 g2
end

mutual
/-- A substitution whose every recorded segment is exactly the recorded
node itself leaves the tree unchanged. -/
theorem substIdent : ∀ t σ, (nodeIds t).Nodup →
    (∀ e ∈ σ, ∀ n, getById t e.1 = some n →
      (∃ d, n = DNode.text e.1 d) ∧ e.2 = [n]) →
    subst σ t = t
  | .text j d => by intro σ hnd hid; rfl
  | .elem j nm c cs => by
    intro σ hnd hid
    show DNode.elem j nm c (substL σ cs) = DNode.elem j nm c cs
    simp only [nodeIds] at hnd
    rw [substIdentL cs σ hnd.of_cons ?_]
    intro e he n hn
    refine hid e he n ?_
    have hmem : e.1 ∈ nodeIdsL cs := getById_memL cs e.1 n hn
    have hj : j ≠ e.1 := fun hh => (List.nodup_cons.mp hnd).1 (hh ▸ hmem)
    simp only [getById, DNode.idOf]
    rw [if_neg hj]
    exact hn
/-- Forest version of `substIdent`. -/
theorem substIdentL : ∀ l σ, (nodeIdsL l).Nodup →
    (∀ e ∈ σ, ∀ n, getByIdL l e.1 = some n →
      (∃ d, n = DNode.text e.1 d) ∧ e.2 = [n]) →
    substL σ l = l
  | [] => by intro σ hnd hid; rfl
  | c :: cs => by
    intro σ hnd hid
    simp only [substL]
    simp only [nodeIdsL] at hnd
    have hdisj := List.disjoint_of_nodup_append hnd
    have hid2 : ∀ e ∈ σ, ∀ n, getByIdL cs e.1 = some n →
        (∃ d, n = DNode.text e.1 d) ∧ e.2 = [n] := by
      intro e he n hn
      have hmem : e.1 ∈ nodeIdsL cs := getById_memL cs e.1 n hn
      have hnc : e.1 ∉ nodeIds c := fun hc2 => hdisj hc2 hmem
      refine hid e he n ?_
      simp only [getByIdL, getById_none c e.1 hnc]
      exact hn
    rw [substIdentL cs σ hnd.of_append_right hid2]
    cases hlk : lookupSeg σ c.idOf with
    | some l0 =>
      have hent := (lookupSeg_mem σ c.idOf l0 hlk).1
      have hcc : getByIdL (c :: cs) c.idOf = some c := by
        simp only [getByIdL, getById_self c]
      obtain ⟨⟨d, hd⟩, hseg⟩ := hid (c.idOf, l0) hent c hcc
      simp only at hseg
      rw [hseg]
      rfl
    | none =>
      have hidc : ∀ e ∈ σ, ∀ n, getById c e.1 = some n →
          (∃ d, n = DNode.text e.1 d) ∧ e.2 = [n] := by
        intro e he n hn
        exact hid e he n (liftLookupL (c :: cs) hnd c (List.mem_cons_self c cs) e.1 n hn)
      rw [substIdent c σ hnd.of_append_left hidc]
      rfl
end

/-- Substitution keeps the root identity. -/
theorem subst_idOf (σ : List (Nat × List DNode)) (t : DNode) :
    (subst σ t).idOf = t.idOf := by
  cases t <;> rfl

/-- Lookup of an absent identity in a forest fails. -/
theorem getByIdL_none (l : List DNode) (q : Nat) (h : q ∉ nodeIdsL l) :
    getByIdL l q = none := by
  induction l with
  | nil => rfl
  | cons n ns ih =>
    simp only [nodeIdsL, List.mem_append, not_or] at h
    simp only [getByIdL, getById_none n q h.1]
    exact ih h.2

/-- Surgery skips a prefix free of the target. -/
theorem surgDeep_skip (u v : List DNode) (w : Nat)
    (act : DNode → List DNode → List DNode) (h : w ∉ nodeIdsL u) :
    surgDeep w act (u ++ v) = u ++ surgDeep w act v := by
  induction u with
  | nil => rfl
  | cons n us ih =>
    simp only [nodeIdsL, List.mem_append, not_or] at h
    simp only [List.cons_append, surgDeep, List.append_eq]
    have hnw : ¬ n.idOf = w := fun hh => h.1 (by rw [← hh]; exact idOf_mem_nodeIds n)
    rw [if_neg hnw, surgT_noop n w act h.1, ih h.2]

/-- Surgery hitting a clean prefix acts inside the prefix. -/
theorem surgDeep_hit (seg rest : List DNode) (w : Nat)
    (g : DNode → List DNode) (hnd : (nodeIdsL seg).Nodup)
    (hw : w ∈ seg.map DNode.idOf) :
    surgDeep w (prependAct g) (seg ++ rest) =
      surgL w (prependAct g) seg ++ rest := by
  induction seg with
  | nil => cases hw
  | cons n ss ih =>
    simp only [nodeIdsL] at hnd
    simp only [List.cons_append, surgDeep, surgL, List.append_eq]
    by_cases h0 : n.idOf = w
    · rw [if_pos h0, if_pos h0]
      simp only [prependAct, List.append_eq, List.append_assoc]
    · rw [if_neg h0, if_neg h0]
      simp only [List.map_cons, List.mem_cons] at hw
      rcases hw with hw | hw
      · exact absurd hw.symm h0
      · have hwss : w ∈ nodeIdsL ss := mem_idsL_of_map ss w hw
        have hwn : w ∉ nodeIds n := fun hc =>
          (List.disjoint_of_nodup_append hnd) hc hwss
        rw [surgT_noop n w _ hwn, ih hnd.of_append_right hw, List.cons_append]

mutual
/-- Substitutions agreeing on all identities of a tree coincide on it. -/
theorem substAgree : ∀ t σ σ2,
    (∀ k ∈ nodeIds t, lookupSeg σ k = lookupSeg σ2 k) → subst σ t = subst σ2 t
  | .text j d => by intro σ σ2 h; rfl
  | .elem j nm c cs => by
    intro σ σ2 h
    show DNode.elem j nm c (substL σ cs) = DNode.elem j nm c (substL σ2 cs)
    rw [substAgreeL cs σ σ2 ?_]
    intro k hk
    refine h k ?_
    simp only [nodeIds, List.mem_cons]
    exact Or.inr hk
/-- Forest version of `substAgree`. -/
theorem substAgreeL : ∀ l σ σ2,
    (∀ k ∈ nodeIdsL l, lookupSeg σ k = lookupSeg σ2 k) → substL σ l = substL σ2 l
  | [] => by intro σ σ2 h; rfl
  | c :: cs => by
    intro σ σ2 h
    simp only [substL]
    have hc : ∀ k ∈ nodeIds c, lookupSeg σ k = lookupSeg σ2 k := by
      intro k hk
      refine h k ?_
      simp only [nodeIdsL, List.mem_append]
      exact Or.inl hk
    have hcs : ∀ k ∈ nodeIdsL cs, lookupSeg σ k = lookupSeg σ2 k := by
      intro k hk
      refine h k ?_
      simp only [nodeIdsL, List.mem_append]
      exact Or.inr hk
    rw [substAgreeL cs σ σ2 hcs, hc c.idOf (idOf_mem_nodeIds c),
      substAgree c σ σ2 hc]
end

mutual
/-- Looking up a non-key identity that occurs in no segment finds the
substituted original node. -/
theorem substGet : ∀ t σ q r, (nodeIds t).Nodup →
    (∀ e ∈ σ, ∀ n, getById t e.1 = some n → ∃ d, n = DNode.text e.1 d) →
    getById t q = some r → (∀ e ∈ σ, e.1 ≠ q) →
    (∀ e ∈ σ, q ∉ nodeIdsL e.2) →
    getById (subst σ t) q = some (subst σ r)
  | .text j d => by
    intro σ q r hnd htxt h hq hseg
    simp only [getById, DNode.idOf] at h
    split at h
    next hj =>
      cases h
      show getById (DNode.text j d) q = _
      simp only [getById, DNode.idOf]
      rw [if_pos hj]
      rfl
    next => cases h
  | .elem j nm c cs => by
    intro σ q r hnd htxt h hq hseg
    simp only [getById, DNode.idOf] at h
    simp only [nodeIds] at hnd
    show getById (DNode.elem j nm c (substL σ cs)) q = _
    simp only [getById, DNode.idOf]
    split at h
    next hj =>
      cases h
      rw [if_pos hj]
      rfl
    next hj =>
      rw [if_neg hj]
      refine substGetL cs σ q r hnd.of_cons ?_ h hq hseg
      intro e he n hn
      refine htxt e he n ?_
      have hmem : e.1 ∈ nodeIdsL cs := getById_memL cs e.1 n hn
      have hje : j ≠ e.1 := fun hh => (List.nodup_cons.mp hnd).1 (hh ▸ hmem)
      simp only [getById, DNode.idOf]
      rw [if_neg hje]
      exact hn
/-- Forest version of `substGet`. -/
theorem substGetL : ∀ l σ q r, (nodeIdsL l).Nodup →
    (∀ e ∈ σ, ∀ n, getByIdL l e.1 = some n → ∃ d, n = DNode.text e.1 d) →
    getByIdL l q = some r → (∀ e ∈ σ, e.1 ≠ q) →
    (∀ e ∈ σ, q ∉ nodeIdsL e.2) →
    getByIdL (substL σ l) q = some (subst σ r)
  | [] => by intro σ q r hnd htxt h hq hseg; cases h
  | c :: cs => by
    intro σ q r hnd htxt h hq hseg
    simp only [getByIdL] at h
    simp only [nodeIdsL] at hnd
    have hdisj := List.disjoint_of_nodup_append hnd
    have htxt2 : ∀ e ∈ σ, ∀ n, getByIdL cs e.1 = some n →
        ∃ d, n = DNode.text e.1 d := by
      intro e he n hn
      have hmem : e.1 ∈ nodeIdsL cs := getById_memL cs e.1 n hn
      have hnc : e.1 ∉ nodeIds c := fun hc2 => hdisj hc2 hmem
      refine htxt e he n ?_
      simp only [getByIdL, getById_none c e.1 hnc]
      exact hn
    simp only [substL]
    rw [getByIdL_append]
    cases hx : getById c q with
    | some r0 =>
      simp only [hx] at h
      cases h
      cases hlk : lookupSeg σ c.idOf with
      | some l0 =>
        exfalso
        have hent := (lookupSeg_mem σ c.idOf l0 hlk).1
        have hcc : getByIdL (c :: cs) c.idOf = some c := by
          simp only [getByIdL, getById_self c]
        obtain ⟨d, hd⟩ := htxt (c.idOf, l0) hent c hcc
        have hqm : q ∈ nodeIds c := getById_mem c q _ hx
        rw [hd] at hqm
        simp only [nodeIds, List.mem_singleton] at hqm
        exact hq (c.idOf, l0) hent hqm.symm
      | none =>
        have htxtc : ∀ e ∈ σ, ∀ n, getById c e.1 = some n →
            ∃ d, n = DNode.text e.1 d := by
          intro e he n hn
          exact htxt e he n (liftLookupL (c :: cs) hnd c (List.mem_cons_self c cs) e.1 n hn)
        have hrec := substGet c σ q r hnd.of_append_left htxtc hx hq hseg
        simp only [nodeIdsL, getByIdL, hrec]
    | none =>
      simp only [hx] at h
      have hqc : q ∉ nodeIds c := not_mem_of_getById_none c q hx
      have hrec := substGetL cs σ q r hnd.of_append_right htxt2 h hq hseg
      cases hlk : lookupSeg σ c.idOf with
      | some l0 =>
        have hent := (lookupSeg_mem σ c.idOf l0 hlk).1
        rw [getByIdL_none l0 q (hseg _ hent)]
        exact hrec
      | none =>
        have hrootc : ∀ e ∈ σ, e.1 ≠ c.idOf := by
          intro e he hc2
          refine (lookupSeg_none_iff σ c.idOf).mp hlk ?_
          exact hc2 ▸ List.mem_map.mpr ⟨e, he, rfl⟩
        have hnone : getById (subst σ c) q = none := by
          refine getById_none _ q ?_
          intro hc
          rcases substUp c σ q hnd.of_append_left hrootc hc with
            ⟨hic, _⟩ | ⟨e, he, h1, h2⟩
          · exact hqc hic
          · exact hseg e he h2
        simp only [getByIdL, hnone]
        exact hrec
end

mutual
/-- A prepending surgery at a top-level member of a recorded segment is
substitution under the updated table: the central exchange law between DOM
surgery and the segment algebra. -/
theorem substStep : ∀ t σ z seg w g, (nodeIds t).Nodup →
    (∀ e ∈ σ, e.1 ≠ t.idOf) →
    (∀ e ∈ σ, ∀ n, getById t e.1 = some n → ∃ d, n = DNode.text e.1 d) →
    lookupSeg σ z = some seg → (nodeIdsL seg).Nodup →
    w ∈ seg.map DNode.idOf → (w ∉ nodeIds t ∨ w = z) →
    (∀ e ∈ σ, e.1 ≠ z → w ∉ nodeIdsL e.2) →
    surgT w (prependAct g) (subst σ t) =
      subst (segUpd σ z (surgL w (prependAct g))) t
  | .text j d => by intro σ z seg w g hnd hroot htxt hlk hsnd hw hwc hwo; rfl
  | .elem j nm c cs => by
    intro σ z seg w g hnd hroot htxt hlk hsnd hw hwc hwo
    show surgT w (prependAct g) (DNode.elem j nm c (substL σ cs)) =
      DNode.elem j nm c (substL (segUpd σ z (surgL w (prependAct g))) cs)
    simp only [surgT]
    simp only [nodeIds] at hnd
    rw [substStepL cs σ z seg w g hnd.of_cons ?_ hlk hsnd hw ?_ hwo]
    · intro e he n hn
      refine htxt e he n ?_
      have hmem : e.1 ∈ nodeIdsL cs := getById_memL cs e.1 n hn
      have hje : j ≠ e.1 := fun hh => (List.nodup_cons.mp hnd).1 (hh ▸ hmem)
      simp only [getById, DNode.idOf]
      rw [if_neg hje]
      exact hn
    · rcases hwc with h | h
      · refine Or.inl fun hc => h ?_
        simp only [nodeIds, List.mem_cons]
        exact Or.inr hc
      · exact Or.inr h
/-- Forest version of `substStep`. -/
theorem substStepL : ∀ l σ z seg w g, (nodeIdsL l).Nodup →
    (∀ e ∈ σ, ∀ n, getByIdL l e.1 = some n → ∃ d, n = DNode.text e.1 d) →
    lookupSeg σ z = some seg → (nodeIdsL seg).Nodup →
    w ∈ seg.map DNode.idOf → (w ∉ nodeIdsL l ∨ w = z) →
    (∀ e ∈ σ, e.1 ≠ z → w ∉ nodeIdsL e.2) →
    surgDeep w (prependAct g) (substL σ l) =
      substL (segUpd σ z (surgL w (prependAct g))) l
  | [] => by intro σ z seg w g hnd htxt hlk hsnd hw hwc hwo; rfl
  | c :: cs => by
    intro σ z seg w g hnd htxt hlk hsnd hw hwc hwo
    simp only [substL]
    simp only [nodeIdsL] at hnd
    have hdisj := List.disjoint_of_nodup_append hnd
    have htxt2 : ∀ e ∈ σ, ∀ n, getByIdL cs e.1 = some n →
        ∃ d, n = DNode.text e.1 d := by
      intro e he n hn
      have hmem : e.1 ∈ nodeIdsL cs := getById_memL cs e.1 n hn
      have hnc : e.1 ∉ nodeIds c := fun hc2 => hdisj hc2 hmem
      refine htxt e he n ?_
      simp only [getByIdL, getById_none c e.1 hnc]
      exact hn
    have hwc2 : w ∉ nodeIdsL cs ∨ w = z := by
      rcases hwc with h | h
      · refine Or.inl fun hc => h ?_
        simp only [nodeIdsL, List.mem_append]
        exact Or.inr hc
      · exact Or.inr h
    by_cases hcz : c.idOf = z
    · rw [hcz, hlk, lookupSeg_upd_self σ z _ seg hlk]
      rw [surgDeep_hit seg _ w g hsnd hw]
      have hagree : substL (segUpd σ z (surgL w (prependAct g))) cs = substL σ cs := by
        refine substAgreeL cs _ σ ?_
        intro k hk
        have hkz : k ≠ z := by
          intro hh
          refine hdisj ?_ hk
          rw [← hcz] at hh
          rw [hh]
          exact idOf_mem_nodeIds c
        exact lookupSeg_upd_other σ z k _ hkz
      rw [hagree]
    · rw [lookupSeg_upd_other σ z c.idOf _ hcz]
      cases hlk2 : lookupSeg σ c.idOf with
      | some l0 =>
        have hent := (lookupSeg_mem σ c.idOf l0 hlk2).1
        have hwl0 : w ∉ nodeIdsL l0 := hwo (c.idOf, l0) hent hcz
        rw [surgDeep_skip l0 _ w _ hwl0]
        rw [substStepL cs σ z seg w g hnd.of_append_right htxt2 hlk hsnd hw hwc2 hwo]
      | none =>
        have hrootc : ∀ e ∈ σ, e.1 ≠ c.idOf := by
          intro e he hc2
          refine (lookupSeg_none_iff σ c.idOf).mp hlk2 ?_
          exact hc2 ▸ List.mem_map.mpr ⟨e, he, rfl⟩
        have htxtc : ∀ e ∈ σ, ∀ n, getById c e.1 = some n →
            ∃ d, n = DNode.text e.1 d := by
          intro e he n hn
          exact htxt e he n (liftLookupL (c :: cs) hnd c (List.mem_cons_self c cs) e.1 n hn)
        have hwcc : w ∉ nodeIds c ∨ w = z := by
          rcases hwc with h | h
          · refine Or.inl fun hc => h ?_
            simp only [nodeIdsL, List.mem_append]
            exact Or.inl hc
          · exact Or.inr h
        have hhd : ¬ (subst σ c).idOf = w := by
          rw [subst_idOf]
          intro hh
          rcases hwc with h | h
          · refine h ?_
            simp only [nodeIdsL, List.mem_append]
            exact Or.inl (hh ▸ idOf_mem_nodeIds c)
          · rw [h] at hh
            exact hcz hh
        simp only [List.singleton_append, surgDeep]
        rw [if_neg hhd]
        rw [substStep c σ z seg w g hnd.of_append_left hrootc htxtc hlk hsnd hw hwcc hwo]
        simp only [List.append_eq, List.nil_append]
        rw [substStepL cs σ z seg w g hnd.of_append_right htxt2 hlk hsnd hw hwc2 hwo]
end

/-- Identities are preserved by `className` assignment. -/
theorem setClassName_ids (n : DNode) (wc : Str) :
    nodeIds (setClassName n wc) = nodeIds n := by
  cases n <;> rfl

mutual
/-- The empty substitution is the identity. -/
theorem substNil : ∀ t, subst [] t = t
  | .text j d => rfl
  | .elem j nm c cs => by
    show DNode.elem j nm c (substL [] cs) = DNode.elem j nm c cs
    rw [substNilL cs]
/-- Forest version of `substNil`. -/
theorem substNilL : ∀ l, substL [] l = l
  | [] => rfl
  | c :: cs => by
    simp only [substL, lookupSeg]
    rw [substNil c, substNilL cs]
    rfl
end

mutual
/-- Appending an identity entry does not change a substitution. -/
theorem substIdentExt : ∀ t σ z zd, (nodeIds t).Nodup →
    (getById t z = some (DNode.text z zd) ∨ z ∉ nodeIds t) →
    subst (σ ++ [(z, [DNode.text z zd])]) t = subst σ t
  | .text j d => by intro σ z zd hnd hz; rfl
  | .elem j nm c cs => by
    intro σ z zd hnd hz
    show DNode.elem j nm c (substL (σ ++ [(z, [DNode.text z zd])]) cs) =
      DNode.elem j nm c (substL σ cs)
    simp only [nodeIds] at hnd
    rw [substIdentExtL cs σ z zd hnd.of_cons ?_]
    rcases hz with hz | hz
    · simp only [getById, DNode.idOf] at hz
      split at hz
      next hj =>
        cases hz
      next hj => exact Or.inl hz
    · refine Or.inr fun hc => hz ?_
      simp only [nodeIds, List.mem_cons]
      exact Or.inr hc
/-- Forest version of `substIdentExt`. -/
theorem substIdentExtL : ∀ l σ z zd, (nodeIdsL l).Nodup →
    (getByIdL l z = some (DNode.text z zd) ∨ z ∉ nodeIdsL l) →
    substL (σ ++ [(z, [DNode.text z zd])]) l = substL σ l
  | [] => by intro σ z zd hnd hz; rfl
  | c :: cs => by
    intro σ z zd hnd hz
    simp only [substL]
    simp only [nodeIdsL] at hnd
    have hdisj := List.disjoint_of_nodup_append hnd
    have hzc : getById c z = some (DNode.text z zd) ∨ z ∉ nodeIds c := by
      rcases hz with hz | hz
      · simp only [getByIdL] at hz
        cases hx : getById c z with
        | some r =>
          rw [hx] at hz
          injection hz with hr
          rw [hr]
          exact Or.inl rfl
        | none => exact Or.inr (not_mem_of_getById_none c z hx)
      · refine Or.inr fun hc => hz ?_
        simp only [nodeIdsL, List.mem_append]
        exact Or.inl hc
    have hzcs : getByIdL cs z = some (DNode.text z zd) ∨ z ∉ nodeIdsL cs := by
      rcases hz with hz | hz
      · simp only [getByIdL] at hz
        cases hx : getById c z with
        | some r =>
          rw [hx] at hz
          have hm : z ∈ nodeIds c := getById_mem c z _ hx
          exact Or.inr fun hc => hdisj hm hc
        | none =>
          rw [hx] at hz
          exact Or.inl hz
      · refine Or.inr fun hc => hz ?_
        simp only [nodeIdsL, List.mem_append]
        exact Or.inr hc
    rw [substIdentExtL cs σ z zd hnd.of_append_right hzcs]
    rw [lookupSeg_append]
    cases hlk : lookupSeg σ c.idOf with
    | some l0 => rfl
    | none =>
      simp only [lookupSeg]
      by_cases hcz : z = c.idOf
      · rw [if_pos hcz]
        rcases hzc with hzc | hzc
        · have hcc : c = DNode.text z zd := by
            have hself : getById c c.idOf = some c := getById_self c
            rw [← hcz] at hself
            rw [hzc] at hself
            exact ((Option.some.injEq _ _).mp hself).symm
          rw [hcc]
          rfl
        · exfalso
          refine hzc ?_
          rw [hcz]
          exact idOf_mem_nodeIds c
      · rw [if_neg hcz]
        rw [substIdentExt c σ z zd hnd.of_append_left hzc]
end

/-- The empty replay is the identity. -/
theorem revertAll_nil (t : DNode) : revertAll [] t = t := rfl

/-- A current text child of an element subject is not the subject root. -/
theorem rootNe (t : DNode) (k : Nat) (d : Str) (helem : IsElemT t)
    (h : getById t k = some (DNode.text k d)) : k ≠ t.idOf := by
  intro hk
  obtain ⟨j, nm, c, cs, hj⟩ := helem
  subst hj
  rw [hk] at h
  rw [getById_self] at h
  cases h

/-- The key-text hypothesis packaged from a well-formed segment table. -/
theorem segok_htxt (t : DNode) (n00 : Nat) (σ : List (Nat × List DNode))
    (nid : Nat) (hseg : SegOK t n00 σ nid) :
    ∀ e ∈ σ, ∀ n, getById t e.1 = some n → ∃ d, n = DNode.text e.1 d := by
  intro e he n hn
  obtain ⟨d, hd⟩ := hseg.2.1 e he
  rw [hd] at hn
  injection hn with h2
  exact ⟨d, h2.symm⟩

/-- Keys of a well-formed table avoid an element subject root. -/
theorem segok_hroot (t : DNode) (n00 : Nat) (σ : List (Nat × List DNode))
    (nid : Nat) (hseg : SegOK t n00 σ nid) (helem : IsElemT t) :
    ∀ e ∈ σ, e.1 ≠ t.idOf := by
  intro e he
  obtain ⟨d, hd⟩ := hseg.2.1 e he
  exact rootNe t e.1 d helem hd

/-- A surgery target inside a recorded segment avoids the other
segments. -/
theorem segok_other (t : DNode) (n00 : Nat) (σ : List (Nat × List DNode))
    (nid : Nat) (hseg : SegOK t n00 σ nid) (z : Nat) (seg : List DNode)
    (hlk : lookupSeg σ z = some seg) (w : Nat) (hw : w ∈ seg.map DNode.idOf) :
    ∀ e ∈ σ, e.1 ≠ z → w ∉ nodeIdsL e.2 := by
  intro e he hez hc
  have hent := (lookupSeg_mem σ z seg hlk).1
  have hwseg : w ∈ nodeIdsL seg := mem_idsL_of_map seg w hw
  exact seg_disj σ (z, seg) e hseg.2.2.2.2 hseg.1 hent he
    (fun hh => hez (by rw [← hh])) w hwseg hc

/-- Packaged exchange step: insertion before a segment member. -/
theorem stepInsAt (t : DNode) (σ : List (Nat × List DNode)) (n00 nid : Nat)
    (z : Nat) (seg : List DNode) (w : Nat) (nw : DNode)
    (hnd : (nodeIds t).Nodup) (helem : IsElemT t)
    (hb : ∀ i ∈ nodeIds t, i < n00) (hseg : SegOK t n00 σ nid)
    (hlk : lookupSeg σ z = some seg) (hw : w ∈ seg.map DNode.idOf)
    (hwz : w ∉ nodeIds t ∨ w = z) :
    insertBeforeId (subst σ t) w nw =
      subst (segUpd σ z (surgL w (prependAct (fun n => [nw, n])))) t := by
  rw [insertBeforeId_prep]
  exact substStep t σ z seg w _ hnd (segok_hroot t n00 σ nid hseg helem)
    (segok_htxt t n00 σ nid hseg) hlk
    (hseg.2.2.1 _ (lookupSeg_mem σ z seg hlk).1) hw hwz
    (segok_other t n00 σ nid hseg z seg hlk w hw)

/-- Packaged exchange step: removal of a segment member. -/
theorem stepRemAt (t : DNode) (σ : List (Nat × List DNode)) (n00 nid : Nat)
    (z : Nat) (seg : List DNode) (w : Nat)
    (hnd : (nodeIds t).Nodup) (helem : IsElemT t)
    (hb : ∀ i ∈ nodeIds t, i < n00) (hseg : SegOK t n00 σ nid)
    (hlk : lookupSeg σ z = some seg) (hw : w ∈ seg.map DNode.idOf)
    (hwz : w ∉ nodeIds t ∨ w = z) :
    removeId (subst σ t) w =
      subst (segUpd σ z (surgL w (prependAct (fun _ => [])))) t := by
  rw [removeId_prep]
  exact substStep t σ z seg w _ hnd (segok_hroot t n00 σ nid hseg helem)
    (segok_htxt t n00 σ nid hseg) hlk
    (hseg.2.2.1 _ (lookupSeg_mem σ z seg hlk).1) hw hwz
    (segok_other t n00 σ nid hseg z seg hlk w hw)

/-- The windows of a record run are ordered. -/
theorem recsok_le (t : DNode) :
    ∀ (recs : List IRec) (ks : List Nat) (lo hi : Nat),
      RecsOK t ks recs lo hi → lo ≤ hi
  | [], ks, lo, hi => fun h => h
  | r :: rs, ks, lo, hi => by
    intro h
    obtain ⟨mid, h1, _, _, _, _, _, htail⟩ := h
    have := recsok_le t rs _ mid hi htail
    omega

/-- Replacement-node identities of a record run live in its window. -/
theorem recsok_window (t : DNode) :
    ∀ (recs : List IRec) (ks : List Nat) (lo hi : Nat),
      RecsOK t ks recs lo hi →
      ∀ r ∈ recs, ∀ i ∈ nodeIds r.innerN, lo ≤ i ∧ i < hi
  | [], ks, lo, hi => fun _ r hr => absurd hr (List.not_mem_nil r)
  | r0 :: rs, ks, lo, hi => by
    intro h r hr i hi2
    obtain ⟨mid, h1, hw, _, _, _, _, htail⟩ := h
    have hmh := recsok_le t rs _ mid hi htail
    rcases List.mem_cons.mp hr with hr | hr
    · subst hr
      have := hw i hi2
      omega
    · have := recsok_window t rs _ mid hi htail r hr i hi2
      omega

/-- Replacement-node identity sets of distinct records are disjoint. -/
theorem recsok_pairwise (t : DNode) :
    ∀ (recs : List IRec) (ks : List Nat) (lo hi : Nat),
      RecsOK t ks recs lo hi →
      List.Pairwise (fun a b => ∀ i ∈ nodeIds a.innerN, i ∉ nodeIds b.innerN)
        recs
  | [], ks, lo, hi => fun _ => List.Pairwise.nil
  | r0 :: rs, ks, lo, hi => by
    intro h
    obtain ⟨mid, h1, hw, _, _, _, _, htail⟩ := h
    refine List.Pairwise.cons ?_ (recsok_pairwise t rs _ mid hi htail)
    intro r hr i hi2 hc
    have h2 := hw i hi2
    have h3 := recsok_window t rs _ mid hi htail r hr i hc
    omega

/-- Updating a missing key does nothing. -/
theorem segUpd_absent (σ : List (Nat × List DNode)) (z : Nat)
    (f : List DNode → List DNode) (h : z ∉ σ.map Prod.fst) :
    segUpd σ z f = σ := by
  induction σ with
  | nil => rfl
  | cons e es ih =>
    simp only [List.map_cons, List.mem_cons, not_or] at h
    simp only [segUpd]
    rw [if_neg (fun hh => h.1 hh.symm), ih h.2]

/-- `jsSubstring` with both arguments in range slices between them. -/
theorem jsSubstring_within (s : Str) (a b : Int) (h0 : 0 ≤ a) (hab : a ≤ b)
    (hb : b ≤ (s.length : Int)) :
    jsSubstring s a b = (s.take b.toNat).drop a.toNat := by
  unfold jsSubstring
  dsimp only
  have h1 : min (max a 0) ((s.length : Nat) : Int) = a := by omega
  have h2 : min (max b 0) ((s.length : Nat) : Int) = b := by omega
  rw [h1, h2, min_eq_left hab, max_eq_right hab]

/-- `jsSubstring` with a nonpositive start clamps the start to zero. -/
theorem jsSubstring_negStart (s : Str) (a b : Int) (h0 : a ≤ 0) (hb : 0 ≤ b)
    (hb2 : b ≤ (s.length : Int)) :
    jsSubstring s a b = s.take b.toNat := by
  unfold jsSubstring
  dsimp only
  have h1 : min (max a 0) ((s.length : Nat) : Int) = 0 := by omega
  have h2 : min (max b 0) ((s.length : Nat) : Int) = b := by omega
  rw [h1, h2, min_eq_left hb, max_eq_right hb]
  simp

/-- `jsSubstring` with an end beyond the string clamps the end to the length. -/
theorem jsSubstring_overEnd (s : Str) (a b : Int) (h0 : 0 ≤ a)
    (ha : a ≤ (s.length : Int)) (hb : (s.length : Int) ≤ b) :
    jsSubstring s a b = s.drop a.toNat := by
  unfold jsSubstring
  dsimp only
  have h1 : min (max a 0) ((s.length : Nat) : Int) = a := by omega
  have h2 : min (max b 0) ((s.length : Nat) : Int) = (s.length : Int) := by omega
  rw [h1, h2, min_eq_left ha, max_eq_right ha]
  simp

/-- Feeding an appended chunk stream feeds the two parts in order. -/
theorem feedT_append (xs ys : List (Nat × Str)) (tv : Trav) :
    feedT (xs ++ ys) tv = feedT ys (feedT xs tv) := by
  induction xs generalizing tv with
  | nil => rfl
  | cons c cs ih => exact ih _

/-- The character stream of an appended chunk list. -/
theorem chunksText_append (xs ys : List (Nat × Str)) :
    chunksText (xs ++ ys) = chunksText xs ++ chunksText ys := by
  induction xs with
  | nil => rfl
  | cons c cs ih =>
    show c.2 ++ chunksText (cs ++ ys) = (c.2 ++ chunksText cs) ++ chunksText ys
    rw [ih, List.append_assoc]

/-- The text of an appended portion list. -/
theorem portionText_append (xs ys : List Portion) :
    portionText (xs ++ ys) = portionText xs ++ portionText ys := by
  induction xs with
  | nil => rfl
  | cons p ps ih =>
    show p.text ++ portionText (ps ++ ys) = (p.text ++ portionText ps) ++ portionText ys
    rw [ih, List.append_assoc]

/-- `indexOK` splits over an append. -/
theorem indexOK_append (xs ys : List Portion) (acc : Nat)
    (h1 : indexOK acc xs) (h2 : indexOK (acc + (portionText xs).length) ys) :
    indexOK acc (xs ++ ys) := by
  induction xs generalizing acc with
  | nil => simpa using h2
  | cons p ps ih =>
    refine ⟨h1.1, ih _ h1.2 ?_⟩
    have h3 : acc + p.text.length + (portionText ps).length
        = acc + (portionText (p :: ps)).length := by
      simp only [portionText, List.length_append]
      omega
    rw [h3]
    exact h2

/-- A text node entirely before the match start only advances the index. -/
theorem textStep_skip (i : Nat) (d : Str) (tv : Trav) (m : MatchWithMeta)
    (hcm : tv.cm = some m) (hsp : tv.startP = none)
    (hle : tv.atIndex + d.length ≤ m.startIndex) (hnz : m.startIndex < m.endIndex) :
    textStep (DNode.text i d) tv = { tv with atIndex := tv.atIndex + d.length } := by
  unfold textStep
  rw [hcm]
  try dsimp only
  have hc1 : ¬(tv.endP = none ∧ tv.atIndex + d.length ≥ m.endIndex) := by
    intro hh
    exact absurd hh.2 (by omega)
  have hc2 : ¬(tv.startP.isSome = true) := by
    rw [hsp]
    simp
  rw [if_neg hc1, if_neg hc2]
  try dsimp only
  have hc3 : ¬(tv.startP = none ∧ tv.atIndex + d.length > m.startIndex) := by
    intro hh
    exact absurd hh.2 (by omega)
  rw [if_neg hc3, hcm]

/-- A text node strictly inside the match is recorded as an inner portion. -/
theorem textStep_inner (i : Nat) (d : Str) (tv : Trav) (m : MatchWithMeta)
    (hcm : tv.cm = some m) (hsp : tv.startP.isSome = true)
    (hlt : tv.atIndex + d.length < m.endIndex) :
    textStep (DNode.text i d) tv =
      { tv with
        inners := tv.inners ++ [{ node := DNode.text i d, index := tv.portionIndex, text := d, indexInMatch := tv.consumed, indexInNode := 0, endIndexInNode := (d.length : Int), isEnd := false }],
        portionIndex := tv.portionIndex + 1,
        consumed := tv.consumed + d.length,
        atIndex := tv.atIndex + d.length } := by
  unfold textStep
  rw [hcm]
  try dsimp only
  have hc1 : ¬(tv.endP = none ∧ tv.atIndex + d.length ≥ m.endIndex) := by
    intro hh
    exact absurd hh.2 (by omega)
  rw [if_neg hc1, if_pos hsp]
  try dsimp only
  have hc3 : ¬(tv.startP = none ∧ tv.atIndex + d.length > m.startIndex) := by
    intro hh
    rw [hh.1] at hsp
    simp at hsp
  rw [if_neg hc3]
  try dsimp only
  try rw [hcm]
  try rfl

/-- The text node where the match starts (but does not end) records the start
portion and initializes the consumed length. -/
theorem textStep_start (i : Nat) (d : Str) (tv : Trav) (m : MatchWithMeta)
    (hcm : tv.cm = some m) (hsp : tv.startP = none)
    (hlt : tv.atIndex + d.length < m.endIndex)
    (hgt : tv.atIndex + d.length > m.startIndex) :
    textStep (DNode.text i d) tv =
      { tv with
        startP := some { node := DNode.text i d, index := tv.portionIndex, text := jsSubstring d ((m.startIndex : Int) - (tv.atIndex : Int)) ((m.endIndex : Int) - (tv.atIndex : Int)), indexInMatch := 0, indexInNode := (m.startIndex : Int) - (tv.atIndex : Int), endIndexInNode := (m.endIndex : Int) - (tv.atIndex : Int), isEnd := false },
        portionIndex := tv.portionIndex + 1,
        consumed := (jsSubstring d ((m.startIndex : Int) - (tv.atIndex : Int)) ((m.endIndex : Int) - (tv.atIndex : Int))).length,
        atIndex := tv.atIndex + d.length } := by
  unfold textStep
  rw [hcm]
  try dsimp only
  have hc1 : ¬(tv.endP = none ∧ tv.atIndex + d.length ≥ m.endIndex) := by
    intro hh
    exact absurd hh.2 (by omega)
  have hc2 : ¬(tv.startP.isSome = true) := by
    rw [hsp]
    simp
  rw [if_neg hc1, if_neg hc2]
  try dsimp only
  rw [if_pos ⟨hsp, hgt⟩, hcm]

/-- The text node where the match ends (having started in an earlier node)
records the end portion. -/
theorem textStep_end (i : Nat) (d : Str) (tv : Trav) (m : MatchWithMeta)
    (hcm : tv.cm = some m) (hep : tv.endP = none) (hsp : tv.startP.isSome = true)
    (hge : tv.atIndex + d.length ≥ m.endIndex) :
    textStep (DNode.text i d) tv =
      { tv with
        endP := some { node := DNode.text i d, index := tv.portionIndex, text := jsSubstring d ((m.startIndex : Int) - (tv.atIndex : Int)) ((m.endIndex : Int) - (tv.atIndex : Int)), indexInMatch := tv.consumed, indexInNode := (m.startIndex : Int) - (tv.atIndex : Int), endIndexInNode := (m.endIndex : Int) - (tv.atIndex : Int), isEnd := true },
        portionIndex := tv.portionIndex + 1,
        atIndex := tv.atIndex + d.length } := by
  unfold textStep
  rw [hcm]
  try dsimp only
  have hcc1 : tv.endP = none ∧ tv.atIndex + d.length ≥ m.endIndex := ⟨hep, hge⟩
  rw [if_pos hcc1]
  try dsimp only
  have hc3 : ¬(tv.startP = none ∧ tv.atIndex + d.length > m.startIndex) := by
    intro hh
    rw [hh.1] at hsp
    simp at hsp
  rw [if_neg hc3]
  try dsimp only
  try rw [hcm]
  try rfl

/-- The text node where the match both starts and ends records the end
portion and then the start portion, both holding the same sliced text. -/
theorem textStep_single (i : Nat) (d : Str) (tv : Trav) (m : MatchWithMeta)
    (hcm : tv.cm = some m) (hep : tv.endP = none) (hsp : tv.startP = none)
    (hge : tv.atIndex + d.length ≥ m.endIndex)
    (hgt : tv.atIndex + d.length > m.startIndex) :
    textStep (DNode.text i d) tv =
      { tv with
        startP := some { node := DNode.text i d, index := tv.portionIndex + 1, text := jsSubstring d ((m.startIndex : Int) - (tv.atIndex : Int)) ((m.endIndex : Int) - (tv.atIndex : Int)), indexInMatch := 0, indexInNode := (m.startIndex : Int) - (tv.atIndex : Int), endIndexInNode := (m.endIndex : Int) - (tv.atIndex : Int), isEnd := false },
        endP := some { node := DNode.text i d, index := tv.portionIndex, text := jsSubstring d ((m.startIndex : Int) - (tv.atIndex : Int)) ((m.endIndex : Int) - (tv.atIndex : Int)), indexInMatch := tv.consumed, indexInNode := (m.startIndex : Int) - (tv.atIndex : Int), endIndexInNode := (m.endIndex : Int) - (tv.atIndex : Int), isEnd := true },
        portionIndex := tv.portionIndex + 1 + 1,
        consumed := (jsSubstring d ((m.startIndex : Int) - (tv.atIndex : Int)) ((m.endIndex : Int) - (tv.atIndex : Int))).length,
        atIndex := tv.atIndex + d.length } := by
  unfold textStep
  rw [hcm]
  try dsimp only
  have hcc1 : tv.endP = none ∧ tv.atIndex + d.length ≥ m.endIndex := ⟨hep, hge⟩
  rw [if_pos hcc1]
  try dsimp only
  have hcc3 : tv.startP = none ∧ tv.atIndex + d.length > m.startIndex := ⟨hsp, hgt⟩
  rw [if_pos hcc3]
  try dsimp only
  try rw [hcm]
  try rfl

/-- Feeding chunks that end at or before the match start only advances the
stream index. -/
theorem feedSkip (cs : List (Nat × Str)) (tv : Trav) (m : MatchWithMeta)
    (hcm : tv.cm = some m) (hsp : tv.startP = none)
    (hle : tv.atIndex + (chunksText cs).length ≤ m.startIndex)
    (hnz : m.startIndex < m.endIndex) :
    feedT cs tv = { tv with atIndex := tv.atIndex + (chunksText cs).length } := by
  induction cs generalizing tv with
  | nil =>
    show tv = { tv with atIndex := tv.atIndex + (chunksText []).length }
    rfl
  | cons c cs ih =>
    have hlen : (chunksText (c :: cs)).length = c.2.length + (chunksText cs).length := by
      show (c.2 ++ chunksText cs).length = _
      simp
    have hstep := textStep_skip c.1 c.2 tv m hcm hsp (by omega) hnz
    show feedT cs (textStep (DNode.text c.1 c.2) tv) = _
    rw [hstep]
    rw [ih { tv with atIndex := tv.atIndex + c.2.length } hcm hsp
      (by show tv.atIndex + c.2.length + (chunksText cs).length ≤ m.startIndex; omega)]
    try dsimp only
    have h2 : tv.atIndex + c.2.length + (chunksText cs).length
        = tv.atIndex + (chunksText (c :: cs)).length := by
      omega
    rw [h2]

/-- Feeding chunks strictly inside the match records them as inner portions
whose texts tile the stream and whose match offsets accumulate. -/
theorem feedInner (cs : List (Nat × Str)) (tv : Trav) (m : MatchWithMeta)
    (hcm : tv.cm = some m) (hsp : tv.startP.isSome = true)
    (hlt : tv.atIndex + (chunksText cs).length < m.endIndex) :
    ∃ inns : List Portion,
      (feedT cs tv).cm = tv.cm ∧
      (feedT cs tv).startP = tv.startP ∧
      (feedT cs tv).endP = tv.endP ∧
      (feedT cs tv).inners = tv.inners ++ inns ∧
      (feedT cs tv).consumed = tv.consumed + (chunksText cs).length ∧
      (feedT cs tv).atIndex = tv.atIndex + (chunksText cs).length ∧
      portionText inns = chunksText cs ∧
      indexOK tv.consumed inns := by
  induction cs generalizing tv with
  | nil =>
    exact ⟨[], rfl, rfl, rfl, (List.append_nil _).symm, rfl, rfl, rfl, trivial⟩
  | cons c cs ih =>
    have hlen : (chunksText (c :: cs)).length = c.2.length + (chunksText cs).length := by
      show (c.2 ++ chunksText cs).length = _
      simp
    have hstep := textStep_inner c.1 c.2 tv m hcm hsp (by omega)
    set pI : Portion := { node := DNode.text c.1 c.2, index := tv.portionIndex, text := c.2, indexInMatch := tv.consumed, indexInNode := 0, endIndexInNode := (c.2.length : Int), isEnd := false } with hpIdef
    have pcm : (textStep (DNode.text c.1 c.2) tv).cm = tv.cm := by
      rw [hstep]
    have psp : (textStep (DNode.text c.1 c.2) tv).startP = tv.startP := by
      rw [hstep]
    have pep : (textStep (DNode.text c.1 c.2) tv).endP = tv.endP := by
      rw [hstep]
    have pin : (textStep (DNode.text c.1 c.2) tv).inners = tv.inners ++ [pI] := by
      rw [hstep]
    have pco : (textStep (DNode.text c.1 c.2) tv).consumed = tv.consumed + c.2.length := by
      rw [hstep]
    have pai : (textStep (DNode.text c.1 c.2) tv).atIndex = tv.atIndex + c.2.length := by
      rw [hstep]
    obtain ⟨inns, h1, h2, h3, h4, h5, h6, h7, h8⟩ :=
      ih (textStep (DNode.text c.1 c.2) tv) (by rw [pcm]; exact hcm)
        (by rw [psp]; exact hsp)
        (by rw [pai]; show tv.atIndex + c.2.length + (chunksText cs).length < m.endIndex; omega)
    refine ⟨pI :: inns, ?_, ?_, ?_, ?_, ?_, ?_, ?_, ?_⟩
    · show (feedT cs (textStep (DNode.text c.1 c.2) tv)).cm = tv.cm
      rw [h1, pcm]
    · show (feedT cs (textStep (DNode.text c.1 c.2) tv)).startP = tv.startP
      rw [h2, psp]
    · show (feedT cs (textStep (DNode.text c.1 c.2) tv)).endP = tv.endP
      rw [h3, pep]
    · show (feedT cs (textStep (DNode.text c.1 c.2) tv)).inners = tv.inners ++ pI :: inns
      rw [h4, pin, List.append_assoc]
      rfl
    · show (feedT cs (textStep (DNode.text c.1 c.2) tv)).consumed
        = tv.consumed + (chunksText (c :: cs)).length
      rw [h5, pco, hlen]
      omega
    · show (feedT cs (textStep (DNode.text c.1 c.2) tv)).atIndex
        = tv.atIndex + (chunksText (c :: cs)).length
      rw [h6, pai, hlen]
      omega
    · show c.2 ++ portionText inns = c.2 ++ chunksText cs
      rw [h7]
    · refine ⟨rfl, ?_⟩
      have h9 := h8
      rw [pco] at h9
      exact h9

/-- Taking a slice that begins inside the head list and runs past the middle
list splits into a head drop, the whole middle and a tail take. -/
theorem slice_three (d S L : Str) (a0 s e : Nat)
    (h1 : a0 ≤ s) (h2 : s < a0 + d.length) (h3 : a0 + d.length + S.length < e)
    (h4 : e ≤ a0 + d.length + S.length + L.length) :
    ((d ++ (S ++ L)).drop (s - a0)).take (e - s)
      = d.drop (s - a0) ++ (S ++ L.take (e - (a0 + d.length + S.length))) := by
  rw [List.drop_append_eq_append_drop]
  have h5 : s - a0 - d.length = 0 := by omega
  rw [h5, List.drop_zero]
  rw [List.take_append_eq_append_take]
  rw [List.take_of_length_le (by rw [List.length_drop]; omega)]
  rw [List.length_drop]
  have h7 : (e - s) - (d.length - (s - a0)) = e - (a0 + d.length) := by omega
  rw [h7]
  rw [List.take_append_eq_append_take]
  rw [List.take_of_length_le (by omega)]
  have h8 : e - (a0 + d.length) - S.length = e - (a0 + d.length + S.length) := by omega
  rw [h8]

/-- Dropping past the whole head of an append discards the head. -/
theorem slice_skipHead (d R : Str) (a0 s e : Nat) (h1 : a0 + d.length ≤ s) :
    ((d ++ R).drop (s - a0)).take (e - s)
      = (R.drop (s - (a0 + d.length))).take (e - s) := by
  rw [List.drop_append_eq_append_drop, List.drop_eq_nil_of_le (by omega), List.nil_append]
  have h2 : s - a0 - d.length = s - (a0 + d.length) := by omega
  rw [h2]

set_option maxHeartbeats 1000000 in
/-- C3: for a match resolved over a stream of text chunks (entered with no
pending portions, starting at or after the cursor, ending inside the final
chunk, with the matched field the corresponding slice of the stream),
concatenating the text fields of all its portions (start portion, inner
portions, end portion, merged to one portion when start and end share a node)
in sequence order equals the match's full matched substring, and each
portion's indexInMatch equals the total length of the portion texts
preceding it. -/
theorem claim_C3_portion_accounting
    (m : MatchWithMeta) (cs : List (Nat × Str)) (lc : Nat × Str) (tv0 : Trav)
    (hcm : tv0.cm = some m) (hsp0 : tv0.startP = none) (hep0 : tv0.endP = none)
    (hinn0 : tv0.inners = []) (hcons0 : tv0.consumed = 0)
    (ha : tv0.atIndex ≤ m.startIndex)
    (hnz : m.startIndex < m.endIndex)
    (hend1 : tv0.atIndex + (chunksText cs).length < m.endIndex)
    (hend : m.endIndex ≤ tv0.atIndex + (chunksText (cs ++ [lc])).length)
    (hids : ((cs ++ [lc]).map Prod.fst).Nodup)
    (hmt : m.matched = ((chunksText (cs ++ [lc])).drop
      (m.startIndex - tv0.atIndex)).take (m.endIndex - m.startIndex)) :
    ∃ sp ep,
      (feedT (cs ++ [lc]) tv0).startP = some sp ∧
      (feedT (cs ++ [lc]) tv0).endP = some ep ∧
      portionText (portionsOf { m := m, startP := sp, inners := (feedT (cs ++ [lc]) tv0).inners, endP := ep }) = m.matched ∧
      indexOK 0 (portionsOf { m := m, startP := sp, inners := (feedT (cs ++ [lc]) tv0).inners, endP := ep }) := by
  revert hcm hsp0 hep0 hinn0 hcons0 ha hend1 hend hids hmt
  induction cs generalizing tv0 with
  | nil =>
    intro hcm hsp0 hep0 hinn0 hcons0 ha hend1 hend hids hmt
    have hL : (chunksText ([] ++ [lc])).length = lc.2.length := by
      show (lc.2 ++ chunksText []).length = _
      simp [chunksText]
    have hstep := textStep_single lc.1 lc.2 tv0 m hcm hep0 hsp0 (by omega) (by omega)
    have hfe0 : feedT ([] ++ [lc]) tv0 = textStep (DNode.text lc.1 lc.2) tv0 := rfl
    rw [hfe0, hstep]
    refine ⟨_, _, rfl, rfl, ?_, ?_⟩
    · unfold portionsOf
      dsimp only [DNode.idOf]
      rw [if_pos rfl]
      simp only [portionText, List.append_nil]
      have hT : jsSubstring lc.2 ((m.startIndex : Int) - (tv0.atIndex : Int)) ((m.endIndex : Int) - (tv0.atIndex : Int)) = (lc.2.take (m.endIndex - tv0.atIndex)).drop (m.startIndex - tv0.atIndex) := by
        rw [jsSubstring_within _ _ _ (by omega) (by omega) (by omega)]
        have e1 : ((m.endIndex : Int) - (tv0.atIndex : Int)).toNat = m.endIndex - tv0.atIndex := by omega
        have e2 : ((m.startIndex : Int) - (tv0.atIndex : Int)).toNat = m.startIndex - tv0.atIndex := by omega
        rw [e1, e2]
      rw [hT, hmt]
      have hch : chunksText ([] ++ [lc]) = lc.2 := by
        show lc.2 ++ ([] : Str) = lc.2
        exact List.append_nil _
      rw [hch, List.drop_take]
      have e3 : m.endIndex - tv0.atIndex - (m.startIndex - tv0.atIndex) = m.endIndex - m.startIndex := by
        omega
      rw [e3]
    · unfold portionsOf
      dsimp only [DNode.idOf]
      rw [if_pos rfl]
      exact ⟨hcons0, trivial⟩
  | cons c cs ih =>
    intro hcm hsp0 hep0 hinn0 hcons0 ha hend1 hend hids hmt
    have hlen1 : (chunksText (c :: cs)).length = c.2.length + (chunksText cs).length := by
      show (c.2 ++ chunksText cs).length = _
      simp
    have hlenc : (chunksText ((c :: cs) ++ [lc])).length = c.2.length + (chunksText (cs ++ [lc])).length := by
      show (c.2 ++ chunksText (cs ++ [lc])).length = _
      simp
    have hlen2 : (chunksText (cs ++ [lc])).length = (chunksText cs).length + lc.2.length := by
      rw [chunksText_append]
      show (chunksText cs ++ (lc.2 ++ ([] : Str))).length = _
      simp
    have hids2 : (c.1 :: (cs ++ [lc]).map Prod.fst).Nodup := hids
    by_cases hskip : tv0.atIndex + c.2.length ≤ m.startIndex
    · have hstep := textStep_skip c.1 c.2 tv0 m hcm hsp0 hskip hnz
      have hfeS : feedT ((c :: cs) ++ [lc]) tv0 = feedT (cs ++ [lc]) { tv0 with atIndex := tv0.atIndex + c.2.length } := by
        show feedT (cs ++ [lc]) (textStep (DNode.text c.1 c.2) tv0) = _
        rw [hstep]
      have hmt2 := hmt
      have hx2 : chunksText ((c :: cs) ++ [lc]) = c.2 ++ chunksText (cs ++ [lc]) := rfl
      rw [hx2, slice_skipHead c.2 (chunksText (cs ++ [lc])) tv0.atIndex m.startIndex m.endIndex hskip] at hmt2
      rw [hfeS]
      exact ih { tv0 with atIndex := tv0.atIndex + c.2.length } hcm hsp0 hep0 hinn0 hcons0
        hskip
        (by show tv0.atIndex + c.2.length + (chunksText cs).length < m.endIndex; omega)
        (by show m.endIndex ≤ tv0.atIndex + c.2.length + (chunksText (cs ++ [lc])).length; omega)
        (List.Nodup.of_cons hids2)
        hmt2
    · have hgt : tv0.atIndex + c.2.length > m.startIndex := by omega
      have hlt : tv0.atIndex + c.2.length < m.endIndex := by omega
      have hstep := textStep_start c.1 c.2 tv0 m hcm hsp0 hlt hgt
      have hAcm : (textStep (DNode.text c.1 c.2) tv0).cm = some m := by
        rw [hstep]
        exact hcm
      have hAsp : (textStep (DNode.text c.1 c.2) tv0).startP.isSome = true := by
        rw [hstep]
        rfl
      have hAep : (textStep (DNode.text c.1 c.2) tv0).endP = none := by
        rw [hstep]
        exact hep0
      have hAin : (textStep (DNode.text c.1 c.2) tv0).inners = [] := by
        rw [hstep]
        exact hinn0
      have hAco : (textStep (DNode.text c.1 c.2) tv0).consumed = (jsSubstring c.2 ((m.startIndex : Int) - (tv0.atIndex : Int)) ((m.endIndex : Int) - (tv0.atIndex : Int))).length := by
        rw [hstep]
      have hAat : (textStep (DNode.text c.1 c.2) tv0).atIndex = tv0.atIndex + c.2.length := by
        rw [hstep]
      obtain ⟨inns, i1, i2, i3, i4, i5, i6, i7, i8⟩ :=
        feedInner cs (textStep (DNode.text c.1 c.2) tv0) m hAcm hAsp
          (by rw [hAat]; show tv0.atIndex + c.2.length + (chunksText cs).length < m.endIndex; omega)
      have qcm : (feedT cs (textStep (DNode.text c.1 c.2) tv0)).cm = some m := i1.trans hAcm
      have qep : (feedT cs (textStep (DNode.text c.1 c.2) tv0)).endP = none := i3.trans hAep
      have qsps : (feedT cs (textStep (DNode.text c.1 c.2) tv0)).startP.isSome = true := by
        rw [i2]
        exact hAsp
      have hXat : (feedT cs (textStep (DNode.text c.1 c.2) tv0)).atIndex = tv0.atIndex + c.2.length + (chunksText cs).length := by
        rw [i6, hAat]
      have hXco : (feedT cs (textStep (DNode.text c.1 c.2) tv0)).consumed = (jsSubstring c.2 ((m.startIndex : Int) - (tv0.atIndex : Int)) ((m.endIndex : Int) - (tv0.atIndex : Int))).length + (chunksText cs).length := by
        rw [i5, hAco]
      have hstep2 := textStep_end lc.1 lc.2 (feedT cs (textStep (DNode.text c.1 c.2) tv0)) m qcm qep qsps
        (by rw [hXat]; show tv0.atIndex + c.2.length + (chunksText cs).length + lc.2.length ≥ m.endIndex; omega)
      have hfe : feedT ((c :: cs) ++ [lc]) tv0 = textStep (DNode.text lc.1 lc.2) (feedT cs (textStep (DNode.text c.1 c.2) tv0)) := by
        show feedT (cs ++ [lc]) (textStep (DNode.text c.1 c.2) tv0) = _
        rw [feedT_append]
        rfl
      have fin : (textStep (DNode.text lc.1 lc.2) (feedT cs (textStep (DNode.text c.1 c.2) tv0))).inners = inns := by
        rw [hstep2]
        show (feedT cs (textStep (DNode.text c.1 c.2) tv0)).inners = inns
        rw [i4, hAin]
        exact List.nil_append inns
      have hlcmem : lc.1 ∈ (cs ++ [lc]).map Prod.fst :=
        List.mem_map.mpr ⟨lc, List.mem_append_right _ (List.mem_singleton.mpr rfl), rfl⟩
      have hne : c.1 ≠ lc.1 := by
        intro he
        apply (List.nodup_cons.mp hids2).1
        rw [he]
        exact hlcmem
      rw [hfe]
      refine ⟨_, _, (congrArg Trav.startP hstep2).trans (i2.trans (congrArg Trav.startP hstep)), congrArg Trav.endP hstep2, ?_, ?_⟩
      · rw [fin]
        unfold portionsOf
        dsimp only [DNode.idOf]
        rw [if_neg hne]
        simp only [portionText, portionText_append, List.append_nil]
        rw [i7, hXat]
        have hsp3 : jsSubstring c.2 ((m.startIndex : Int) - (tv0.atIndex : Int)) ((m.endIndex : Int) - (tv0.atIndex : Int)) = c.2.drop (m.startIndex - tv0.atIndex) := by
          rw [jsSubstring_overEnd _ _ _ (by omega) (by omega) (by omega)]
          have e2 : ((m.startIndex : Int) - (tv0.atIndex : Int)).toNat = m.startIndex - tv0.atIndex := by omega
          rw [e2]
        have hep3 : jsSubstring lc.2 ((m.startIndex : Int) - ((tv0.atIndex + c.2.length + (chunksText cs).length : Nat) : Int)) ((m.endIndex : Int) - ((tv0.atIndex + c.2.length + (chunksText cs).length : Nat) : Int)) = lc.2.take (m.endIndex - (tv0.atIndex + c.2.length + (chunksText cs).length)) := by
          rw [jsSubstring_negStart _ _ _ (by omega) (by omega) (by omega)]
          have e3 : ((m.endIndex : Int) - ((tv0.atIndex + c.2.length + (chunksText cs).length : Nat) : Int)).toNat = m.endIndex - (tv0.atIndex + c.2.length + (chunksText cs).length) := by omega
          rw [e3]
        rw [hsp3, hep3, hmt]
        have hx : chunksText ((c :: cs) ++ [lc]) = c.2 ++ (chunksText cs ++ lc.2) := by
          show c.2 ++ chunksText (cs ++ [lc]) = _
          rw [chunksText_append]
          show c.2 ++ (chunksText cs ++ (lc.2 ++ ([] : Str))) = _
          rw [List.append_nil]
        rw [hx, slice_three c.2 (chunksText cs) lc.2 tv0.atIndex m.startIndex m.endIndex ha (by omega) (by omega) (by omega)]
      · rw [fin]
        unfold portionsOf
        dsimp only [DNode.idOf]
        rw [if_neg hne]
        refine ⟨rfl, ?_⟩
        rw [Nat.zero_add]
        refine indexOK_append _ _ _ ?_ ?_
        · have i8x := i8
          rw [hAco] at i8x
          exact i8x
        · refine ⟨?_, trivial⟩
          try dsimp only
          rw [hXco, i7]
      

/-- C3 witness: the accounting holds on a concrete two-node match. -/
theorem claim_C3_witness :
    ∃ sp ep,
      (feedT (exC3cs ++ [exC3lc]) exC3tv).startP = some sp ∧
      (feedT (exC3cs ++ [exC3lc]) exC3tv).endP = some ep ∧
      portionText (portionsOf { m := exC3m, startP := sp, inners := (feedT (exC3cs ++ [exC3lc]) exC3tv).inners, endP := ep }) = exC3m.matched ∧
      indexOK 0 (portionsOf { m := exC3m, startP := sp, inners := (feedT (exC3cs ++ [exC3lc]) exC3tv).inners, endP := ep }) :=
  claim_C3_portion_accounting exC3m exC3cs exC3lc exC3tv rfl rfl rfl rfl rfl
    (by decide) (by decide) (by decide) (by decide) (by decide) (by decide)


/-- DOM adoption is invisible for a node absent from the tree: on a fresh
node the adoption-aware insertion agrees with the plain one, so the two
engine translations coincide whenever every inserted node is fresh. -/
theorem insertBeforeIdMove_absent (t : DNode) (ref : Nat) (nw : DNode)
    (h : parentIdOf t nw.idOf = none) :
    insertBeforeIdMove t ref nw = insertBeforeId t ref nw := by
  unfold insertBeforeIdMove removeIfParented
  dsimp only
  rw [h]
  try rfl

/-- DOM adoption is invisible for `replaceChild` of a node absent from the
tree. -/
theorem replaceIdMove_absent (t : DNode) (target : Nat) (nw : DNode)
    (h : parentIdOf t nw.idOf = none) :
    replaceIdMove t target nw = replaceId t target nw := by
  unfold replaceIdMove removeIfParented
  dsimp only
  rw [h]
  try rfl

/-- A `replace` function returning a fresh node per call — the usage in the
repository's tests: on a concrete adoption-faithful run the engine inserts
the returned element and `revert()` restores the original tree bit for bit
and clears the inverse-operation list. -/
theorem freshNodeReplace_revert_instance :
    runFinderMove exC1fo exC1broot 12 = Except.ok (some exC1fst) ∧
    (revertF exC1fst).tree = exC1broot ∧ (revertF exC1fst).reverts = [] :=
  ⟨rfl, rfl, rfl⟩

end RDT
